import Mathlib

/-!
# sd2iec: directory synthesizer (fileops.c) and Turbodisk engine (fastloader.c)

A shallow embedding of the parts of `fileops.c` and `fastloader.c` that the
verified properties are about.

Conventions of the embedding.

* A byte (`uint8_t`, and `char`, which the firmware build treats as unsigned)
  is a `Nat`; where the C code can overflow, the arithmetic is written with an
  explicit `% 256`.
* A C array is a `List Nat`; reading index `i` is `peek a i` and writing is
  `poke a i v`.  A NUL-terminated string is the list of the bytes stored from
  the pointer on, so `*p` is `p.headD 0` and `p + 1` is `p.tail`.
* Stateful code passes its state explicitly and returns the new state.
* Calls to collaborators that are not part of these two files (bus primitives,
  buffer pool, filesystem wrappers) are recorded as events or taken as
  parameters.
-/

namespace Sd2iec

set_option maxRecDepth 8000

/-! ## Constants and data model -/

/-- Modelled from the spec: the macro `CBM_NAME_LENGTH` is declared in a header
that is not part of the translated sources.  The name field of a listing record
is "the 16-byte padded name", and `addentry` itself tests `i == 16`. -/
def CBM_NAME_LENGTH : Nat := 16

/-- Modelled from the spec: the macro `TYPE_LENGTH` is declared in a header
that is not part of the translated sources.  A type code has three characters,
one row of the `filetypes` table. -/
def TYPE_LENGTH : Nat := 3

/-- Bit masks of the `typeflags` byte.  Their values are declared in a header
that is not part of the translated sources, so they are parameters of the
embedding. -/
structure Consts where
  TYPE_MASK : Nat
  FLAG_HIDDEN : Nat
  FLAG_RO : Nat
  FLAG_SPLAT : Nat
  deriving Repr, DecidableEq

/-- The mask values of the firmware headers (type in the low three bits,
hidden, read-only and splat in bits 5, 6 and 7); used for concrete runs. -/
def stdConsts : Consts :=
  { TYPE_MASK := 7, FLAG_HIDDEN := 32, FLAG_RO := 64, FLAG_SPLAT := 128 }

/-- Modelled from the spec: `struct cbmdirent` is declared in a header that is
not part of the translated sources.  A directory entry has the fixed-width
padded file name (0xA0 is the pad; the array has room for a terminator), the
size in blocks (16 bit) and the byte with the type tag and the flag bits. -/
structure cbmdirent where
  name : List Nat
  blocksize : Nat
  typeflags : Nat
  deriving Repr, DecidableEq

/-- Read `a[i]`. -/
def peek (a : List Nat) (i : Nat) : Nat := a.getD i 0

/-- Write `a[i] = v`. -/
def poke (a : List Nat) (i v : Nat) : List Nat := a.set i v

/-! ## match_name (fileops.c 154-179) -/

/-- The `while` loop of `match_name` together with the test after it.  `i` is
the loop counter and `matchstr` the moving pattern pointer.  Every iteration
that does not return increments `i`, so `CBM_NAME_LENGTH + 1` rounds are always
enough; the first argument counts the rounds left. -/
def match_name_loop (filename : List Nat) : Nat → List Nat → Nat → Nat
  | 0, matchstr, _ =>
    if matchstr.headD 0 ≠ 0 ∧ matchstr.headD 0 ≠ 42 then 0 else 1
  | n + 1, matchstr, i =>
    if peek filename i ≠ 0xa0 ∧ i < CBM_NAME_LENGTH then
      if matchstr.headD 0 = 63 then
        -- case '?'
        match_name_loop filename n matchstr.tail (i + 1)
      else if matchstr.headD 0 = 42 then
        -- case '*'
        1
      else if peek filename i ≠ matchstr.headD 0 then
        0
      else
        match_name_loop filename n matchstr.tail (i + 1)
    else if matchstr.headD 0 ≠ 0 ∧ matchstr.headD 0 ≠ 42 then 0 else 1

/-- Match a pattern against a CBM-padded filename; returns 1 if matching. -/
def match_name (matchstr : List Nat) (filename : List Nat) : Nat :=
  match_name_loop filename (CBM_NAME_LENGTH + 1) matchstr 0

/-! ## Directory cursor and next_match (fileops.c 181-209) -/

/-- Modelled from the spec: `readdir` belongs to the filesystem wrapper, which
is not part of the translated sources.  The spec gives its contract as
`readNextEntry(cursor) -> entry|end|fail`; one answer of the cursor is either an
entry or a fault with its (positive) error code. -/
inductive ReadResult where
  | entry (d : cbmdirent)
  | fail (code : Int)
  deriving Repr, DecidableEq

/-- A directory handle `DIR`: the answers the cursor still has to give. -/
abbrev DIR := List ReadResult

/-- Modelled from the spec: `readdir(dh, dent)` returns 0 and fills `dent` with
the next entry, returns -1 when the cursor is exhausted, and returns the error
code on a fault; the cursor advances past the answer it gave. -/
def readdir (dh : DIR) (dent : cbmdirent) : Int × DIR × cbmdirent :=
  match dh with
  | [] => (-1, [], dent)
  | ReadResult.entry d :: rest => (0, rest, d)
  | ReadResult.fail code :: rest => (code, rest, dent)

/-- Get the next matching dirent.  `matchstr` is `none` for a NULL pattern.
Returns the result code, the advanced cursor and `dent`.  The recursion follows
the cursor: each `continue` has consumed one entry. -/
def next_match (c : Consts) : DIR → Option (List Nat) → Nat → cbmdirent →
    Int × DIR × cbmdirent
  | [], _, _, dent => (-1, [], dent)
  | ReadResult.fail code :: rest, matchstr, type, dent =>
    if code = 0 then
      -- a readdir that answers 0 without an entry leaves dent as it was
      if (type &&& c.TYPE_MASK) ≠ 0 ∧
          (dent.typeflags &&& c.TYPE_MASK) ≠ (type &&& c.TYPE_MASK) then
        next_match c rest matchstr type dent
      else if (dent.typeflags &&& c.FLAG_HIDDEN) ≠ 0 ∧ (type &&& c.FLAG_HIDDEN) = 0 then
        next_match c rest matchstr type dent
      else if matchstr.isSome ∧ match_name (matchstr.getD []) dent.name = 0 then
        next_match c rest matchstr type dent
      else (code, rest, dent)
    else (code, rest, dent)
  | ReadResult.entry d :: rest, matchstr, type, _ =>
    -- res == 0
    if (type &&& c.TYPE_MASK) ≠ 0 ∧
        (d.typeflags &&& c.TYPE_MASK) ≠ (type &&& c.TYPE_MASK) then
      -- Skip if the type doesn't match
      next_match c rest matchstr type d
    else if (d.typeflags &&& c.FLAG_HIDDEN) ≠ 0 ∧ (type &&& c.FLAG_HIDDEN) = 0 then
      -- Skip hidden files
      next_match c rest matchstr type d
    else if matchstr.isSome ∧ match_name (matchstr.getD []) d.name = 0 then
      -- Skip if the name doesn't match
      next_match c rest matchstr type d
    else (0, rest, d)

/-! ## Buffer slots -/

/-- The functions a slot's `refill` and `cleanup` pointers are bound to: the two
callbacks defined in `fileops.c`, or a callback of a storage backend outside
these files (told apart by a number). -/
inductive Callback where
  | generic_cleanup
  | dir_refill
  | external (id : Nat)
  deriving Repr, DecidableEq

/-- Modelled from the spec: `buffer_t` is declared in a header that is not part
of the translated sources.  The spec lists its attributes: the byte array of one
sector (256 bytes), `position`, `length` (both 8 bit; the valid bytes are
`data[position .. position+length]`), `sendeoi`, the secondary channel, the
read/write mode flags, the `refill` and `cleanup` bindings, and the private
area, which for a directory listing holds the cursor `dh`, the pattern
`matchstr` (`none` for NULL) and the type filter `filetype`.  `allocated` tells
a slot in use from a free one. -/
structure buffer_t where
  data : List Nat
  position : Nat
  length : Nat
  sendeoi : Bool
  secondary : Nat
  read : Bool
  write : Bool
  allocated : Bool
  refill : Callback
  cleanup : Callback
  dh : DIR
  matchstr : Option (List Nat)
  filetype : Nat
  deriving Repr, DecidableEq

/-- Modelled from the spec: the buffer pool is not part of the translated
sources.  Of the pool the embedding keeps the record of the calls made for the
slot under observation: how often `alloc_buffer` handed it out and how often
`free_buffer` was called on it. -/
structure Pool where
  allocs : Nat
  frees : Nat
  deriving Repr, DecidableEq

/-- Modelled from the spec: `allocate() -> Slot | None` returns a free slot or
signals exhaustion.  `free` is the slot the pool has to offer, if any. -/
def alloc_buffer (free : Option buffer_t) (p : Pool) : Option buffer_t × Pool :=
  match free with
  | none => (none, p)
  | some b => (some { b with allocated := true }, { p with allocs := p.allocs + 1 })

/-- Modelled from the spec: `release(slot)` returns the slot to the free set. -/
def free_buffer (buf : buffer_t) (p : Pool) : buffer_t × Pool :=
  ({ buf with allocated := false }, { p with frees := p.frees + 1 })

/-- Modelled from the spec: `find_buffer(secondary)` yields the allocated slot
bound to the channel, if there is one. -/
def find_buffer (slot : Option buffer_t) (secondary : Nat) : Option buffer_t :=
  match slot with
  | none => none
  | some b => if b.allocated ∧ b.secondary = secondary then some b else none

/-! ## Directory generation (fileops.c 42-152) -/

/-- Offset of the disk id in the header, `HEADER_OFFSET_ID`. -/
def HEADER_OFFSET_ID : Nat := 26

/-- The table `dirheader`. -/
def dirheader : List Nat :=
  [1, 4,                            -- BASIC start address
   1, 1,                            -- next line pointer
   0, 0,                            -- line number 0
   0x12, 0x22,                      -- Reverse on, quote
   32, 32, 32, 32, 32, 32, 32, 32,  -- 16 spaces as the disk name
   32, 32, 32, 32, 32, 32, 32, 32,
   0x22, 0x20,                      -- quote, space
   73, 75, 32, 50, 65,              -- id IK, shift-space, dosmarker 2A
   0]                               -- line-end marker

/-- The table `dirfooter`. -/
def dirfooter : List Nat :=
  [1, 1,                            -- next line pointer
   0, 0,                            -- number of free blocks
   66, 76, 79, 67, 75, 83, 32, 70, 82, 69, 69, 46,   -- BLOCKS FREE.
   0x20, 0x20, 0x20, 0x20, 0x20, 0x20, 0x20, 0x20,   -- Filler and end marker
   0x20, 0x20, 0x20, 0x20, 0x20, 0x00, 0x00, 0x00]

/-- The table `filetypes`. -/
def filetypes : List Nat :=
  [68, 69, 76,   -- DEL 0
   83, 69, 81,   -- SEQ 1
   80, 82, 71,   -- PRG 2
   85, 83, 82,   -- USR 3
   82, 69, 76,   -- REL 4
   67, 66, 77,   -- CBM 5
   68, 73, 82]   -- DIR 6

/-- Modelled from the spec: the type tags are macros of a header that is not
part of the translated sources; their values are the row numbers the source
gives in the `filetypes` table.  Tag of deleted (empty) entries. -/
def TYPE_DEL : Nat := 0

/-- Modelled from the spec: type tag of sequential files, row 1 of `filetypes`. -/
def TYPE_SEQ : Nat := 1

/-- Modelled from the spec: type tag of program files, row 2 of `filetypes`. -/
def TYPE_PRG : Nat := 2

/-- Modelled from the spec: type tag of user files, row 3 of `filetypes`. -/
def TYPE_USR : Nat := 3

/-- Modelled from the spec: type tag of relative files, row 4 of `filetypes`. -/
def TYPE_REL : Nat := 4

/-- Modelled from the spec: type tag of native partitions, row 5 of `filetypes`. -/
def TYPE_CBM : Nat := 5

/-- Modelled from the spec: type tag of directories, row 6 of `filetypes`. -/
def TYPE_DIR : Nat := 6

/-- The call `memset(a + off, v, n)`. -/
def memset (a : List Nat) (off v : Nat) : Nat → List Nat
  | 0 => a
  | n + 1 => poke (memset a off v n) (off + n) v

/-- The call `memcpy(a + off, src, n)` (also `memcpy_P`). -/
def memcpy (a : List Nat) (off : Nat) (src : List Nat) : Nat → List Nat
  | 0 => a
  | n + 1 => poke (memcpy a off src n) (off + n) (peek src n)

/-- The inner loop `while (i<=CBM_NAME_LENGTH) data[i++] &= 0x7f;` of
`addentry`; `base` is the offset of `data` in the buffer.  Returns the memory
and the final `i`.  The first argument counts the rounds left (17 are always
enough). -/
def mask_loop (base : Nat) : Nat → List Nat → Nat → List Nat × Nat
  | 0, m, i => (m, i)
  | n + 1, m, i =>
    if i ≤ CBM_NAME_LENGTH then
      mask_loop base n (poke m (base + i) (peek m (base + i) &&& 0x7f)) (i + 1)
    else (m, i)

/-- The loop `for (i=0;i<=CBM_NAME_LENGTH;i++)` of `addentry` that closes the
quoted name.  The first argument counts the rounds left (18 are always
enough). -/
def quote_loop (name : List Nat) (base : Nat) : Nat → List Nat → Nat → List Nat
  | 0, m, _ => m
  | n + 1, m, i =>
    if i ≤ CBM_NAME_LENGTH then
      if peek name i = 0x22 ∨ peek name i = 0xa0 ∨ i = 16 then
        let r := mask_loop base (CBM_NAME_LENGTH + 1) (poke m (base + i) 0x22) i
        quote_loop name base n r.1 (r.2 + 1)
      else quote_loop name base n m (i + 1)
    else m

/-- Add a single directory entry in 15x1 format to the end of buf.  The local
pointer `data` is kept as an offset into `buf.data`. -/
def addentry (c : Consts) (dent : cbmdirent) (buf : buffer_t) : buffer_t :=
  let data := buf.length
  -- Clear the line
  let m := memset buf.data data 32 31
  -- Line end marker
  let m := poke m (data + 31) 0
  -- Next line pointer
  let m := poke m data 1
  let m := poke m (data + 1) 1
  let m := poke m (data + 2) (dent.blocksize % 256)
  let m := poke m (data + 3) (dent.blocksize / 256 % 256)
  let data := data + 4
  -- Filler before file name
  let data := if dent.blocksize < 1000 then data + 1 else data
  let data := if dent.blocksize < 100 then data + 1 else data
  let data := if dent.blocksize < 10 then data + 1 else data
  let m := poke m data 0x22
  let data := data + 1
  -- copy and adjust the filename
  let m := memcpy m data dent.name CBM_NAME_LENGTH
  let m := quote_loop dent.name data (CBM_NAME_LENGTH + 2) m 0
  -- Skip name and final quote
  let data := data + (CBM_NAME_LENGTH + 1)
  let m := if (dent.typeflags &&& c.FLAG_SPLAT) ≠ 0 then poke m data 42 else m
  -- File type
  let m := memcpy m (data + 1)
    (filetypes.drop (TYPE_LENGTH * (dent.typeflags &&& c.TYPE_MASK))) TYPE_LENGTH
  -- RO marker
  let m := if (dent.typeflags &&& c.FLAG_RO) ≠ 0 then poke m (data + 4) 60 else m
  -- Extension: Hidden marker
  let m := if (dent.typeflags &&& c.FLAG_HIDDEN) ≠ 0 then poke m (data + 5) 72 else m
  { buf with data := m, length := (buf.length + 32) % 256 }

/-! ## Callbacks (fileops.c 211-262) -/

/-- Generic cleanup-callback that just frees the buffer. -/
def generic_cleanup (buf : buffer_t) (p : Pool) : Nat × buffer_t × Pool :=
  let r := free_buffer buf p
  (0, r.1, r.2)

/-- Generate the final directory buffer with the BLOCKS FREE message.  `blocks`
is the answer of `disk_free()`. -/
def dir_footer (blocks : Nat) (buf : buffer_t) : Nat × buffer_t :=
  -- Copy the "BLOCKS FREE" message
  let m := memcpy buf.data 0 dirfooter dirfooter.length
  let m := poke m 2 (blocks % 256)
  let m := poke m 3 (blocks / 256 % 256)
  (0, { buf with data := m, position := 0, length := 31, sendeoi := true })

/-- The content of the local `struct cbmdirent dent` of `dir_refill` before
`next_match` fills it. -/
def dent_uninit : cbmdirent := { name := [], blocksize := 0, typeflags := 0 }

/-- Fill the buffer with one new directory entry.  (The debug character sent
to the UART is not part of the embedding.) -/
def dir_refill (c : Consts) (blocks : Nat) (buf : buffer_t) (p : Pool) :
    Nat × buffer_t × Pool :=
  let buf := { buf with position := 0, length := 0 }
  let r := next_match c buf.dh buf.matchstr buf.filetype dent_uninit
  let buf := { buf with dh := r.2.1 }
  if r.1 = 0 then
    let buf := addentry c r.2.2 buf
    (0, { buf with length := (buf.length + 255) % 256 }, p)
  else if r.1 = -1 then
    let f := dir_footer blocks buf
    (f.1, f.2, p)
  else
    let f := free_buffer buf p
    (1, f.1, f.2)

/-! ## load_directory (fileops.c 264-361) -/

/-- Collaborators of the directory code that are not part of the translated
sources, taken as parameters: `parse_path` (from the text after the first
command byte to the directory path and the name pattern), `opendir` (`none`
when it reports a fault), `disk_label` and `disk_id` (the bytes they store,
`none` when they report a fault) and `disk_free`. -/
structure Env where
  parse_path : List Nat → List Nat × List Nat
  opendir : List Nat → Option DIR
  disk_label : Option (List Nat)
  disk_id : Option (List Nat)
  disk_free : Nat

/-- The call `strchr(s, ch)` for `ch` other than NUL: the offset of the first
`ch` before the terminator. -/
def strchr (s : List Nat) (ch : Nat) : Option Nat :=
  match s with
  | [] => none
  | x :: xs =>
    if x = ch then some 0
    else if x = 0 then none
    else (strchr xs ch).map (fun k => k + 1)

/-- The `switch` of `load_directory` on the letter after `=`. -/
def dir_filetype (c : Consts) (ch : Nat) : Nat :=
  if ch = 83 then TYPE_SEQ            -- 'S'
  else if ch = 80 then TYPE_PRG       -- 'P'
  else if ch = 85 then TYPE_USR       -- 'U'
  else if ch = 82 then TYPE_REL       -- 'R'
  else if ch = 67 then TYPE_CBM       -- 'C'
  else if ch = 66 ∨ ch = 68 then TYPE_DIR   -- 'B', 'D'
  else if ch = 72 then c.FLAG_HIDDEN  -- 'H'
  else 0

/-- The first part of `load_directory` after the allocation: parse the name
pattern and open the directory.  `none` when `opendir` reports a fault. -/
def load_directory_open (c : Consts) (env : Env) (command_buffer : List Nat)
    (command_length : Nat) (buf : buffer_t) : Option buffer_t :=
  let buf := { buf with filetype := 0 }
  if command_length > 2 then
    -- Parse the name pattern
    let pp := env.parse_path (command_buffer.drop 1)
    match env.opendir pp.1 with
    | none => none
    | some dh =>
      let buf := { buf with dh := dh, matchstr := some pp.2 }
      -- Check for a filetype match
      match strchr pp.2 61 with
      | some k =>
        some { buf with matchstr := some (poke pp.2 k 0),
                        filetype := dir_filetype c (peek pp.2 (k + 1)) }
      | none => some buf
  else
    match env.opendir [] with
    | none => none
    | some dh => some { buf with dh := dh, matchstr := none }

/-- Prepare for directory reading and create the header.  `free` is the slot
the pool has to offer.  Returns that slot as the function leaves it (`none`
when the pool had none) and the pool record. -/
def load_directory (c : Consts) (env : Env) (secondary : Nat)
    (command_buffer : List Nat) (command_length : Nat)
    (free : Option buffer_t) (p : Pool) : Option buffer_t × Pool :=
  match alloc_buffer free p with
  | (none, p) => (none, p)
  | (some buf, p) =>
    match load_directory_open c env command_buffer command_length buf with
    | none =>
      let f := free_buffer { buf with filetype := 0 } p
      (some f.1, f.2)
    | some buf =>
      let buf := { buf with secondary := secondary, read := true, write := false,
                            cleanup := Callback.generic_cleanup,
                            position := 0, length := 31, sendeoi := false }
      -- copy static header to start of buffer
      let buf := { buf with data := memcpy buf.data 0 dirheader dirheader.length }
      -- read volume name
      match env.disk_label with
      | none =>
        let f := free_buffer buf p
        (some f.1, f.2)
      | some label =>
        let buf := { buf with data := memcpy buf.data 8 label label.length }
        -- read id
        match env.disk_id with
        | none =>
          let f := free_buffer buf p
          (some f.1, f.2)
        | some id =>
          let buf := { buf with data := memcpy buf.data HEADER_OFFSET_ID id id.length }
          -- Let the refill callback handle everything else
          (some { buf with refill := Callback.dir_refill }, p)

/-! ## load_turbodisk (fastloader.c 39-105) -/

/-- What `load_turbodisk` does to the outside: bus primitives, interrupt
control, clock line, and the calls through the slot's callbacks (a refill is
recorded with the value it returned). -/
inductive Event where
  | set_clock (v : Nat)
  | cli
  | sei
  | release_clock
  | release_data
  | turbodisk_byte (b : Nat)
  | turbodisk_buffer (bytes : List Nat)
  | refill (rc : Nat)
  | cleanup
  deriving Repr, DecidableEq

/-- The valid bytes of a slot, `data[position .. position+length]`. -/
def span (buf : buffer_t) : List Nat :=
  (List.range (buf.length + 1)).map (fun i => peek buf.data (buf.position + i))

/-- The loop `for (i=0 ; i<=buf->length ; i++) turbodisk_byte(...)` with its
8-bit counter.  The first argument bounds the number of rounds.  Returns the
events in order and whether the loop was left; when the rounds do not suffice
the events are those sent so far. -/
def send_last (buf : buffer_t) : Nat → Nat → List Event × Bool
  | 0, _ => ([], false)
  | fuel + 1, i =>
    if i ≤ buf.length then
      let r := send_last buf fuel ((i + 1) % 256)
      (Event.turbodisk_byte (peek buf.data (buf.position + i)) :: r.1, r.2)
    else ([], true)

/-- The first-sector adjustment `buf->position = 2; buf->length -= 2;`, made
when `firstsector` is set. -/
def first_adjust (firstsector : Bool) (buf : buffer_t) : buffer_t :=
  if firstsector then { buf with position := 2, length := (buf.length + 254) % 256 }
  else buf

/-- The `while (1)` loop of `load_turbodisk`.  `call` gives the meaning of the
callbacks on a slot and the state `σ` behind them; `firstsector` is the local
flag.  The first argument bounds the number of rounds of this loop and of the
byte loop.  Returns the events in order and, when the loop was left, the slot
and the state; when the rounds do not suffice the events are those sent so far
and there is no final state. -/
def turbodisk_loop {σ : Type} (call : Callback → buffer_t → σ → Nat × buffer_t × σ) :
    Nat → Bool → buffer_t → σ → List Event × Option (buffer_t × σ)
  | 0, _, _, _ => ([], none)
  | fuel + 1, firstsector, buf, s =>
    -- Send the status byte
    let status := Event.turbodisk_byte (if buf.sendeoi then 0 else 1)
    -- Load address is transferred separately
    let hdr := if firstsector then
        [Event.turbodisk_byte (peek buf.data 0), Event.turbodisk_byte (peek buf.data 1)]
      else []
    let buf := first_adjust firstsector buf
    if buf.sendeoi then
      -- Last sector is sent byte-by-byte
      let r := send_last buf fuel 0
      (status :: hdr ++ Event.turbodisk_byte ((buf.length + 2) % 256) :: r.1,
        if r.2 then some (buf, s) else none)
    else
      let blk := Event.turbodisk_buffer (span buf)
      let r := call buf.refill buf s
      if r.1 ≠ 0 then
        -- Some error, abort
        (status :: hdr ++ [blk, Event.refill r.1, Event.turbodisk_byte 0xff],
          some (r.2.1, r.2.2))
      else
        let k := turbodisk_loop call fuel false r.2.1 r.2.2
        (status :: hdr ++ blk :: Event.refill r.1 :: k.1, k.2)

/-- The function `load_turbodisk`.  `opener` stands for the lines that copy the
file name, call `file_open(0)` and look the slot up with `find_buffer(0)`: it
yields the slot of channel 0, if the open left one.  Returns the events in
order and, when the function returned, the state behind the callbacks. -/
def load_turbodisk {σ : Type} (call : Callback → buffer_t → σ → Nat × buffer_t × σ)
    (opener : σ → Option buffer_t × σ) (fuel : Nat) (s : σ) : List Event × Option σ :=
  let o := opener s
  match o.1 with
  | none =>
    ([Event.set_clock 0, Event.cli, Event.turbodisk_byte 0xff,
      Event.release_clock, Event.release_data, Event.sei], some o.2)
  | some buf =>
    let r := turbodisk_loop call fuel true buf o.2
    match r.2 with
    | none => (Event.set_clock 0 :: Event.cli :: r.1, none)
    | some (b, s2) =>
      (Event.set_clock 0 :: Event.cli :: r.1 ++
        [Event.sei, Event.cleanup, Event.set_clock 1], some (call b.cleanup b s2).2.2)

/-- The callbacks of `fileops.c` on the pool record; `ext` gives the callbacks
of other backends. -/
def fileops_call (c : Consts) (env : Env)
    (ext : Nat → buffer_t → Pool → Nat × buffer_t × Pool) :
    Callback → buffer_t → Pool → Nat × buffer_t × Pool
  | Callback.generic_cleanup, buf, p => generic_cleanup buf p
  | Callback.dir_refill, buf, p => dir_refill c env.disk_free buf p
  | Callback.external id, buf, p => ext id buf p

/-- The open of a directory listing on channel 0 as `load_turbodisk` sees it:
`load_directory(0)` followed by `find_buffer(0)`. -/
def open_listing (c : Consts) (env : Env) (command_buffer : List Nat)
    (command_length : Nat) (free : Option buffer_t) (p : Pool) :
    Option buffer_t × Pool :=
  let r := load_directory c env 0 command_buffer command_length free p
  (find_buffer r.1 0, r.2)

/-! ## Specification-side definitions for match_name -/

/-- The logical name of a padded file name, read from index `i` on: the bytes
of the 16-byte field before the first 0xA0 pad. -/
def logicalFrom (filename : List Nat) (i : Nat) : List Nat :=
  ((filename.take CBM_NAME_LENGTH).drop i).takeWhile (fun b => b ≠ 0xa0)

/-- The logical name of a padded file name. -/
def logicalName (filename : List Nat) : List Nat := logicalFrom filename 0

/-- The matching loop as a recursion over the remaining logical name. -/
def matchList : List Nat → List Nat → Nat
  | m, [] => if m.headD 0 ≠ 0 ∧ m.headD 0 ≠ 42 then 0 else 1
  | m, b :: bs =>
    if m.headD 0 = 63 then matchList m.tail bs
    else if m.headD 0 = 42 then 1
    else if b ≠ m.headD 0 then 0
    else matchList m.tail bs

/-! ## Specification-side definitions for next_match and the listing -/

/-- The type check on an entry fails: the filter names a type and the entry
has another one. -/
def type_mismatch (c : Consts) (type : Nat) (d : cbmdirent) : Prop :=
  (type &&& c.TYPE_MASK) ≠ 0 ∧ (d.typeflags &&& c.TYPE_MASK) ≠ (type &&& c.TYPE_MASK)

/-- The entry is hidden and the filter does not ask for hidden files. -/
def hidden_skip (c : Consts) (type : Nat) (d : cbmdirent) : Prop :=
  (d.typeflags &&& c.FLAG_HIDDEN) ≠ 0 ∧ (type &&& c.FLAG_HIDDEN) = 0

/-- The pattern is not NULL and `match_name` rejects the entry's name. -/
def name_mismatch (matchstr : Option (List Nat)) (d : cbmdirent) : Prop :=
  matchstr.isSome ∧ match_name (matchstr.getD []) d.name = 0

/-- An entry passes the three checks of the filter. -/
def passes (c : Consts) (matchstr : Option (List Nat)) (type : Nat) (d : cbmdirent) : Prop :=
  ¬ type_mismatch c type d ∧ ¬ hidden_skip c type d ∧ ¬ name_mismatch matchstr d

instance (c : Consts) (matchstr : Option (List Nat)) (type : Nat) (d : cbmdirent) :
    Decidable (passes c matchstr type d) := by
  unfold passes type_mismatch hidden_skip name_mismatch
  infer_instance

/-- An answer of the cursor that the scan steps over: an entry that does not
pass the filter. -/
def is_skipped (c : Consts) (matchstr : Option (List Nat)) (type : Nat) : ReadResult → Bool
  | ReadResult.entry d => decide (¬ passes c matchstr type d)
  | ReadResult.fail _ => false

/-- The part of the cursor that the first-match scan stops at: what is left
after the leading answers that are stepped over. -/
def scan_rest (c : Consts) (matchstr : Option (List Nat)) (type : Nat) (dh : DIR) : DIR :=
  dh.dropWhile (is_skipped c matchstr type)

/-! ## Specification-side definitions for the transfer engine -/

/-- What an event on the bus stands for in the framing of the transfer. -/
inductive Role where
  | status
  | load_address
  | length
  | data
  | sentinel
  | control
  deriving Repr, DecidableEq

/-- The framing of one sector that is transmitted without a fault: the status
byte, on the first sector the load-address pair, and then either the length
byte with the bytes one at a time (last sector) or one block transfer followed
by the refill.  Every event carries its role. -/
def sector_frame (first : Bool) (b : buffer_t) : List (Role × Event) :=
  (Role.status, Event.turbodisk_byte (if b.sendeoi then 0 else 1)) ::
  (if first then
      [(Role.load_address, Event.turbodisk_byte (peek b.data 0)),
       (Role.load_address, Event.turbodisk_byte (peek b.data 1))]
    else []) ++
  (if (first_adjust first b).sendeoi then
      (Role.length, Event.turbodisk_byte (((first_adjust first b).length + 2) % 256)) ::
        (span (first_adjust first b)).map (fun x => (Role.data, Event.turbodisk_byte x))
    else
      [(Role.data, Event.turbodisk_buffer (span (first_adjust first b))),
       (Role.control, Event.refill 0)])

/-- The bytes an event puts on the bus. -/
def event_bytes : Event → List Nat
  | Event.turbodisk_byte b => [b]
  | Event.turbodisk_buffer bs => bs
  | _ => []

/-- The data bytes of a framed trace: the bytes of the events whose role is
load address or data, in order. -/
def payload : List (Role × Event) → List Nat
  | [] => []
  | x :: t =>
    (if x.1 = Role.load_address ∨ x.1 = Role.data then event_bytes x.2 else []) ++ payload t

/-- The backend delivers the sectors `bs` after the slot `b`: each refill of
the slot as the engine holds it returns 0 and leaves the next sector in it. -/
def Delivers {σ : Type} (call : Callback → buffer_t → σ → Nat × buffer_t × σ) :
    buffer_t → σ → List buffer_t → Prop
  | _, _, [] => True
  | b, s, x :: xs =>
    (call b.refill b s).1 = 0 ∧ (call b.refill b s).2.1 = x ∧
      Delivers call x (call b.refill b s).2.2 xs

/-- Only the last sector of the sequence has `sendeoi` set. -/
def eoi_only_last : List buffer_t → Prop
  | [] => False
  | [b] => b.sendeoi = true
  | b :: x :: xs => b.sendeoi = false ∧ eoi_only_last (x :: xs)

/-- The run ends after exactly `n` successful refills: the slot then held has
`sendeoi` set (with a length the 8-bit byte loop can count), or the next refill
reports a fault.  `b` is the slot after the first-sector adjustment. -/
def Stops {σ : Type} (call : Callback → buffer_t → σ → Nat × buffer_t × σ) :
    Nat → buffer_t → σ → Prop
  | 0, b, s =>
    (b.sendeoi = true ∧ b.length ≤ 254) ∨
      (b.sendeoi = false ∧ (call b.refill b s).1 ≠ 0)
  | n + 1, b, s =>
    b.sendeoi = false ∧ (call b.refill b s).1 = 0 ∧
      Stops call n (call b.refill b s).2.1 (call b.refill b s).2.2

/-- A backend for concrete runs that hands out a prepared list of sectors: a
refill through `external 0` puts the next sector into the slot and returns 0,
or returns 1 when the list is used up; every other callback returns 0 and
changes nothing. -/
def script_call : Callback → buffer_t → List buffer_t → Nat × buffer_t × List buffer_t
  | Callback.external 0, b, [] => (1, b, [])
  | Callback.external 0, _, x :: xs => (0, x, xs)
  | _, b, s => (0, b, s)

/-- A slot for concrete runs: the given bytes from position 0 on. -/
def sector (bytes : List Nat) (eoi : Bool) : buffer_t :=
  { data := bytes, position := 0, length := bytes.length - 1, sendeoi := eoi,
    secondary := 0, read := true, write := false, allocated := true,
    refill := Callback.external 0, cleanup := Callback.external 1,
    dh := [], matchstr := none, filetype := 0 }

/-- A file of ten bytes for concrete runs, first sector. -/
def demo_first : buffer_t := sector [1, 2, 3, 4, 5] false

/-- A file of ten bytes for concrete runs, the sectors after the first. -/
def demo_rest : List buffer_t := [sector [6, 7] false, sector [8, 9, 10] true]

/-- An open that leaves the given slot on channel 0. -/
def open_slot {σ : Type} (b : buffer_t) : σ → Option buffer_t × σ := fun s => (some b, s)

/-- An open that leaves no slot on channel 0. -/
def open_none {σ : Type} : σ → Option buffer_t × σ := fun s => (none, s)

/-- The events the transfer loop itself can produce: bus sends and refills. -/
def is_loop_event : Event → Bool
  | Event.turbodisk_byte _ => true
  | Event.turbodisk_buffer _ => true
  | Event.refill _ => true
  | _ => false

/-- The events that put bytes on the bus. -/
def is_bus_send : Event → Bool
  | Event.turbodisk_byte _ => true
  | Event.turbodisk_buffer _ => true
  | _ => false

/-- A free slot for concrete runs of the directory code. -/
def blank_slot : buffer_t :=
  { data := List.replicate 256 0, position := 0, length := 0, sendeoi := false,
    secondary := 15, read := false, write := false, allocated := false,
    refill := Callback.external 0, cleanup := Callback.external 0,
    dh := [], matchstr := none, filetype := 0 }

/-- An environment for concrete runs whose directory holds the given answers. -/
def demo_env (dh : DIR) : Env :=
  { parse_path := fun cmd => ([], cmd),
    opendir := fun _ => some dh,
    disk_label := some [68, 73, 83, 75],
    disk_id := some [73, 75, 32, 50, 65],
    disk_free := 664 }

/-- Callbacks of other backends for concrete runs of the directory code: none
is used, each returns 0. -/
def no_ext : Nat → buffer_t → Pool → Nat × buffer_t × Pool := fun _ b p => (0, b, p)

/-! ## Specification-side definitions for the listing record -/

/-- The number of filler spaces between the block count and the opening
quote. -/
def filler (blocksize : Nat) : Nat :=
  if blocksize < 10 then 3 else if blocksize < 100 then 2 else if blocksize < 1000 then 1 else 0

/-- The three-letter code of a type tag. -/
def type_code : Nat → List Nat
  | 0 => [68, 69, 76]   -- DEL
  | 1 => [83, 69, 81]   -- SEQ
  | 2 => [80, 82, 71]   -- PRG
  | 3 => [85, 83, 82]   -- USR
  | 4 => [82, 69, 76]   -- REL
  | 5 => [67, 66, 77]   -- CBM
  | 6 => [68, 73, 82]   -- DIR
  | _ => []

/-- The writes of `addentry` up to the block count, on the memory `d` with the
record starting at offset `base`. -/
def addentry_head (dent : cbmdirent) (d : List Nat) (base : Nat) : List Nat :=
  poke (poke (poke (poke (poke (memset d base 32 31) (base + 31) 0) base 1) (base + 1) 1)
    (base + 2) (dent.blocksize % 256)) (base + 3) (dent.blocksize / 256 % 256)

/-- The writes of `addentry` from the opening quote on, with the offset `q` of
the opening quote given. -/
def addentry_from (c : Consts) (dent : cbmdirent) (m : List Nat) (q : Nat) : List Nat :=
  let m := poke m q 0x22
  let m := memcpy m (q + 1) dent.name CBM_NAME_LENGTH
  let m := quote_loop dent.name (q + 1) (CBM_NAME_LENGTH + 2) m 0
  let m := if (dent.typeflags &&& c.FLAG_SPLAT) ≠ 0 then poke m (q + 18) 42 else m
  let m := memcpy m (q + 19)
    (filetypes.drop (TYPE_LENGTH * (dent.typeflags &&& c.TYPE_MASK))) TYPE_LENGTH
  let m := if (dent.typeflags &&& c.FLAG_RO) ≠ 0 then poke m (q + 22) 60 else m
  if (dent.typeflags &&& c.FLAG_HIDDEN) ≠ 0 then poke m (q + 23) 72 else m

/-- A directory entry for concrete runs: `AB"CD`, 123 blocks, a program with
the splat, read-only and hidden flags. -/
def demo_dent : cbmdirent :=
  { name := [65, 66, 34, 67, 68] ++ List.replicate 12 0xa0, blocksize := 123,
    typeflags := 2 + 128 + 64 + 32 }

/-- Two memories agree on their first `hi` bytes (and both have them). -/
def Agree (m1 m2 : List Nat) (hi : Nat) : Prop :=
  hi ≤ m1.length ∧ hi ≤ m2.length ∧ ∀ j, j < hi → peek m1 j = peek m2 j

/-- A 32-byte area for building records. -/
def scratch_slot : buffer_t := { blank_slot with data := List.replicate 32 0 }

/-- The 32-byte listing record of a directory entry: what `addentry` writes
into an area of 32 bytes. -/
def record (c : Consts) (d : cbmdirent) : List Nat := (addentry c d scratch_slot).data

/-- The footer record: the template `dirfooter` with bytes 2 and 3 replaced by
the low and the high byte of the free-block count. -/
def footer_record (blocks : Nat) : List Nat :=
  poke (poke dirfooter 2 (blocks % 256)) 3 (blocks / 256 % 256)

/-- The entries of a cursor that pass the filter, in cursor order. -/
def matching (c : Consts) (matchstr : Option (List Nat)) (type : Nat) : DIR → List cbmdirent
  | [] => []
  | ReadResult.entry d :: rest =>
    if passes c matchstr type d then d :: matching c matchstr type rest
    else matching c matchstr type rest
  | ReadResult.fail _ :: rest => matching c matchstr type rest

/-- Drain a listing slot: call `dir_refill` until it reports a fault or leaves
`sendeoi` set, at most the given number of times, and collect the return code
and the slot after each call. -/
def drain (c : Consts) (blocks : Nat) : Nat → buffer_t → Pool → List (Nat × buffer_t)
  | 0, _, _ => []
  | n + 1, buf, p =>
    let r := dir_refill c blocks buf p
    if r.1 ≠ 0 ∨ r.2.1.sendeoi = true then [(r.1, r.2.1)]
    else (r.1, r.2.1) :: drain c blocks n r.2.1 r.2.2

/-- What a call of `dir_refill` shows of the slot: the return code, `sendeoi`,
`position`, `length` and the 32 bytes at the start of the buffer. -/
def observe (r : Nat × buffer_t) : Nat × Bool × Nat × Nat × List Nat :=
  (r.1, r.2.sendeoi, r.2.position, r.2.length, r.2.data.take 32)

/-- Entries for concrete runs of the listing: a program FOO, a hidden program
BAR and a sequential file BAZ. -/
def demo_foo : cbmdirent :=
  { name := [70, 79, 79] ++ List.replicate 14 0xa0, blocksize := 3, typeflags := 2 }

/-- The hidden entry BAR. -/
def demo_bar : cbmdirent :=
  { name := [66, 65, 82] ++ List.replicate 14 0xa0, blocksize := 10, typeflags := 2 + 32 }

/-- The sequential file BAZ. -/
def demo_baz : cbmdirent :=
  { name := [66, 65, 90] ++ List.replicate 14 0xa0, blocksize := 1200, typeflags := 1 }

/-- A listing slot over the three entries, without pattern and type filter. -/
def demo_listing : buffer_t :=
  { blank_slot with
    allocated := true, secondary := 0, length := 31,
    refill := Callback.dir_refill, cleanup := Callback.generic_cleanup,
    dh := [ReadResult.entry demo_foo, ReadResult.entry demo_bar, ReadResult.entry demo_baz] }

/-- An environment for concrete runs in which `opendir` reports a fault. -/
def env_no_dir : Env := { demo_env [] with opendir := fun _ => none }

/-- An environment for concrete runs in which `disk_label` reports a fault. -/
def env_no_label : Env := { demo_env [] with disk_label := none }

/-- An environment for concrete runs in which `disk_id` reports a fault. -/
def env_no_id : Env := { demo_env [] with disk_id := none }

/-- Two entries for concrete runs with the same record: the name `AB` and the
name `AB"`. -/
def demo_ab : cbmdirent :=
  { name := [65, 66] ++ List.replicate 15 0xa0, blocksize := 7, typeflags := 2 }

/-- The entry named `AB"`. -/
def demo_abq : cbmdirent :=
  { name := [65, 66, 34] ++ List.replicate 14 0xa0, blocksize := 7, typeflags := 2 }

/-- A listing slot for concrete runs whose cursor holds only the hidden entry
BAR. -/
def demo_listing_end : buffer_t :=
  { demo_listing with dh := [ReadResult.entry demo_bar] }

/-- The events that record a refill call. -/
def is_refill : Event → Bool
  | Event.refill _ => true
  | _ => false

/-- The load-address bytes the loop sends in a round: the first two bytes of
the buffer on the first sector, nothing later. -/
def load_address_events (first : Bool) (b : buffer_t) : List Event :=
  if first then
    [Event.turbodisk_byte (peek b.data 0), Event.turbodisk_byte (peek b.data 1)]
  else []

/-- A file of exactly two bytes for concrete runs: one sector, which is the
first and the last. -/
def two_byte_file : buffer_t := sector [1, 2] true

/-- A file of 512 bytes for concrete runs, first sector: all 256 bytes of the
slot are valid. -/
def full_first : buffer_t := sector (List.replicate 256 7) false

/-- A file of 512 bytes for concrete runs, second and last sector: all 256
bytes of the slot are valid. -/
def full_last : buffer_t := sector (List.replicate 256 9) true

/-! ## file_open (fileops.c 363-524) -/

/-- The enumeration `open_modes`; it is declared outside the translated
sources, the four names are those `file_open` uses. -/
inductive open_modes where
  | OPEN_READ
  | OPEN_WRITE
  | OPEN_APPEND
  | OPEN_MODIFY
  deriving Repr, DecidableEq

/-- The error status as `file_open` can leave it through `set_error`:
`ERROR_OK`, `ERROR_SYNTAX_NONAME`, `ERROR_FILE_NOT_FOUND`, or `reported`, the
status left by a collaborator outside these files that reported a fault. -/
inductive ErrorCode where
  | ERROR_OK
  | ERROR_SYNTAX_NONAME
  | ERROR_FILE_NOT_FOUND
  | reported
  deriving Repr, DecidableEq

/-- The call into the storage backend with which `file_open` ends, if it gets
that far: `open_read(path, name, buf)` or `open_write(path, name, buf, append)`.
Path and name are the strings the pointers refer to. -/
inductive Dispatch where
  | no_call
  | open_read (path name : List Nat) (buf : buffer_t)
  | open_write (path name : List Nat) (buf : buffer_t) (append : Bool)
  deriving Repr, DecidableEq

/-- What `file_open` has done when it returns: the error status it left (the
backend call comes last and may change it), the `file_delete(path, name)` call
of a rewrite, the final backend call, the slot it allocated and the pool
record. -/
structure Outcome where
  error : ErrorCode
  deleted : Option (List Nat × List Nat)
  dispatch : Dispatch
  slot : Option buffer_t
  pool : Pool
  deriving Repr, DecidableEq

/-- The string a `char *` refers to: the bytes before the first NUL. -/
def cstr (s : List Nat) : List Nat := s.takeWhile (fun x => x != 0)

/-- The loop of `dent2str`; the first argument counts the rounds left. -/
def dent2str_loop (name : List Nat) : Nat → Nat → List Nat
  | 0, _ => poke name CBM_NAME_LENGTH 0
  | n + 1, i =>
    if i < CBM_NAME_LENGTH then
      if peek name i = 0xa0 then poke name i 0
      else dent2str_loop name n (i + 1)
    else poke name CBM_NAME_LENGTH 0

/-- Zero-terminate a padded commodore name.  The pointer returned is
`dent->name`. -/
def dent2str (dent : cbmdirent) : cbmdirent :=
  { dent with name := dent2str_loop dent.name (CBM_NAME_LENGTH + 1) 0 }

/-- The end of `file_open`: terminate the name, grab a buffer and call the
backend. -/
def file_open_dispatch (secondary : Nat) (path : List Nat) (mode : open_modes)
    (dent : cbmdirent) (deleted : Option (List Nat × List Nat))
    (free : Option buffer_t) (p : Pool) : Outcome :=
  let fname := (dent2str dent).name
  -- Grab a buffer
  match alloc_buffer free p with
  | (none, p) =>
    { error := ErrorCode.reported, deleted := deleted, dispatch := Dispatch.no_call,
      slot := none, pool := p }
  | (some buf, p) =>
    let buf := { buf with secondary := secondary }
    match mode with
    | open_modes.OPEN_MODIFY | open_modes.OPEN_READ =>
      { error := ErrorCode.ERROR_OK, deleted := deleted,
        dispatch := Dispatch.open_read path (cstr fname) buf, slot := some buf, pool := p }
    | open_modes.OPEN_WRITE | open_modes.OPEN_APPEND =>
      { error := ErrorCode.ERROR_OK, deleted := deleted,
        dispatch := Dispatch.open_write path (cstr fname) buf
          (decide (mode = open_modes.OPEN_APPEND)),
        slot := some buf, pool := p }

/-- The slot and the state after `n` refills of the slot the engine holds. -/
def reach {σ : Type} (call : Callback → buffer_t → σ → Nat × buffer_t × σ) :
    Nat → buffer_t → σ → buffer_t × σ
  | 0, b, s => (b, s)
  | n + 1, b, s => reach call n (call b.refill b s).2.1 (call b.refill b s).2.2

theorem peek_eq_getElem (a : List Nat) (i : Nat) (h : i < a.length) :
    peek a i = a[i] := by
  simp [peek, List.getD_eq_getElem?_getD, List.getElem?_eq_getElem h]

theorem logicalFrom_stop (filename : List Nat) (i : Nat)
    (h : ¬ (peek filename i ≠ 0xa0 ∧ i < CBM_NAME_LENGTH)) :
    logicalFrom filename i = [] := by
  unfold logicalFrom
  by_cases hi : i < (filename.take CBM_NAME_LENGTH).length
  · rw [List.drop_eq_getElem_cons hi]
    have h16 : i < CBM_NAME_LENGTH := by
      simp only [List.length_take] at hi; omega
    have hlen : i < filename.length := by
      simp only [List.length_take] at hi; omega
    have hp : peek filename i = 0xa0 := by
      by_contra hne; exact h ⟨hne, h16⟩
    have hget : (filename.take CBM_NAME_LENGTH)[i] = 0xa0 := by
      rw [List.getElem_take, ← peek_eq_getElem filename i hlen]
      exact hp
    simp [hget]
  · rw [List.drop_eq_nil_of_le (by omega)]
    rfl

theorem logicalFrom_step (filename : List Nat) (i : Nat)
    (hlen : CBM_NAME_LENGTH ≤ filename.length)
    (h : peek filename i ≠ 0xa0 ∧ i < CBM_NAME_LENGTH) :
    logicalFrom filename i = peek filename i :: logicalFrom filename (i + 1) := by
  unfold logicalFrom
  have hi : i < (filename.take CBM_NAME_LENGTH).length := by
    simp only [List.length_take]; omega
  have hl : i < filename.length := by omega
  rw [List.drop_eq_getElem_cons hi]
  have hget : (filename.take CBM_NAME_LENGTH)[i] = peek filename i := by
    rw [List.getElem_take, ← peek_eq_getElem filename i hl]
  rw [hget, List.takeWhile_cons]
  simp [h.1]

/-- With enough rounds the index loop of `match_name` is the recursion over the
logical name. -/
theorem match_name_loop_eq (filename : List Nat)
    (hlen : CBM_NAME_LENGTH ≤ filename.length) :
    ∀ (n : Nat) (m : List Nat) (i : Nat), i ≤ CBM_NAME_LENGTH →
      CBM_NAME_LENGTH + 1 ≤ n + i →
      match_name_loop filename n m i = matchList m (logicalFrom filename i) := by
  intro n
  induction n with
  | zero =>
    intro m i hi hn
    omega
  | succ n ih =>
    intro m i hi hn
    unfold match_name_loop
    by_cases hc : peek filename i ≠ 0xa0 ∧ i < CBM_NAME_LENGTH
    · rw [if_pos hc, logicalFrom_step filename i hlen hc]
      have hi1 : i + 1 ≤ CBM_NAME_LENGTH := hc.2
      have hn1 : CBM_NAME_LENGTH + 1 ≤ n + (i + 1) := by omega
      simp only [matchList, ih _ _ hi1 hn1]
    · rw [if_neg hc, logicalFrom_stop filename i hc]
      simp only [matchList]

theorem match_name_eq (m filename : List Nat)
    (hlen : CBM_NAME_LENGTH ≤ filename.length) :
    match_name m filename = matchList m (logicalName filename) := by
  unfold match_name logicalName
  exact match_name_loop_eq filename hlen _ m 0 (Nat.zero_le _) (le_refl _)

theorem logicalName_length_le (filename : List Nat) :
    (logicalName filename).length ≤ CBM_NAME_LENGTH := by
  unfold logicalName logicalFrom
  refine le_trans (List.Sublist.length_le (List.takeWhile_sublist _)) ?_
  simp

theorem matchList_star (rest : List Nat) :
    ∀ (p name : List Nat), (∀ x ∈ p, x ≠ 42 ∧ x ≠ 0) →
      (matchList (p ++ 42 :: rest) name = 1 ↔
        p.length ≤ name.length ∧
          ∀ j, j < p.length → p.getD j 0 = 63 ∨ p.getD j 0 = name.getD j 0) := by
  intro p
  induction p with
  | nil =>
    intro name _
    cases name <;> simp [matchList]
  | cons x xs ih =>
    intro name hp
    have hx := hp x (List.mem_cons_self _ _)
    have hxs : ∀ y ∈ xs, y ≠ 42 ∧ y ≠ 0 := fun y hy => hp y (List.mem_cons_of_mem _ hy)
    cases name with
    | nil => simp [matchList, hx.1, hx.2]
    | cons b bs =>
      have key : (List.length xs ≤ List.length bs ∧
            ∀ j, j < xs.length → xs.getD j 0 = 63 ∨ xs.getD j 0 = bs.getD j 0) →
          (x = 63 ∨ x = b) →
          ((x :: xs).length ≤ (b :: bs).length ∧
            ∀ j, j < (x :: xs).length →
              (x :: xs).getD j 0 = 63 ∨ (x :: xs).getD j 0 = (b :: bs).getD j 0) := by
        intro h hx0
        refine ⟨by simpa using h.1, ?_⟩
        intro j hj
        cases j with
        | zero => simpa using hx0
        | succ j => simpa using h.2 j (by simpa using hj)
      have key2 : ((x :: xs).length ≤ (b :: bs).length ∧
            ∀ j, j < (x :: xs).length →
              (x :: xs).getD j 0 = 63 ∨ (x :: xs).getD j 0 = (b :: bs).getD j 0) →
          (x = 63 ∨ x = b) ∧ (List.length xs ≤ List.length bs ∧
            ∀ j, j < xs.length → xs.getD j 0 = 63 ∨ xs.getD j 0 = bs.getD j 0) := by
        intro h
        refine ⟨by simpa using h.2 0 (by simp), by simpa using h.1, ?_⟩
        intro j hj
        simpa using h.2 (j + 1) (by simpa using hj)
      simp only [List.cons_append, matchList, List.headD_cons, List.tail_cons]
      by_cases h63 : x = 63
      · rw [if_pos h63, ih bs hxs]
        exact ⟨fun h => key h (Or.inl h63), fun h => (key2 h).2⟩
      · rw [if_neg h63, if_neg hx.1]
        by_cases hb : b ≠ x
        · rw [if_pos hb]
          constructor
          · intro h; exact absurd h (by decide)
          · intro h
            rcases (key2 h).1 with h1 | h1
            · exact absurd h1 h63
            · exact absurd h1.symm hb
        · rw [if_neg hb, ih bs hxs]
          have hbx : x = b := by
            by_contra hne; exact hb (fun h => hne h.symm)
          exact ⟨fun h => key h (Or.inr hbx), fun h => (key2 h).2⟩

theorem matchList_exact :
    ∀ (p name : List Nat), (∀ x ∈ p, x ≠ 42 ∧ x ≠ 0) → (∀ b ∈ name, b ≠ 0) →
      (matchList p name = 1 ↔
        p.length = name.length ∧
          ∀ j, j < p.length → p.getD j 0 = 63 ∨ p.getD j 0 = name.getD j 0) := by
  intro p
  induction p with
  | nil =>
    intro name _ hname
    cases name with
    | nil => simp [matchList]
    | cons b bs =>
      have hb := hname b (List.mem_cons_self _ _)
      simp [matchList, hb]
  | cons x xs ih =>
    intro name hp hname
    have hx := hp x (List.mem_cons_self _ _)
    have hxs : ∀ y ∈ xs, y ≠ 42 ∧ y ≠ 0 := fun y hy => hp y (List.mem_cons_of_mem _ hy)
    cases name with
    | nil => simp [matchList, hx.1, hx.2]
    | cons b bs =>
      have hbs : ∀ y ∈ bs, y ≠ 0 := fun y hy => hname y (List.mem_cons_of_mem _ hy)
      have key : (List.length xs = List.length bs ∧
            ∀ j, j < xs.length → xs.getD j 0 = 63 ∨ xs.getD j 0 = bs.getD j 0) →
          (x = 63 ∨ x = b) →
          ((x :: xs).length = (b :: bs).length ∧
            ∀ j, j < (x :: xs).length →
              (x :: xs).getD j 0 = 63 ∨ (x :: xs).getD j 0 = (b :: bs).getD j 0) := by
        intro h hx0
        refine ⟨by simpa using h.1, ?_⟩
        intro j hj
        cases j with
        | zero => simpa using hx0
        | succ j => simpa using h.2 j (by simpa using hj)
      have key2 : ((x :: xs).length = (b :: bs).length ∧
            ∀ j, j < (x :: xs).length →
              (x :: xs).getD j 0 = 63 ∨ (x :: xs).getD j 0 = (b :: bs).getD j 0) →
          (x = 63 ∨ x = b) ∧ (List.length xs = List.length bs ∧
            ∀ j, j < xs.length → xs.getD j 0 = 63 ∨ xs.getD j 0 = bs.getD j 0) := by
        intro h
        refine ⟨by simpa using h.2 0 (by simp), by simpa using h.1, ?_⟩
        intro j hj
        simpa using h.2 (j + 1) (by simpa using hj)
      simp only [matchList, List.headD_cons, List.tail_cons]
      by_cases h63 : x = 63
      · rw [if_pos h63, ih bs hxs hbs]
        exact ⟨fun h => key h (Or.inl h63), fun h => (key2 h).2⟩
      · rw [if_neg h63, if_neg hx.1]
        by_cases hb : b ≠ x
        · rw [if_pos hb]
          constructor
          · intro h; exact absurd h (by decide)
          · intro h
            rcases (key2 h).1 with h1 | h1
            · exact absurd h1 h63
            · exact absurd h1.symm hb
        · rw [if_neg hb, ih bs hxs hbs]
          have hbx : x = b := by
            by_contra hne; exact hb (fun h => hne h.symm)
          exact ⟨fun h => key h (Or.inr hbx), fun h => (key2 h).2⟩

theorem matchList_zero_or_one : ∀ (name m : List Nat),
    matchList m name = 0 ∨ matchList m name = 1 := by
  intro name
  induction name with
  | nil =>
    intro m
    unfold matchList
    split <;> simp
  | cons b bs ih =>
    intro m
    unfold matchList
    split
    · exact ih _
    · split
      · exact Or.inr rfl
      · split
        · exact Or.inl rfl
        · exact ih _

/-- C3.  Terminal wildcard: for a pattern `p ++ "*" ++ rest` in which `p` has
no `*` and no NUL, and a padded file name of at least 16 bytes, `match_name`
returns 1 exactly when the logical name has at least `|p|` characters and every
character of `p` is `?` or equals the character of the name at its position;
the result is the same for every `rest`. -/
theorem match_name_terminal_wildcard (p rest filename : List Nat)
    (hp : ∀ x ∈ p, x ≠ 42 ∧ x ≠ 0) (hlen : CBM_NAME_LENGTH ≤ filename.length) :
    (match_name (p ++ 42 :: rest) filename = 1 ↔
      p.length ≤ (logicalName filename).length ∧
        ∀ j, j < p.length →
          p.getD j 0 = 63 ∨ p.getD j 0 = (logicalName filename).getD j 0) ∧
    (∀ rest2, match_name (p ++ 42 :: rest2) filename =
      match_name (p ++ 42 :: rest) filename) := by
  have h1 : ∀ r, (match_name (p ++ 42 :: r) filename = 1 ↔
      p.length ≤ (logicalName filename).length ∧
        ∀ j, j < p.length →
          p.getD j 0 = 63 ∨ p.getD j 0 = (logicalName filename).getD j 0) := by
    intro r
    rw [match_name_eq _ _ hlen]
    exact matchList_star r p _ hp
  refine ⟨h1 rest, ?_⟩
  intro rest2
  have a := h1 rest
  have b := h1 rest2
  have za : match_name (p ++ 42 :: rest) filename = 0 ∨
      match_name (p ++ 42 :: rest) filename = 1 := by
    rw [match_name_eq _ _ hlen]; exact matchList_zero_or_one _ _
  have zb : match_name (p ++ 42 :: rest2) filename = 0 ∨
      match_name (p ++ 42 :: rest2) filename = 1 := by
    rw [match_name_eq _ _ hlen]; exact matchList_zero_or_one _ _
  rcases za with za | za <;> rcases zb with zb | zb
  · rw [za, zb]
  · have := a.mpr (b.mp zb); omega
  · have := b.mpr (a.mp za); omega
  · rw [za, zb]

/-- C3, concrete run: the theorem at the pattern `FOO*` and the name `FO`, and
the four results `FOO*` gives on FOOBAR, FOO, FOOTBALL and FO. -/
theorem match_name_terminal_wildcard_witness :
    (∀ x ∈ [70, 79, 79], x ≠ 42 ∧ x ≠ 0) ∧
    CBM_NAME_LENGTH ≤ ([70, 79] ++ List.replicate 15 0xa0).length ∧
    ((match_name ([70, 79, 79] ++ 42 :: []) ([70, 79] ++ List.replicate 15 0xa0) = 1 ↔
      [70, 79, 79].length ≤ (logicalName ([70, 79] ++ List.replicate 15 0xa0)).length ∧
        ∀ j, j < [70, 79, 79].length →
          [70, 79, 79].getD j 0 = 63 ∨
          [70, 79, 79].getD j 0 = (logicalName ([70, 79] ++ List.replicate 15 0xa0)).getD j 0) ∧
    (∀ rest2, match_name ([70, 79, 79] ++ 42 :: rest2) ([70, 79] ++ List.replicate 15 0xa0) =
      match_name ([70, 79, 79] ++ 42 :: []) ([70, 79] ++ List.replicate 15 0xa0))) ∧
    match_name [70, 79, 79, 42] ([70, 79, 79, 66, 65, 82] ++ List.replicate 11 0xa0) = 1 ∧
    match_name [70, 79, 79, 42] ([70, 79, 79] ++ List.replicate 14 0xa0) = 1 ∧
    match_name [70, 79, 79, 42] ([70, 79, 79, 84, 66, 65, 76, 76] ++ List.replicate 9 0xa0) = 1 ∧
    match_name [70, 79, 79, 42] ([70, 79] ++ List.replicate 15 0xa0) = 0 :=
  ⟨by decide, by decide,
    match_name_terminal_wildcard [70, 79, 79] [] ([70, 79] ++ List.replicate 15 0xa0)
      (by decide) (by decide),
    by decide, by decide, by decide, by decide⟩

/-- C4.  Exact length without `*`: for a pattern without `*` (and without NUL
before its terminator) and a padded file name of at least 16 bytes whose first
16 bytes are not NUL, `match_name` returns 1 exactly when the logical name has
as many characters as the pattern and every pattern character is `?` or equals
the character of the name at its position. -/
theorem match_name_exact_length (p filename : List Nat)
    (hp : ∀ x ∈ p, x ≠ 42 ∧ x ≠ 0) (hlen : CBM_NAME_LENGTH ≤ filename.length)
    (hnul : ∀ b ∈ filename.take CBM_NAME_LENGTH, b ≠ 0) :
    (match_name p filename = 1 ↔
      p.length = (logicalName filename).length ∧
        ∀ j, j < p.length →
          p.getD j 0 = 63 ∨ p.getD j 0 = (logicalName filename).getD j 0) := by
  rw [match_name_eq _ _ hlen]
  apply matchList_exact p _ hp
  intro b hb
  apply hnul
  unfold logicalName logicalFrom at hb
  exact (List.takeWhile_sublist _).subset hb

/-- C4, concrete run: the theorem at the pattern `F?O` and the name `FOOO`, and
the four results `F?O` gives on FOO, FXO, FOOO and FO. -/
theorem match_name_exact_length_witness :
    (∀ x ∈ [70, 63, 79], x ≠ 42 ∧ x ≠ 0) ∧
    CBM_NAME_LENGTH ≤ ([70, 79, 79, 79] ++ List.replicate 13 0xa0).length ∧
    (∀ b ∈ ([70, 79, 79, 79] ++ List.replicate 13 0xa0).take CBM_NAME_LENGTH, b ≠ 0) ∧
    (match_name [70, 63, 79] ([70, 79, 79, 79] ++ List.replicate 13 0xa0) = 1 ↔
      [70, 63, 79].length = (logicalName ([70, 79, 79, 79] ++ List.replicate 13 0xa0)).length ∧
        ∀ j, j < [70, 63, 79].length →
          [70, 63, 79].getD j 0 = 63 ∨
          [70, 63, 79].getD j 0 =
            (logicalName ([70, 79, 79, 79] ++ List.replicate 13 0xa0)).getD j 0) ∧
    match_name [70, 63, 79] ([70, 79, 79] ++ List.replicate 14 0xa0) = 1 ∧
    match_name [70, 63, 79] ([70, 88, 79] ++ List.replicate 14 0xa0) = 1 ∧
    match_name [70, 63, 79] ([70, 79, 79, 79] ++ List.replicate 13 0xa0) = 0 ∧
    match_name [70, 63, 79] ([70, 79] ++ List.replicate 15 0xa0) = 0 :=
  ⟨by decide, by decide, by decide,
    match_name_exact_length [70, 63, 79] ([70, 79, 79, 79] ++ List.replicate 13 0xa0)
      (by decide) (by decide) (by decide),
    by decide, by decide, by decide, by decide⟩

/-! ## next_match -/

theorem next_match_cons_skipped (c : Consts) (x : ReadResult) (rest : DIR)
    (m : Option (List Nat)) (t : Nat) (dent : cbmdirent)
    (h : is_skipped c m t x = true) :
    ∃ d, next_match c (x :: rest) m t dent = next_match c rest m t d := by
  cases x with
  | fail code => simp [is_skipped] at h
  | entry d =>
    refine ⟨d, ?_⟩
    simp only [is_skipped, decide_eq_true_eq, passes, type_mismatch, hidden_skip,
      name_mismatch] at h
    rw [next_match]
    by_cases h1 : (t &&& c.TYPE_MASK) ≠ 0 ∧
        (d.typeflags &&& c.TYPE_MASK) ≠ (t &&& c.TYPE_MASK)
    · rw [if_pos h1]
    · rw [if_neg h1]
      by_cases h2 : (d.typeflags &&& c.FLAG_HIDDEN) ≠ 0 ∧ (t &&& c.FLAG_HIDDEN) = 0
      · rw [if_pos h2]
      · rw [if_neg h2]
        by_cases h3 : m.isSome ∧ match_name (m.getD []) d.name = 0
        · rw [if_pos h3]
        · exact absurd ⟨h1, h2, h3⟩ h

theorem next_match_cons_entry (c : Consts) (d : cbmdirent) (rest : DIR)
    (m : Option (List Nat)) (t : Nat) (dent : cbmdirent)
    (h : is_skipped c m t (ReadResult.entry d) = false) :
    next_match c (ReadResult.entry d :: rest) m t dent = (0, rest, d) := by
  simp only [is_skipped, decide_eq_false_iff_not, not_not, passes, type_mismatch,
    hidden_skip, name_mismatch] at h
  unfold next_match
  rw [if_neg h.1, if_neg h.2.1, if_neg h.2.2]

theorem next_match_cons_fail (c : Consts) (code : Int) (rest : DIR)
    (m : Option (List Nat)) (t : Nat) (dent : cbmdirent) (h : code ≠ 0) :
    next_match c (ReadResult.fail code :: rest) m t dent = (code, rest, dent) := by
  unfold next_match
  rw [if_neg h]

/-- The result code and the cursor of `next_match` are those of the first
answer that is not stepped over. -/
theorem next_match_scan (c : Consts) (m : Option (List Nat)) (t : Nat) :
    ∀ (dh : DIR) (dent : cbmdirent), (∀ code, ReadResult.fail code ∈ dh → 0 < code) →
      (scan_rest c m t dh = [] →
        (next_match c dh m t dent).1 = -1 ∧ (next_match c dh m t dent).2.1 = []) ∧
      (∀ d rest, scan_rest c m t dh = ReadResult.entry d :: rest →
        next_match c dh m t dent = (0, rest, d)) ∧
      (∀ code rest, scan_rest c m t dh = ReadResult.fail code :: rest →
        (next_match c dh m t dent).1 = code ∧ (next_match c dh m t dent).2.1 = rest) := by
  intro dh
  induction dh with
  | nil =>
    intro dent _
    simp [scan_rest, next_match]
  | cons x xs ih =>
    intro dent hwf
    have hwf2 : ∀ code, ReadResult.fail code ∈ xs → 0 < code :=
      fun code h => hwf code (List.mem_cons_of_mem _ h)
    by_cases hs : is_skipped c m t x = true
    · obtain ⟨d, hd⟩ := next_match_cons_skipped c x xs m t dent hs
      have hr : scan_rest c m t (x :: xs) = scan_rest c m t xs := by
        simp [scan_rest, List.dropWhile_cons, hs]
      rw [hr, hd]
      exact ih d hwf2
    · have hs2 : is_skipped c m t x = false := by simpa using hs
      have hr : scan_rest c m t (x :: xs) = x :: xs := by
        simp [scan_rest, List.dropWhile_cons, hs2]
      rw [hr]
      cases x with
      | entry d =>
        rw [next_match_cons_entry c d xs m t dent hs2]
        refine ⟨by simp, ?_, by simp⟩
        intro d2 rest h
        simp only [List.cons.injEq, ReadResult.entry.injEq] at h
        rw [h.1, h.2]
      | fail code =>
        have hpos : 0 < code := hwf code (List.mem_cons_self _ _)
        rw [next_match_cons_fail c code xs m t dent (by omega)]
        refine ⟨by simp, by simp, ?_⟩
        intro code2 rest h
        simp only [List.cons.injEq, ReadResult.fail.injEq] at h
        exact ⟨h.1, h.2⟩

theorem dropWhile_head_false {α : Type} (q : α → Bool) :
    ∀ (l : List α) (x : α) (rest : List α), l.dropWhile q = x :: rest → q x = false := by
  intro l
  induction l with
  | nil => intro x rest h; simp at h
  | cons a as ih =>
    intro x rest h
    by_cases ha : q a = true
    · rw [List.dropWhile_cons, if_pos ha] at h
      exact ih x rest h
    · rw [List.dropWhile_cons, if_neg ha] at h
      simp only [List.cons.injEq] at h
      rw [← h.1]
      simpa using ha

theorem scan_rest_mem (c : Consts) (m : Option (List Nat)) (t : Nat) (dh : DIR)
    (x : ReadResult) (h : x ∈ scan_rest c m t dh) : x ∈ dh :=
  (List.dropWhile_suffix _).subset h

/-- C5.  `next_match` is a first-match scan.  For a cursor whose faults carry
positive codes: the answers before the stopping point are entries that fail the
filter (type check, hidden rule or name pattern) and the cursor is these
followed by the rest; the result is 0 exactly when the first answer left is an
entry, which then passes all three checks, is stored in `dent`, and the cursor
stands just after it; the result is -1 exactly when nothing is left; the result
is positive exactly when the first answer left is a fault, whose code it is. -/
theorem next_match_first_match (c : Consts) (dh : DIR) (m : Option (List Nat)) (t : Nat)
    (dent : cbmdirent) (hwf : ∀ code, ReadResult.fail code ∈ dh → 0 < code) :
    (∀ x ∈ dh.takeWhile (is_skipped c m t),
      ∃ d, x = ReadResult.entry d ∧ ¬ passes c m t d) ∧
    dh = dh.takeWhile (is_skipped c m t) ++ scan_rest c m t dh ∧
    ((next_match c dh m t dent).1 = 0 ↔
      ∃ d rest, scan_rest c m t dh = ReadResult.entry d :: rest) ∧
    (∀ d rest, scan_rest c m t dh = ReadResult.entry d :: rest →
      passes c m t d ∧ next_match c dh m t dent = (0, rest, d)) ∧
    ((next_match c dh m t dent).1 = -1 ↔ scan_rest c m t dh = []) ∧
    (0 < (next_match c dh m t dent).1 ↔
      ∃ code rest, scan_rest c m t dh = ReadResult.fail code :: rest) ∧
    (∀ code rest, scan_rest c m t dh = ReadResult.fail code :: rest →
      (next_match c dh m t dent).1 = code ∧ (next_match c dh m t dent).2.1 = rest) := by
  have hscan := next_match_scan c m t dh dent hwf
  obtain ⟨hnil, hent, hfail⟩ := hscan
  have hcases : scan_rest c m t dh = [] ∨
      (∃ d rest, scan_rest c m t dh = ReadResult.entry d :: rest) ∨
      (∃ code rest, scan_rest c m t dh = ReadResult.fail code :: rest) := by
    cases hr : scan_rest c m t dh with
    | nil => exact Or.inl rfl
    | cons x rest =>
      cases x with
      | entry d => exact Or.inr (Or.inl ⟨d, rest, rfl⟩)
      | fail code => exact Or.inr (Or.inr ⟨code, rest, rfl⟩)
  have hpos : ∀ code rest, scan_rest c m t dh = ReadResult.fail code :: rest → 0 < code := by
    intro code rest h
    apply hwf
    apply scan_rest_mem c m t
    rw [h]
    exact List.mem_cons_self _ _
  refine ⟨?_, ?_, ?_, ?_, ?_, ?_, hfail⟩
  · intro x hx
    have hq : is_skipped c m t x = true := List.mem_takeWhile_imp hx
    cases x with
    | fail code => simp [is_skipped] at hq
    | entry d =>
      refine ⟨d, rfl, ?_⟩
      simpa [is_skipped] using hq
  · exact (List.takeWhile_append_dropWhile _ _).symm
  · constructor
    · intro h0
      rcases hcases with h | h | ⟨code, rest, h⟩
      · have := (hnil h).1; omega
      · exact h
      · have h1 := (hfail code rest h).1
        have h2 := hpos code rest h
        omega
    · rintro ⟨d, rest, h⟩
      rw [hent d rest h]
  · intro d rest h
    refine ⟨?_, hent d rest h⟩
    have hq := dropWhile_head_false (is_skipped c m t) dh _ _ h
    simpa [is_skipped] using hq
  · constructor
    · intro h0
      rcases hcases with h | ⟨d, rest, h⟩ | ⟨code, rest, h⟩
      · exact h
      · rw [hent d rest h] at h0
        simp at h0
      · have h1 := (hfail code rest h).1
        have h2 := hpos code rest h
        omega
    · intro h
      exact (hnil h).1
  · constructor
    · intro h0
      rcases hcases with h | ⟨d, rest, h⟩ | h
      · have := (hnil h).1; omega
      · rw [hent d rest h] at h0
        simp at h0
      · exact h
    · rintro ⟨code, rest, h⟩
      rw [(hfail code rest h).1]
      exact hpos code rest h

/-- C5, concrete run: a cursor with a hidden entry, an entry of another name,
a matching entry and a fault, scanned for the pattern `F*` without a type
filter. -/
theorem next_match_first_match_witness :
    (∀ code, ReadResult.fail code ∈
        [ReadResult.entry ⟨[72] ++ List.replicate 16 0xa0, 1, 34⟩,
         ReadResult.entry ⟨[66] ++ List.replicate 16 0xa0, 2, 2⟩,
         ReadResult.entry ⟨[70] ++ List.replicate 16 0xa0, 3, 2⟩,
         ReadResult.fail 1] → 0 < code) ∧
    next_match stdConsts
        [ReadResult.entry ⟨[72] ++ List.replicate 16 0xa0, 1, 34⟩,
         ReadResult.entry ⟨[66] ++ List.replicate 16 0xa0, 2, 2⟩,
         ReadResult.entry ⟨[70] ++ List.replicate 16 0xa0, 3, 2⟩,
         ReadResult.fail 1] (some [70, 42]) 0 dent_uninit =
      (0, [ReadResult.fail 1], ⟨[70] ++ List.replicate 16 0xa0, 3, 2⟩) :=
  ⟨by intro code h; simp at h; omega,
    ((next_match_first_match stdConsts
        [ReadResult.entry ⟨[72] ++ List.replicate 16 0xa0, 1, 34⟩,
         ReadResult.entry ⟨[66] ++ List.replicate 16 0xa0, 2, 2⟩,
         ReadResult.entry ⟨[70] ++ List.replicate 16 0xa0, 3, 2⟩,
         ReadResult.fail 1] (some [70, 42]) 0 dent_uninit
        (by intro code h; simp at h; omega)).2.2.2.1
      ⟨[70] ++ List.replicate 16 0xa0, 3, 2⟩ [ReadResult.fail 1] (by decide)).2⟩

/-! ## The transfer engine -/

/-- With a length of at most 254 the byte loop sends the bytes from index `i`
on and is left. -/
theorem send_last_complete (buf : buffer_t) (h : buf.length ≤ 254) :
    ∀ (fuel i : Nat), i ≤ buf.length + 1 → buf.length + 2 ≤ fuel + i →
      send_last buf fuel i =
        ((List.range' i (buf.length + 1 - i)).map
          (fun j => Event.turbodisk_byte (peek buf.data (buf.position + j))), true) := by
  intro fuel
  induction fuel with
  | zero => intro i h1 h2; omega
  | succ fuel ih =>
    intro i h1 h2
    unfold send_last
    by_cases hi : i ≤ buf.length
    · rw [if_pos hi]
      have hmod : (i + 1) % 256 = i + 1 := Nat.mod_eq_of_lt (by omega)
      rw [hmod, ih (i + 1) (by omega) (by omega)]
      have hr : buf.length + 1 - i = (buf.length + 1 - (i + 1)) + 1 := by omega
      rw [hr, List.range'_succ]
      simp
    · rw [if_neg hi]
      have hz : buf.length + 1 - i = 0 := by omega
      rw [hz]
      simp

theorem send_last_span (buf : buffer_t) (h : buf.length ≤ 254) (fuel : Nat)
    (hf : buf.length + 2 ≤ fuel) :
    send_last buf fuel 0 = ((span buf).map Event.turbodisk_byte, true) := by
  rw [send_last_complete buf h fuel 0 (by omega) (by omega)]
  simp [span, List.range_eq_range']

theorem first_adjust_sendeoi (first : Bool) (b : buffer_t) :
    (first_adjust first b).sendeoi = b.sendeoi := by
  unfold first_adjust
  split <;> rfl

theorem first_adjust_refill (first : Bool) (b : buffer_t) :
    (first_adjust first b).refill = b.refill := by
  unfold first_adjust
  split <;> rfl

theorem first_adjust_false (b : buffer_t) : first_adjust false b = b := rfl

/-- On a backend that delivers the sectors `rest` without a fault, the loop
sends the framing of the sectors one after the other and is left. -/
theorem turbodisk_loop_delivers {σ : Type}
    (call : Callback → buffer_t → σ → Nat × buffer_t × σ) :
    ∀ (rest : List buffer_t) (first : Bool) (b : buffer_t) (s : σ) (fuel : Nat),
      eoi_only_last (b :: rest) → (first_adjust first b).length ≤ 254 →
      (∀ x ∈ rest, x.length ≤ 254) → Delivers call (first_adjust first b) s rest →
      rest.length + 257 ≤ fuel →
      (turbodisk_loop call fuel first b s).1 =
          (sector_frame first b ++ rest.flatMap (sector_frame false)).map Prod.snd ∧
        (turbodisk_loop call fuel first b s).2.isSome = true := by
  intro rest
  induction rest with
  | nil =>
    intro first b s fuel heoi hlen _ _ hfuel
    have hb : b.sendeoi = true := heoi
    have hb2 : (first_adjust first b).sendeoi = true := by
      rw [first_adjust_sendeoi]; exact hb
    obtain ⟨f, rfl⟩ : ∃ f, fuel = f + 1 := ⟨fuel - 1, by simp at hfuel; omega⟩
    simp only [List.length_nil] at hfuel
    unfold turbodisk_loop
    simp only [hb2, if_true]
    rw [send_last_span _ hlen f (by omega)]
    cases first <;> simp [sector_frame, hb, hb2, Function.comp_def]
  | cons x xs ih =>
    intro first b s fuel heoi hlen hmax hdel hfuel
    have hb : b.sendeoi = false := heoi.1
    have hb2 : (first_adjust first b).sendeoi = false := by
      rw [first_adjust_sendeoi]; exact hb
    obtain ⟨f, rfl⟩ : ∃ f, fuel = f + 1 := ⟨fuel - 1, by omega⟩
    simp only [List.length_cons] at hfuel
    obtain ⟨hrc, hx, hdel2⟩ := hdel
    have hrec := ih false x (call (first_adjust first b).refill (first_adjust first b) s).2.2 f
      heoi.2 (by rw [first_adjust_false]; exact hmax x (List.mem_cons_self _ _))
      (fun y hy => hmax y (List.mem_cons_of_mem _ hy))
      (by rw [first_adjust_false]; exact hdel2) (by omega)
    unfold turbodisk_loop
    simp only [hb2, Bool.false_eq_true, if_false, hrc, ne_eq, not_true_eq_false, hx]
    refine ⟨?_, hrec.2⟩
    rw [hrec.1]
    cases first <;> simp [sector_frame, hb, hb2]

theorem payload_append (l1 l2 : List (Role × Event)) :
    payload (l1 ++ l2) = payload l1 ++ payload l2 := by
  induction l1 with
  | nil => rfl
  | cons x t ih => simp [payload, ih]

theorem payload_data_bytes (l : List Nat) :
    payload (l.map (fun x => (Role.data, Event.turbodisk_byte x))) = l := by
  induction l with
  | nil => rfl
  | cons x t ih => simp [payload, event_bytes, ih]

theorem payload_sector_frame_false (b : buffer_t) :
    payload (sector_frame false b) = span b := by
  unfold sector_frame
  rw [first_adjust_false]
  by_cases h : b.sendeoi = true
  · simp [h, payload, payload_data_bytes]
  · simp [h, payload, event_bytes]

theorem payload_flatMap_sector_frame (rest : List buffer_t) :
    payload (rest.flatMap (sector_frame false)) = rest.flatMap span := by
  induction rest with
  | nil => rfl
  | cons x xs ih =>
    rw [List.flatMap_cons, List.flatMap_cons, payload_append, ih, payload_sector_frame_false]

/-- The valid bytes of the first sector are the load-address pair followed by
the valid bytes after the first-sector adjustment. -/
theorem span_first_adjust (b : buffer_t) (hpos : b.position = 0) (h2 : 2 ≤ b.length)
    (h255 : b.length ≤ 255) :
    span b = peek b.data 0 :: peek b.data 1 :: span (first_adjust true b) := by
  obtain ⟨n, hn⟩ : ∃ n, b.length = n + 2 := ⟨b.length - 2, by omega⟩
  have hmod : (b.length + 254) % 256 = n := by
    rw [hn]; omega
  simp only [span, first_adjust, if_true, hmod, hpos]
  rw [hn, List.range_eq_range', List.range_eq_range']
  have e : n + 2 + 1 = (n + 1) + 1 + 1 := by omega
  rw [e, List.range'_succ, List.range'_succ]
  simp only [List.map_cons, Nat.zero_add, List.cons.injEq, true_and]
  rw [List.range'_eq_map_range, List.range_eq_range', List.map_map]
  apply List.map_congr_left
  intro a _
  simp [Function.comp_def, Nat.add_comm]

theorem payload_sector_frame_true (b : buffer_t) (hpos : b.position = 0)
    (h2 : 2 ≤ b.length) (h255 : b.length ≤ 255) :
    payload (sector_frame true b) = span b := by
  rw [span_first_adjust b hpos h2 h255]
  unfold sector_frame
  by_cases h : (first_adjust true b).sendeoi = true
  · simp [h, payload, payload_data_bytes, event_bytes]
  · simp [h, payload, event_bytes]

theorem filter_load_address_false (rest : List buffer_t) :
    (rest.flatMap (sector_frame false)).filter
      (fun x => decide (x.1 = Role.load_address)) = [] := by
  induction rest with
  | nil => rfl
  | cons x xs ih =>
    rw [List.flatMap_cons, List.filter_append, ih]
    unfold sector_frame
    by_cases h : (first_adjust false x).sendeoi = true
    · simp [h, List.filter_cons, List.filter_map, Function.comp_def]
    · simp [h, List.filter_cons]

theorem filter_load_address_true (b : buffer_t) :
    (sector_frame true b).filter (fun x => decide (x.1 = Role.load_address)) =
      [(Role.load_address, Event.turbodisk_byte (peek b.data 0)),
       (Role.load_address, Event.turbodisk_byte (peek b.data 1))] := by
  unfold sector_frame
  by_cases h : (first_adjust true b).sendeoi = true
  · simp [h, List.filter_cons, List.filter_map, Function.comp_def]
  · simp [h, List.filter_cons]

/-- C1.  Transfer framing.  Let the open leave the slot `b` (position 0, at
least 3 valid bytes) and let the backend deliver the further sectors `rest`
without a fault, only the last sector of `b :: rest` having `sendeoi` set and
every length field being at most 254.  Then with enough rounds
`load_turbodisk` returns, and what it does is: clock low, interrupts off, the
framing of the sectors one after the other, interrupts on, cleanup, clock high.
In that framing the events with role load address are exactly the first two
bytes of the file, sent once each as single bytes, and the data bytes (load
address pair, block transfers, bytes of the last sector) are exactly the valid
bytes of the sectors in order. -/
theorem load_turbodisk_transfer_framing {σ : Type}
    (call : Callback → buffer_t → σ → Nat × buffer_t × σ)
    (opener : σ → Option buffer_t × σ) (s : σ) (b : buffer_t) (rest : List buffer_t)
    (fuel : Nat)
    (hopen : (opener s).1 = some b)
    (hpos : b.position = 0) (hfirst : 2 ≤ b.length)
    (hmax : ∀ x ∈ b :: rest, x.length ≤ 254)
    (heoi : eoi_only_last (b :: rest))
    (hdel : Delivers call (first_adjust true b) (opener s).2 rest)
    (hfuel : rest.length + 257 ≤ fuel) :
    (load_turbodisk call opener fuel s).1 =
        Event.set_clock 0 :: Event.cli ::
          (sector_frame true b ++ rest.flatMap (sector_frame false)).map Prod.snd ++
          [Event.sei, Event.cleanup, Event.set_clock 1] ∧
      (load_turbodisk call opener fuel s).2.isSome = true ∧
      payload (sector_frame true b ++ rest.flatMap (sector_frame false)) =
        span b ++ rest.flatMap span ∧
      (sector_frame true b ++ rest.flatMap (sector_frame false)).filter
          (fun x => decide (x.1 = Role.load_address)) =
        [(Role.load_address, Event.turbodisk_byte ((span b ++ rest.flatMap span).getD 0 0)),
         (Role.load_address, Event.turbodisk_byte ((span b ++ rest.flatMap span).getD 1 0))] := by
  have hb254 : b.length ≤ 254 := hmax b (List.mem_cons_self _ _)
  have hadj : (first_adjust true b).length ≤ 254 := by
    simp only [first_adjust, if_true]; omega
  have hloop := turbodisk_loop_delivers call rest true b (opener s).2 fuel heoi hadj
    (fun x hx => hmax x (List.mem_cons_of_mem _ hx)) hdel hfuel
  obtain ⟨h1, h2⟩ := hloop
  obtain ⟨⟨bl, s2⟩, hbl⟩ := Option.isSome_iff_exists.mp h2
  have hspan := span_first_adjust b hpos hfirst (by omega)
  refine ⟨?_, ?_, ?_, ?_⟩
  · unfold load_turbodisk
    simp only [hopen, hbl, h1]
  · unfold load_turbodisk
    simp only [hopen, hbl, Option.isSome_some]
  · rw [payload_append, payload_sector_frame_true b hpos hfirst (by omega),
      payload_flatMap_sector_frame]
  · rw [List.filter_append, filter_load_address_false, filter_load_address_true, hspan]
    simp

/-- C1, concrete run: a file of ten bytes in three sectors.  The hypotheses of
the theorem hold, the run returns, and the data bytes on the bus are the ten
bytes. -/
theorem load_turbodisk_transfer_framing_witness :
    (load_turbodisk script_call (open_slot demo_first) 259 demo_rest).1 =
      [Event.set_clock 0, Event.cli,
       Event.turbodisk_byte 1, Event.turbodisk_byte 1, Event.turbodisk_byte 2,
       Event.turbodisk_buffer [3, 4, 5], Event.refill 0,
       Event.turbodisk_byte 1, Event.turbodisk_buffer [6, 7], Event.refill 0,
       Event.turbodisk_byte 0, Event.turbodisk_byte 4,
       Event.turbodisk_byte 8, Event.turbodisk_byte 9, Event.turbodisk_byte 10,
       Event.sei, Event.cleanup, Event.set_clock 1] ∧
    (load_turbodisk script_call (open_slot demo_first) 259 demo_rest).2.isSome = true ∧
    payload (sector_frame true demo_first ++ demo_rest.flatMap (sector_frame false)) =
      [1, 2, 3, 4, 5, 6, 7, 8, 9, 10] :=
  have h := load_turbodisk_transfer_framing script_call (open_slot demo_first) demo_rest
    demo_first demo_rest 259 rfl rfl (by decide) (by decide)
    (by simp [eoi_only_last, demo_first, demo_rest, sector])
    (by simp [Delivers, script_call, demo_first, demo_rest, sector, first_adjust, open_slot])
    (by decide)
  ⟨h.1.trans (by decide), h.2.1, h.2.2.1.trans (by decide)⟩

/-- C2, as the spec states it, fails: a file of one sector has `sendeoi` set on
that sector, and the first byte the engine sends for it is 0, not 1. -/
theorem status_polarity_counterexample :
    (sector [1, 2, 3] true).sendeoi = true ∧
    (load_turbodisk script_call (open_slot (sector [1, 2, 3] true)) 259 []).1 =
      [Event.set_clock 0, Event.cli,
       Event.turbodisk_byte 0, Event.turbodisk_byte 1, Event.turbodisk_byte 2,
       Event.turbodisk_byte 2, Event.turbodisk_byte 3,
       Event.sei, Event.cleanup, Event.set_clock 1] ∧
    (load_turbodisk script_call (open_slot (sector [1, 2, 3] true)) 259 []).1.getD 2 Event.cli ≠
      Event.turbodisk_byte 1 := by
  decide

/-- C2, amended.  Every round of the transfer loop, that is every sector the
engine transmits, begins with a status byte that is 0 when the slot's
`sendeoi` is set (last sector) and 1 when it is clear (more data follows); and
the first bus byte of a run that found a slot is that status byte of the first
sector. -/
theorem status_byte_polarity {σ : Type}
    (call : Callback → buffer_t → σ → Nat × buffer_t × σ)
    (opener : σ → Option buffer_t × σ) (fuel : Nat) (first : Bool) (b : buffer_t) (s : σ) :
    (∃ tail, (turbodisk_loop call (fuel + 1) first b s).1 =
      Event.turbodisk_byte (if b.sendeoi then 0 else 1) :: tail) ∧
    ((opener s).1 = some b →
      ∃ tail, (load_turbodisk call opener (fuel + 1) s).1 =
        Event.set_clock 0 :: Event.cli ::
          Event.turbodisk_byte (if b.sendeoi then 0 else 1) :: tail) := by
  have h1 : ∃ tail, (turbodisk_loop call (fuel + 1) first b s).1 =
      Event.turbodisk_byte (if b.sendeoi then 0 else 1) :: tail := by
    unfold turbodisk_loop
    by_cases he : (first_adjust first b).sendeoi = true
    · simp only [he, if_true]
      exact ⟨_, rfl⟩
    · simp only [he, Bool.false_eq_true, if_false]
      by_cases hr : (call (first_adjust first b).refill (first_adjust first b) s).1 ≠ 0
      · rw [if_pos hr]
        exact ⟨_, rfl⟩
      · rw [if_neg hr]
        exact ⟨_, rfl⟩
  refine ⟨h1, ?_⟩
  intro hopen
  have h2 : ∃ tail, (turbodisk_loop call (fuel + 1) true b (opener s).2).1 =
      Event.turbodisk_byte (if b.sendeoi then 0 else 1) :: tail := by
    unfold turbodisk_loop
    by_cases he : (first_adjust true b).sendeoi = true
    · simp only [he, if_true]
      exact ⟨_, rfl⟩
    · simp only [he, Bool.false_eq_true, if_false]
      by_cases hr : (call (first_adjust true b).refill (first_adjust true b) (opener s).2).1 ≠ 0
      · rw [if_pos hr]
        exact ⟨_, rfl⟩
      · rw [if_neg hr]
        exact ⟨_, rfl⟩
  obtain ⟨tail, ht⟩ := h2
  unfold load_turbodisk
  simp only [hopen]
  cases hk : (turbodisk_loop call (fuel + 1) true b (opener s).2).2 with
  | none =>
    simp only [ht]
    exact ⟨_, rfl⟩
  | some v =>
    simp only [ht]
    exact ⟨_, rfl⟩

theorem send_last_bytes (buf : buffer_t) :
    ∀ (fuel i : Nat) (e : Event), e ∈ (send_last buf fuel i).1 →
      ∃ x, e = Event.turbodisk_byte x := by
  intro fuel
  induction fuel with
  | zero => intro i e h; simp [send_last] at h
  | succ fuel ih =>
    intro i e h
    unfold send_last at h
    by_cases hi : i ≤ buf.length
    · rw [if_pos hi] at h
      simp only [List.mem_cons] at h
      rcases h with h | h
      · exact ⟨_, h⟩
      · exact ih _ e h
    · rw [if_neg hi] at h
      simp at h

/-- One round of the loop, case by case. -/
theorem turbodisk_loop_succ {σ : Type}
    (call : Callback → buffer_t → σ → Nat × buffer_t × σ)
    (fuel : Nat) (first : Bool) (b : buffer_t) (s : σ) :
    ∃ hdr : List Event, (∀ e ∈ hdr, ∃ x, e = Event.turbodisk_byte x) ∧
      (((first_adjust first b).sendeoi = true ∧
          (turbodisk_loop call (fuel + 1) first b s).1 =
            hdr ++ (send_last (first_adjust first b) fuel 0).1 ∧
          ((turbodisk_loop call (fuel + 1) first b s).2.isSome =
            (send_last (first_adjust first b) fuel 0).2)) ∨
        ((first_adjust first b).sendeoi = false ∧
          (call (first_adjust first b).refill (first_adjust first b) s).1 ≠ 0 ∧
          (turbodisk_loop call (fuel + 1) first b s).1 =
            hdr ++ [Event.turbodisk_buffer (span (first_adjust first b)),
              Event.refill (call (first_adjust first b).refill (first_adjust first b) s).1,
              Event.turbodisk_byte 0xff] ∧
          (turbodisk_loop call (fuel + 1) first b s).2.isSome = true) ∨
        ((first_adjust first b).sendeoi = false ∧
          (call (first_adjust first b).refill (first_adjust first b) s).1 = 0 ∧
          (turbodisk_loop call (fuel + 1) first b s).1 =
            hdr ++ Event.turbodisk_buffer (span (first_adjust first b)) :: Event.refill 0 ::
              (turbodisk_loop call fuel false
                (call (first_adjust first b).refill (first_adjust first b) s).2.1
                (call (first_adjust first b).refill (first_adjust first b) s).2.2).1 ∧
          (turbodisk_loop call (fuel + 1) first b s).2 =
            (turbodisk_loop call fuel false
                (call (first_adjust first b).refill (first_adjust first b) s).2.1
                (call (first_adjust first b).refill (first_adjust first b) s).2.2).2)) := by
  by_cases he : (first_adjust first b).sendeoi = true
  · refine ⟨Event.turbodisk_byte (if b.sendeoi then 0 else 1) ::
      (if first then [Event.turbodisk_byte (peek b.data 0),
        Event.turbodisk_byte (peek b.data 1)] else []) ++
      [Event.turbodisk_byte (((first_adjust first b).length + 2) % 256)], ?_, ?_⟩
    · intro e h
      cases first <;> simp at h <;> rcases h with h | h <;> first
        | exact ⟨_, h⟩
        | (rcases h with h | h <;> first | exact ⟨_, h⟩ | (rcases h with h | h <;> exact ⟨_, h⟩))
    · left
      refine ⟨he, ?_, ?_⟩
      · unfold turbodisk_loop
        simp only [he, if_true]
        simp
      · unfold turbodisk_loop
        simp only [he, if_true]
        cases (send_last (first_adjust first b) fuel 0).2 <;> simp
  · have he2 : (first_adjust first b).sendeoi = false := by simpa using he
    refine ⟨Event.turbodisk_byte (if b.sendeoi then 0 else 1) ::
      (if first then [Event.turbodisk_byte (peek b.data 0),
        Event.turbodisk_byte (peek b.data 1)] else []), ?_, ?_⟩
    · intro e h
      cases first <;> simp at h <;> first
        | exact ⟨_, h⟩
        | (rcases h with h | h <;> first | exact ⟨_, h⟩ | (rcases h with h | h <;> exact ⟨_, h⟩))
    · right
      by_cases hr : (call (first_adjust first b).refill (first_adjust first b) s).1 ≠ 0
      · left
        refine ⟨he2, hr, ?_, ?_⟩
        · unfold turbodisk_loop
          simp [he2, hr]
        · unfold turbodisk_loop
          simp [he2, hr]
      · right
        have hr0 : (call (first_adjust first b).refill (first_adjust first b) s).1 = 0 := by
          simpa using hr
        refine ⟨he2, hr0, ?_, ?_⟩
        · rw [turbodisk_loop]
          simp only [he2, Bool.false_eq_true, if_false, if_neg hr]
          simp [hr0]
        · rw [turbodisk_loop]
          simp only [he2, Bool.false_eq_true, if_false, if_neg hr]

/-- The loop produces bus sends and refills only. -/
theorem turbodisk_loop_events {σ : Type}
    (call : Callback → buffer_t → σ → Nat × buffer_t × σ) :
    ∀ (fuel : Nat) (first : Bool) (b : buffer_t) (s : σ) (e : Event),
      e ∈ (turbodisk_loop call fuel first b s).1 → is_loop_event e = true := by
  intro fuel
  induction fuel with
  | zero => intro first b s e h; simp [turbodisk_loop] at h
  | succ fuel ih =>
    intro first b s e h
    obtain ⟨hdr, hhdr, hcase⟩ := turbodisk_loop_succ call fuel first b s
    rcases hcase with ⟨_, ht, _⟩ | ⟨_, _, ht, _⟩ | ⟨_, _, ht, _⟩
    · rw [ht, List.mem_append] at h
      rcases h with h | h
      · obtain ⟨x, rfl⟩ := hhdr e h; rfl
      · obtain ⟨x, rfl⟩ := send_last_bytes _ _ _ e h; rfl
    · rw [ht, List.mem_append] at h
      rcases h with h | h
      · obtain ⟨x, rfl⟩ := hhdr e h; rfl
      · simp only [List.mem_cons, List.mem_singleton, List.not_mem_nil, or_false] at h
        rcases h with h | h | h <;> rw [h] <;> rfl
    · rw [ht, List.mem_append] at h
      rcases h with h | h
      · obtain ⟨x, rfl⟩ := hhdr e h; rfl
      · simp only [List.mem_cons] at h
        rcases h with h | h | h
        · rw [h]; rfl
        · rw [h]; rfl
        · exact ih _ _ _ e h

/-- A refill that reports a fault is followed by the sentinel byte and ends
the loop; no refill before it reported a fault. -/
theorem turbodisk_loop_abort {σ : Type}
    (call : Callback → buffer_t → σ → Nat × buffer_t × σ) :
    ∀ (fuel : Nat) (first : Bool) (b : buffer_t) (s : σ) (rc : Nat), rc ≠ 0 →
      Event.refill rc ∈ (turbodisk_loop call fuel first b s).1 →
      ∃ pre, (turbodisk_loop call fuel first b s).1 =
          pre ++ [Event.refill rc, Event.turbodisk_byte 0xff] ∧
        (∀ rc2, Event.refill rc2 ∈ pre → rc2 = 0) ∧
        (turbodisk_loop call fuel first b s).2.isSome = true := by
  intro fuel
  induction fuel with
  | zero => intro first b s rc _ h; simp [turbodisk_loop] at h
  | succ fuel ih =>
    intro first b s rc hrc h
    obtain ⟨hdr, hhdr, hcase⟩ := turbodisk_loop_succ call fuel first b s
    have hnot : ∀ rc2, Event.refill rc2 ∉ hdr := by
      intro rc2 hm
      obtain ⟨x, hx⟩ := hhdr _ hm
      cases hx
    rcases hcase with ⟨_, ht, _⟩ | ⟨_, _, ht, hs⟩ | ⟨_, _, ht, hs⟩
    · rw [ht, List.mem_append] at h
      rcases h with h | h
      · exact absurd h (hnot rc)
      · obtain ⟨x, hx⟩ := send_last_bytes _ _ _ _ h
        cases hx
    · rw [ht, List.mem_append] at h
      rcases h with h | h
      · exact absurd h (hnot rc)
      · simp only [List.mem_cons, List.mem_singleton, List.not_mem_nil, or_false,
          Event.refill.injEq, reduceCtorEq, false_or] at h
        refine ⟨hdr ++ [Event.turbodisk_buffer (span (first_adjust first b))], ?_, ?_, hs⟩
        · rw [ht, h]; simp
        · intro rc2 hm
          rw [List.mem_append] at hm
          rcases hm with hm | hm
          · exact absurd hm (hnot rc2)
          · simp at hm
    · rw [ht, List.mem_append] at h
      rcases h with h | h
      · exact absurd h (hnot rc)
      · simp only [List.mem_cons, Event.refill.injEq, reduceCtorEq, false_or] at h
        rcases h with h | h
        · exact absurd h hrc
        · obtain ⟨pre, hpre, hz, hsome⟩ := ih _ _ _ rc hrc h
          refine ⟨hdr ++ Event.turbodisk_buffer (span (first_adjust first b)) ::
            Event.refill 0 :: pre, ?_, ?_, ?_⟩
          · rw [ht, hpre]; simp
          · intro rc2 hm
            rw [List.mem_append] at hm
            rcases hm with hm | hm
            · exact absurd hm (hnot rc2)
            · simp only [List.mem_cons, Event.refill.injEq, reduceCtorEq, false_or] at hm
              rcases hm with hm | hm
              · exact hm
              · exact hz rc2 hm
          · rw [hs]; exact hsome

/-- A run that ends after `n` successful refills is left by the loop once the
bound covers the rounds. -/
theorem turbodisk_loop_stops {σ : Type}
    (call : Callback → buffer_t → σ → Nat × buffer_t × σ) :
    ∀ (n fuel : Nat) (first : Bool) (b : buffer_t) (s : σ),
      Stops call n (first_adjust first b) s → n + 257 ≤ fuel →
      (turbodisk_loop call fuel first b s).2.isSome = true := by
  intro n
  induction n with
  | zero =>
    intro fuel first b s hstop hfuel
    obtain ⟨f, rfl⟩ : ∃ f, fuel = f + 1 := ⟨fuel - 1, by omega⟩
    obtain ⟨hdr, _, hcase⟩ := turbodisk_loop_succ call f first b s
    rcases hstop with ⟨he, hl⟩ | ⟨he, hr⟩
    · rcases hcase with ⟨_, _, hs⟩ | ⟨he2, _⟩ | ⟨he2, _⟩
      · rw [hs, send_last_span _ hl f (by omega)]
      · rw [he] at he2; cases he2
      · rw [he] at he2; cases he2
    · rcases hcase with ⟨he2, _⟩ | ⟨_, _, _, hs⟩ | ⟨_, hr0, _⟩
      · rw [he] at he2; cases he2
      · exact hs
      · exact absurd hr0 hr
  | succ n ih =>
    intro fuel first b s hstop hfuel
    obtain ⟨f, rfl⟩ : ∃ f, fuel = f + 1 := ⟨fuel - 1, by omega⟩
    obtain ⟨hdr, _, hcase⟩ := turbodisk_loop_succ call f first b s
    obtain ⟨he, hr, hrest⟩ := hstop
    rcases hcase with ⟨he2, _⟩ | ⟨_, hr2, _⟩ | ⟨_, _, _, hs⟩
    · rw [he] at he2; cases he2
    · exact absurd hr hr2
    · rw [hs]
      exact ih f false _ _ (by rw [first_adjust_false]; exact hrest) (by omega)

/-- Cleanup on the runs that return.  When the open left no slot,
`load_turbodisk` returns after sending the single byte 0xFF and invokes no
cleanup.  When the open left a slot: a run that returns ends with interrupts on, the cleanup of
the slot, clock high, with no cleanup before, so the cleanup is invoked exactly
once, after the last bus send, and its effect is on the slot and state the loop
ended with; a run cut short by the bound has invoked no cleanup yet; and every
run that ends, with the final sector or with a refill fault, does return once
the bound covers its rounds. -/
theorem cleanup_exactly_once {σ : Type}
    (call : Callback → buffer_t → σ → Nat × buffer_t × σ)
    (opener : σ → Option buffer_t × σ) (fuel : Nat) (s : σ) :
    ((opener s).1 = none →
      (load_turbodisk call opener fuel s).1 =
        [Event.set_clock 0, Event.cli, Event.turbodisk_byte 0xff,
         Event.release_clock, Event.release_data, Event.sei] ∧
      (load_turbodisk call opener fuel s).2 = some (opener s).2 ∧
      List.count Event.cleanup (load_turbodisk call opener fuel s).1 = 0 ∧
      (load_turbodisk call opener fuel s).1.filter is_bus_send =
        [Event.turbodisk_byte 0xff]) ∧
    (∀ b, (opener s).1 = some b →
      ((load_turbodisk call opener fuel s).2.isSome = true →
        ∃ pre bl s2, (load_turbodisk call opener fuel s).1 =
            pre ++ [Event.sei, Event.cleanup, Event.set_clock 1] ∧
          Event.cleanup ∉ pre ∧
          List.count Event.cleanup (load_turbodisk call opener fuel s).1 = 1 ∧
          (turbodisk_loop call fuel true b (opener s).2).2 = some (bl, s2) ∧
          (load_turbodisk call opener fuel s).2 = some (call bl.cleanup bl s2).2.2) ∧
      ((load_turbodisk call opener fuel s).2 = none →
        Event.cleanup ∉ (load_turbodisk call opener fuel s).1) ∧
      (∀ n, Stops call n (first_adjust true b) (opener s).2 → n + 257 ≤ fuel →
        (load_turbodisk call opener fuel s).2.isSome = true)) := by
  constructor
  · intro hopen
    unfold load_turbodisk
    simp only [hopen]
    refine ⟨trivial, trivial, by decide, by decide⟩
  · intro b hopen
    have hloop : Event.cleanup ∉ Event.set_clock 0 :: Event.cli ::
        (turbodisk_loop call fuel true b (opener s).2).1 := by
      intro hm
      simp only [List.mem_cons, reduceCtorEq, false_or] at hm
      have := turbodisk_loop_events call fuel true b (opener s).2 _ hm
      simp [is_loop_event] at this
    cases hk : (turbodisk_loop call fuel true b (opener s).2).2 with
    | none =>
      have hres : load_turbodisk call opener fuel s =
          (Event.set_clock 0 :: Event.cli ::
            (turbodisk_loop call fuel true b (opener s).2).1, none) := by
        unfold load_turbodisk
        simp only [hopen, hk]
      refine ⟨?_, ?_, ?_⟩
      · intro h; rw [hres] at h; simp at h
      · intro _; rw [hres]; exact hloop
      · intro n hstop hfuel
        have := turbodisk_loop_stops call n fuel true b (opener s).2 hstop hfuel
        rw [hk] at this
        simp at this
    | some v =>
      obtain ⟨bl, s2⟩ := v
      have hres : load_turbodisk call opener fuel s =
          (Event.set_clock 0 :: Event.cli ::
            (turbodisk_loop call fuel true b (opener s).2).1 ++
            [Event.sei, Event.cleanup, Event.set_clock 1],
           some (call bl.cleanup bl s2).2.2) := by
        unfold load_turbodisk
        simp only [hopen, hk]
      refine ⟨?_, ?_, ?_⟩
      · intro _
        refine ⟨_, bl, s2, by rw [hres], hloop, ?_, rfl, by rw [hres]⟩
        rw [hres]
        simp only []
        rw [List.count_append, List.count_eq_zero.mpr hloop]
        decide
      · intro h; rw [hres] at h; simp at h
      · intro _ _ _; rw [hres]; rfl

/-- C9.  Abort propagation.  In every run of `load_turbodisk` in which a refill
reports a fault, that refill is followed by the single sentinel byte 0xFF and
then only by interrupts on, the cleanup and clock high: no further bus send and
no further refill; no earlier refill reported a fault; and the function
returns. -/
theorem abort_propagation {σ : Type}
    (call : Callback → buffer_t → σ → Nat × buffer_t × σ)
    (opener : σ → Option buffer_t × σ) (fuel : Nat) (s : σ) (rc : Nat)
    (hrc : rc ≠ 0) (h : Event.refill rc ∈ (load_turbodisk call opener fuel s).1) :
    ∃ pre, (load_turbodisk call opener fuel s).1 =
        pre ++ [Event.refill rc, Event.turbodisk_byte 0xff,
          Event.sei, Event.cleanup, Event.set_clock 1] ∧
      (∀ rc2, Event.refill rc2 ∈ pre → rc2 = 0) ∧
      (load_turbodisk call opener fuel s).2.isSome = true := by
  cases hopen : (opener s).1 with
  | none =>
    have hres : (load_turbodisk call opener fuel s).1 =
        [Event.set_clock 0, Event.cli, Event.turbodisk_byte 0xff,
         Event.release_clock, Event.release_data, Event.sei] := by
      unfold load_turbodisk
      simp only [hopen]
    rw [hres] at h
    simp at h
  | some b =>
    have hin : Event.refill rc ∈ (turbodisk_loop call fuel true b (opener s).2).1 := by
      cases hk : (turbodisk_loop call fuel true b (opener s).2).2 with
      | none =>
        have hres : (load_turbodisk call opener fuel s).1 =
            Event.set_clock 0 :: Event.cli ::
              (turbodisk_loop call fuel true b (opener s).2).1 := by
          unfold load_turbodisk
          simp only [hopen, hk]
        rw [hres] at h
        simpa using h
      | some v =>
        have hres : (load_turbodisk call opener fuel s).1 =
            Event.set_clock 0 :: Event.cli ::
              (turbodisk_loop call fuel true b (opener s).2).1 ++
              [Event.sei, Event.cleanup, Event.set_clock 1] := by
          unfold load_turbodisk
          simp only [hopen, hk]
        rw [hres] at h
        simpa using h
    obtain ⟨pre, hpre, hz, hsome⟩ := turbodisk_loop_abort call fuel true b (opener s).2 rc hrc hin
    obtain ⟨⟨bl, s2⟩, hk⟩ := Option.isSome_iff_exists.mp hsome
    have hres : load_turbodisk call opener fuel s =
        (Event.set_clock 0 :: Event.cli ::
          (turbodisk_loop call fuel true b (opener s).2).1 ++
          [Event.sei, Event.cleanup, Event.set_clock 1],
         some (call bl.cleanup bl s2).2.2) := by
      unfold load_turbodisk
      simp only [hopen, hk]
    refine ⟨Event.set_clock 0 :: Event.cli :: pre, ?_, ?_, ?_⟩
    · rw [hres, hpre]; simp
    · intro rc2 hm
      simp only [List.mem_cons, reduceCtorEq, false_or] at hm
      exact hz rc2 hm
    · rw [hres]; rfl

/-- C9, concrete run: the backend has one more sector and then reports a
fault on the second refill. -/
theorem abort_propagation_witness :
    (1 : Nat) ≠ 0 ∧
    Event.refill 1 ∈
      (load_turbodisk script_call (open_slot demo_first) 259 [sector [6, 7] false]).1 ∧
    ∃ pre, (load_turbodisk script_call (open_slot demo_first) 259 [sector [6, 7] false]).1 =
        pre ++ [Event.refill 1, Event.turbodisk_byte 0xff,
          Event.sei, Event.cleanup, Event.set_clock 1] ∧
      (∀ rc2, Event.refill rc2 ∈ pre → rc2 = 0) ∧
      (load_turbodisk script_call (open_slot demo_first) 259
        [sector [6, 7] false]).2.isSome = true :=
  ⟨by decide, by decide,
    abort_propagation script_call (open_slot demo_first) 259 [sector [6, 7] false] 1
      (by decide) (by decide)⟩

/-- Cleanup on concrete runs that return: a transfer that ends with the final
sector, one that ends with a refill fault, and a run without a slot. -/
theorem cleanup_exactly_once_witness :
    List.count Event.cleanup
      (load_turbodisk script_call (open_slot demo_first) 259 demo_rest).1 = 1 ∧
    List.count Event.cleanup
      (load_turbodisk script_call (open_slot demo_first) 259 [sector [6, 7] false]).1 = 1 ∧
    List.count Event.cleanup
      (load_turbodisk script_call open_none 259 demo_rest).1 = 0 :=
  ⟨(((cleanup_exactly_once script_call (open_slot demo_first) 259 demo_rest).2
      demo_first rfl).1 (by decide)).elim
      (fun _ h => h.elim (fun _ h => h.elim (fun _ h => h.2.2.1))),
    (((cleanup_exactly_once script_call (open_slot demo_first) 259
      [sector [6, 7] false]).2 demo_first rfl).1 (by decide)).elim
      (fun _ h => h.elim (fun _ h => h.elim (fun _ h => h.2.2.1))),
    ((cleanup_exactly_once script_call open_none 259 demo_rest).1 rfl).2.2.1⟩

/-- C8, the failing path.  A directory listing is opened on channel 0 (one
`alloc_buffer`) and transferred; the first directory read of the transfer
reports a fault.  `dir_refill` calls `free_buffer` and returns 1, the engine
sends 0xFF and invokes the cleanup, `generic_cleanup`, which calls
`free_buffer` again: two releases for one allocation.  On the other exit paths
(the same directory without the fault, and an open that fails at `opendir`, at
`disk_label` or at `disk_id`) there is one release for the allocation. -/
theorem dir_fault_releases_twice :
    (load_turbodisk (fileops_call stdConsts (demo_env [ReadResult.fail 1]) no_ext)
      (open_listing stdConsts (demo_env [ReadResult.fail 1]) [36] 1 (some blank_slot))
      300 ⟨0, 0⟩).2 = some ⟨1, 2⟩ ∧
    (load_turbodisk (fileops_call stdConsts (demo_env [ReadResult.fail 1]) no_ext)
      (open_listing stdConsts (demo_env [ReadResult.fail 1]) [36] 1 (some blank_slot))
      300 ⟨0, 0⟩).1.drop 6 =
      [Event.refill 1, Event.turbodisk_byte 0xff, Event.sei, Event.cleanup,
       Event.set_clock 1] ∧
    (load_turbodisk (fileops_call stdConsts (demo_env []) no_ext)
      (open_listing stdConsts (demo_env []) [36] 1 (some blank_slot))
      300 ⟨0, 0⟩).2 = some ⟨1, 1⟩ ∧
    (load_turbodisk (fileops_call stdConsts env_no_dir no_ext)
      (open_listing stdConsts env_no_dir [36] 1 (some blank_slot))
      300 ⟨0, 0⟩).2 = some ⟨1, 1⟩ ∧
    (load_turbodisk (fileops_call stdConsts env_no_label no_ext)
      (open_listing stdConsts env_no_label [36] 1 (some blank_slot))
      300 ⟨0, 0⟩).2 = some ⟨1, 1⟩ ∧
    (load_turbodisk (fileops_call stdConsts env_no_id no_ext)
      (open_listing stdConsts env_no_id [36] 1 (some blank_slot))
      300 ⟨0, 0⟩).2 = some ⟨1, 1⟩ := by
  decide

/-! ## Memory operations -/

theorem length_poke (a : List Nat) (i v : Nat) : (poke a i v).length = a.length := by
  simp [poke]

theorem peek_poke (a : List Nat) (i v j : Nat) :
    peek (poke a i v) j = if j = i ∧ i < a.length then v else peek a j := by
  unfold peek poke
  rw [List.getD_eq_getElem?_getD, List.getD_eq_getElem?_getD, List.getElem?_set]
  by_cases hij : i = j
  · subst hij
    by_cases hl : i < a.length
    · simp [hl]
    · simp [hl, List.getElem?_eq_none (Nat.le_of_not_lt hl)]
  · have : ¬ j = i := fun h => hij h.symm
    simp [hij, this]

theorem length_memset (a : List Nat) (off v : Nat) :
    ∀ n, (memset a off v n).length = a.length := by
  intro n
  induction n with
  | zero => rfl
  | succ n ih => simp [memset, length_poke, ih]

theorem peek_memset (a : List Nat) (off v : Nat) :
    ∀ n j, peek (memset a off v n) j =
      if off ≤ j ∧ j < off + n ∧ j < a.length then v else peek a j := by
  intro n
  induction n with
  | zero => intro j; rw [if_neg (by omega)]; rfl
  | succ n ih =>
    intro j
    simp only [memset, peek_poke, length_memset, ih]
    by_cases h1 : j = off + n ∧ off + n < a.length
    · rw [if_pos h1, if_pos (by omega)]
    · rw [if_neg h1]
      by_cases h2 : off ≤ j ∧ j < off + n ∧ j < a.length
      · rw [if_pos h2, if_pos (by omega)]
      · rw [if_neg h2, if_neg (by omega)]

theorem length_memcpy (a : List Nat) (off : Nat) (src : List Nat) :
    ∀ n, (memcpy a off src n).length = a.length := by
  intro n
  induction n with
  | zero => rfl
  | succ n ih => simp [memcpy, length_poke, ih]

theorem peek_memcpy (a : List Nat) (off : Nat) (src : List Nat) :
    ∀ n j, peek (memcpy a off src n) j =
      if off ≤ j ∧ j < off + n ∧ j < a.length then peek src (j - off) else peek a j := by
  intro n
  induction n with
  | zero => intro j; rw [if_neg (by omega)]; rfl
  | succ n ih =>
    intro j
    simp only [memcpy, peek_poke, length_memcpy, ih]
    by_cases h1 : j = off + n ∧ off + n < a.length
    · rw [if_pos h1, if_pos (by omega)]
      have : j - off = n := by omega
      rw [this]
    · rw [if_neg h1]
      by_cases h2 : off ≤ j ∧ j < off + n ∧ j < a.length
      · rw [if_pos h2, if_pos (by omega)]
      · rw [if_neg h2, if_neg (by omega)]

theorem length_mask_loop (base : Nat) :
    ∀ n m i, (mask_loop base n m i).1.length = m.length := by
  intro n
  induction n with
  | zero => intro m i; rfl
  | succ n ih =>
    intro m i
    unfold mask_loop
    split
    · rw [ih, length_poke]
    · rfl

theorem peek_mask_loop_outside (base : Nat) :
    ∀ n m i j, (j < base + i ∨ base + CBM_NAME_LENGTH < j) →
      peek (mask_loop base n m i).1 j = peek m j := by
  intro n
  induction n with
  | zero => intro m i j _; rfl
  | succ n ih =>
    intro m i j hj
    unfold mask_loop
    split
    · rw [ih _ _ _ (by omega), peek_poke, if_neg (by omega)]
    · rfl

theorem length_quote_loop (name : List Nat) (base : Nat) :
    ∀ n m i, (quote_loop name base n m i).length = m.length := by
  intro n
  induction n with
  | zero => intro m i; rfl
  | succ n ih =>
    intro m i
    unfold quote_loop
    split
    · split
      · simp only [ih, length_mask_loop, length_poke]
      · rw [ih]
    · rfl

theorem peek_quote_loop_outside (name : List Nat) (base : Nat) :
    ∀ n m i j, (j < base ∨ base + CBM_NAME_LENGTH < j) →
      peek (quote_loop name base n m i) j = peek m j := by
  intro n
  induction n with
  | zero => intro m i j _; rfl
  | succ n ih =>
    intro m i j hj
    unfold quote_loop
    by_cases hi : i ≤ CBM_NAME_LENGTH
    · rw [if_pos hi]
      split
      · simp only []
        rw [ih _ _ _ hj, peek_mask_loop_outside _ _ _ _ _ (by omega), peek_poke,
          if_neg (by omega)]
      · rw [ih _ _ _ hj]
    · rw [if_neg hi]

/-! ## addentry -/

theorem filler_le (bs : Nat) : filler bs ≤ 3 := by
  unfold filler
  split
  · omega
  · split
    · omega
    · split <;> omega

/-- The memory `addentry` leaves is the head writes followed by the writes from
the opening quote, which stands after the filler. -/
theorem addentry_data (c : Consts) (dent : cbmdirent) (buf : buffer_t) :
    (addentry c dent buf).data =
      addentry_from c dent (addentry_head dent buf.data buf.length)
        (buf.length + 4 + filler dent.blocksize) := by
  unfold addentry addentry_from addentry_head filler CBM_NAME_LENGTH TYPE_LENGTH
  by_cases h10 : dent.blocksize < 10
  · have h100 : dent.blocksize < 100 := by omega
    have h1000 : dent.blocksize < 1000 := by omega
    simp only [h10, h100, h1000, if_true, Nat.add_assoc, Nat.reduceAdd]
  · by_cases h100 : dent.blocksize < 100
    · have h1000 : dent.blocksize < 1000 := by omega
      simp only [h10, h100, h1000, if_true, if_false, Nat.add_assoc, Nat.reduceAdd]
    · by_cases h1000 : dent.blocksize < 1000
      · simp only [h10, h100, h1000, if_true, if_false, Nat.add_assoc, Nat.reduceAdd]
      · simp only [h10, h100, h1000, if_false, Nat.add_assoc, Nat.reduceAdd, Nat.add_zero]

theorem length_addentry_head (dent : cbmdirent) (d : List Nat) (base : Nat) :
    (addentry_head dent d base).length = d.length := by
  simp [addentry_head, length_poke, length_memset]

theorem peek_addentry_head (dent : cbmdirent) (d : List Nat) (base j : Nat)
    (hfit : base + 32 ≤ d.length) :
    peek (addentry_head dent d base) j =
      if j = base + 3 then dent.blocksize / 256 % 256
      else if j = base + 2 then dent.blocksize % 256
      else if j = base + 1 then 1
      else if j = base then 1
      else if j = base + 31 then 0
      else if base ≤ j ∧ j < base + 31 then 32
      else peek d j := by
  have h0 : base < d.length := by omega
  have h1 : base + 1 < d.length := by omega
  have h2 : base + 2 < d.length := by omega
  have h3 : base + 3 < d.length := by omega
  have h31 : base + 31 < d.length := by omega
  simp only [addentry_head, peek_poke, length_poke, length_memset, peek_memset, h0, h1, h2,
    h3, h31, and_true]
  by_cases hj : j < d.length
  · simp only [hj, and_true]
  · have e1 : ¬ (base ≤ j ∧ j < base + 31 ∧ j < d.length) := by omega
    have e2 : ¬ (base ≤ j ∧ j < base + 31) := by omega
    simp only [e1, e2, if_false]

theorem length_ite_poke (P : Prop) [Decidable P] (m : List Nat) (i v : Nat) :
    (if P then poke m i v else m).length = m.length := by
  split
  · exact length_poke _ _ _
  · rfl

theorem peek_ite_poke (P : Prop) [Decidable P] (m : List Nat) (i v j : Nat) :
    peek (if P then poke m i v else m) j =
      if (j = i ∧ i < m.length) ∧ P then v else peek m j := by
  by_cases hP : P
  · simp only [hP, if_true, and_true, peek_poke]
  · simp only [hP, if_false, and_false]

theorem length_addentry_from (c : Consts) (dent : cbmdirent) (m : List Nat) (q : Nat) :
    (addentry_from c dent m q).length = m.length := by
  unfold addentry_from
  simp only [length_ite_poke, length_memcpy, length_quote_loop, length_poke]

/-- The bytes `addentry` leaves outside the name field, from the opening quote
on. -/
theorem peek_addentry_from (c : Consts) (dent : cbmdirent) (m : List Nat) (q j : Nat)
    (hfit : q + 24 ≤ m.length) (hj : j < q + 1 ∨ q + 17 < j) :
    peek (addentry_from c dent m q) j =
      if j = q + 23 ∧ (dent.typeflags &&& c.FLAG_HIDDEN) ≠ 0 then 72
      else if j = q + 22 ∧ (dent.typeflags &&& c.FLAG_RO) ≠ 0 then 60
      else if q + 19 ≤ j ∧ j < q + 22 then
        peek (filetypes.drop (TYPE_LENGTH * (dent.typeflags &&& c.TYPE_MASK))) (j - (q + 19))
      else if j = q + 18 ∧ (dent.typeflags &&& c.FLAG_SPLAT) ≠ 0 then 42
      else if j = q then 34
      else peek m j := by
  have hq : q < m.length := by omega
  have h18 : q + 18 < m.length := by omega
  have h22 : q + 22 < m.length := by omega
  have h23 : q + 23 < m.length := by omega
  have hname : peek (quote_loop dent.name (q + 1) (CBM_NAME_LENGTH + 2)
      (memcpy (poke m q 0x22) (q + 1) dent.name CBM_NAME_LENGTH) 0) j =
      if j = q then 34 else peek m j := by
    rw [peek_quote_loop_outside _ _ _ _ _ _ (by unfold CBM_NAME_LENGTH; omega), peek_memcpy,
      if_neg (by unfold CBM_NAME_LENGTH; omega), peek_poke]
    simp only [hq, and_true]
  have hlen3 : (quote_loop dent.name (q + 1) (CBM_NAME_LENGTH + 2)
      (memcpy (poke m q 0x22) (q + 1) dent.name CBM_NAME_LENGTH) 0).length = m.length := by
    simp [length_quote_loop, length_memcpy, length_poke]
  unfold addentry_from
  simp only [peek_ite_poke, length_ite_poke, peek_memcpy, length_memcpy, hname, hlen3, h18,
    h22, h23, and_true, TYPE_LENGTH]
  by_cases c19 : (q + 19 ≤ j ∧ j < q + 22)
  · have c19b : q + 19 ≤ j ∧ j < q + 19 + 3 ∧ j < m.length := by omega
    have c23 : ¬ j = q + 23 := by omega
    have c22 : ¬ j = q + 22 := by omega
    simp only [c19, c19b, c23, c22, false_and, and_self, if_true, if_false]
  · have c19b : ¬ (q + 19 ≤ j ∧ j < q + 19 + 3 ∧ j < m.length) := by omega
    simp only [c19, c19b, if_false]

theorem peek_filetypes (t : Nat) (ht : t ≤ 6) :
    [peek (filetypes.drop (TYPE_LENGTH * t)) 0, peek (filetypes.drop (TYPE_LENGTH * t)) 1,
      peek (filetypes.drop (TYPE_LENGTH * t)) 2] = type_code t := by
  interval_cases t <;> rfl

/-- The bytes of the record outside the name field: the combination of the head
writes and the writes from the opening quote on. -/
theorem peek_addentry_outside (c : Consts) (dent : cbmdirent) (buf : buffer_t) (j : Nat)
    (hfit : buf.length + 32 ≤ buf.data.length)
    (hj : j < buf.length + 4 + filler dent.blocksize + 1 ∨
      buf.length + 4 + filler dent.blocksize + 17 < j) :
    peek (addentry c dent buf).data j =
      if j = buf.length + 4 + filler dent.blocksize + 23 ∧
          (dent.typeflags &&& c.FLAG_HIDDEN) ≠ 0 then 72
      else if j = buf.length + 4 + filler dent.blocksize + 22 ∧
          (dent.typeflags &&& c.FLAG_RO) ≠ 0 then 60
      else if buf.length + 4 + filler dent.blocksize + 19 ≤ j ∧
          j < buf.length + 4 + filler dent.blocksize + 22 then
        peek (filetypes.drop (TYPE_LENGTH * (dent.typeflags &&& c.TYPE_MASK)))
          (j - (buf.length + 4 + filler dent.blocksize + 19))
      else if j = buf.length + 4 + filler dent.blocksize + 18 ∧
          (dent.typeflags &&& c.FLAG_SPLAT) ≠ 0 then 42
      else if j = buf.length + 4 + filler dent.blocksize then 34
      else if j = buf.length + 3 then dent.blocksize / 256 % 256
      else if j = buf.length + 2 then dent.blocksize % 256
      else if j = buf.length + 1 then 1
      else if j = buf.length then 1
      else if j = buf.length + 31 then 0
      else if buf.length ≤ j ∧ j < buf.length + 31 then 32
      else peek buf.data j := by
  have hf := filler_le dent.blocksize
  rw [addentry_data, peek_addentry_from c dent _ _ j
    (by rw [length_addentry_head]; omega) hj, peek_addentry_head dent _ _ j hfit]

/-- C10.  Fixed 32-byte record layout.  For a slot in which the record fits
(`length + 32` within the buffer and within the 8-bit length field), an entry
with type tag 0..6 and a 16-bit block count: `addentry` changes only the 32
bytes `data[length .. length+31]` and the length field, which advances by 32;
record bytes 0-1 are 1,1; bytes 2-3 the block count, low byte first; after `f`
filler spaces (3, 2, 1, 0 for a block count below 10, below 100, below 1000, or
from 1000 on) the opening quote stands at offset `q = 4 + f`; offset `q+18` is
`*` if the splat flag is set, else a space; offsets `q+19 .. q+21` are the
three-letter code of the type tag; offset `q+22` is `<` if read-only, else a
space; offset `q+23` is `H` if hidden, else a space; the bytes after it up to
offset 30 are spaces; `q+23` is at most 30 and byte 31 is 0. -/
theorem addentry_record_layout (c : Consts) (dent : cbmdirent) (buf : buffer_t)
    (hfit : buf.length + 32 ≤ buf.data.length) (hcap : buf.length + 32 < 256)
    (htag : dent.typeflags &&& c.TYPE_MASK ≤ 6) (hbs : dent.blocksize < 65536) :
    addentry c dent buf =
        { buf with data := (addentry c dent buf).data, length := buf.length + 32 } ∧
    (addentry c dent buf).data.length = buf.data.length ∧
    (∀ j, j < buf.length ∨ buf.length + 32 ≤ j →
      peek (addentry c dent buf).data j = peek buf.data j) ∧
    peek (addentry c dent buf).data buf.length = 1 ∧
    peek (addentry c dent buf).data (buf.length + 1) = 1 ∧
    peek (addentry c dent buf).data (buf.length + 2) = dent.blocksize % 256 ∧
    peek (addentry c dent buf).data (buf.length + 3) = dent.blocksize / 256 ∧
    (dent.blocksize < 10 → filler dent.blocksize = 3) ∧
    (10 ≤ dent.blocksize ∧ dent.blocksize < 100 → filler dent.blocksize = 2) ∧
    (100 ≤ dent.blocksize ∧ dent.blocksize < 1000 → filler dent.blocksize = 1) ∧
    (1000 ≤ dent.blocksize → filler dent.blocksize = 0) ∧
    (∀ k, 4 ≤ k → k < 4 + filler dent.blocksize →
      peek (addentry c dent buf).data (buf.length + k) = 32) ∧
    peek (addentry c dent buf).data (buf.length + (4 + filler dent.blocksize)) = 34 ∧
    peek (addentry c dent buf).data (buf.length + (4 + filler dent.blocksize) + 18) =
      (if (dent.typeflags &&& c.FLAG_SPLAT) ≠ 0 then 42 else 32) ∧
    [peek (addentry c dent buf).data (buf.length + (4 + filler dent.blocksize) + 19),
     peek (addentry c dent buf).data (buf.length + (4 + filler dent.blocksize) + 20),
     peek (addentry c dent buf).data (buf.length + (4 + filler dent.blocksize) + 21)] =
      type_code (dent.typeflags &&& c.TYPE_MASK) ∧
    peek (addentry c dent buf).data (buf.length + (4 + filler dent.blocksize) + 22) =
      (if (dent.typeflags &&& c.FLAG_RO) ≠ 0 then 60 else 32) ∧
    peek (addentry c dent buf).data (buf.length + (4 + filler dent.blocksize) + 23) =
      (if (dent.typeflags &&& c.FLAG_HIDDEN) ≠ 0 then 72 else 32) ∧
    (∀ k, 4 + filler dent.blocksize + 24 ≤ k → k < 31 →
      peek (addentry c dent buf).data (buf.length + k) = 32) ∧
    4 + filler dent.blocksize + 23 ≤ 30 ∧
    peek (addentry c dent buf).data (buf.length + 31) = 0 := by
  have hf := filler_le dent.blocksize
  have key := fun j hj => peek_addentry_outside c dent buf j hfit hj
  have hhi : dent.blocksize / 256 % 256 = dent.blocksize / 256 := by omega
  generalize hq : filler dent.blocksize = f at *
  refine ⟨?_, ?_, ?_, ?_, ?_, ?_, ?_, ?_, ?_, ?_, ?_, ?_, ?_, ?_, ?_, ?_, ?_, ?_, ?_, ?_⟩
  · have hl : (addentry c dent buf).length = buf.length + 32 := by
      show (buf.length + 32) % 256 = buf.length + 32
      exact Nat.mod_eq_of_lt hcap
    rw [← hl]
    rfl
  · rw [addentry_data, length_addentry_from, length_addentry_head]
  · intro j hj
    rw [key j (by omega)]
    repeat rw [if_neg (by omega)]
  · rw [key _ (by omega)]
    repeat (first | rw [if_neg (by omega)] | rw [if_pos (by omega)])
  · rw [key _ (by omega)]
    repeat (first | rw [if_neg (by omega)] | rw [if_pos (by omega)])
  · rw [key _ (by omega)]
    repeat (first | rw [if_neg (by omega)] | rw [if_pos (by omega)])
  · rw [key _ (by omega)]
    repeat (first | rw [if_neg (by omega)] | rw [if_pos (by omega)])
    exact hhi
  · intro h; rw [← hq]; unfold filler; simp [h]
  · intro h; rw [← hq]; unfold filler
    rw [if_neg (by omega), if_pos h.2]
  · intro h; rw [← hq]; unfold filler
    rw [if_neg (by omega), if_neg (by omega), if_pos h.2]
  · intro h; rw [← hq]; unfold filler
    rw [if_neg (by omega), if_neg (by omega), if_neg (by omega)]
  · intro k h1 h2
    rw [key _ (by omega)]
    repeat (first | rw [if_neg (by omega)] | rw [if_pos (by omega)])
  · rw [key _ (by omega)]
    repeat (first | rw [if_neg (by omega)] | rw [if_pos (by omega)])
  · rw [key _ (by omega)]
    by_cases hs : (dent.typeflags &&& c.FLAG_SPLAT) ≠ 0
    · rw [if_neg (by omega), if_neg (by omega), if_neg (by omega), if_pos ⟨by omega, hs⟩,
        if_pos hs]
    · rw [if_neg (by omega), if_neg (by omega), if_neg (by omega),
        if_neg (fun h => hs h.2), if_neg hs]
      repeat (first | rw [if_neg (by omega)] | rw [if_pos (by omega)])
  · rw [← peek_filetypes _ htag, key _ (by omega), key _ (by omega), key _ (by omega)]
    have e0 : buf.length + (4 + f) + 19 - (buf.length + 4 + f + 19) = 0 := by omega
    have e1 : buf.length + (4 + f) + 20 - (buf.length + 4 + f + 19) = 1 := by omega
    have e2 : buf.length + (4 + f) + 21 - (buf.length + 4 + f + 19) = 2 := by omega
    rw [e0, e1, e2]
    rw [if_neg (by omega), if_neg (by omega), if_pos (by omega),
      if_neg (by omega), if_neg (by omega), if_pos (by omega),
      if_neg (by omega), if_neg (by omega), if_pos (by omega)]
  · rw [key _ (by omega)]
    by_cases hr : (dent.typeflags &&& c.FLAG_RO) ≠ 0
    · rw [if_neg (by omega), if_pos ⟨by omega, hr⟩, if_pos hr]
    · rw [if_neg (by omega), if_neg (fun h => hr h.2), if_neg hr]
      repeat (first | rw [if_neg (by omega)] | rw [if_pos (by omega)])
  · rw [key _ (by omega)]
    by_cases hh : (dent.typeflags &&& c.FLAG_HIDDEN) ≠ 0
    · rw [if_pos ⟨by omega, hh⟩, if_pos hh]
    · rw [if_neg (fun h => hh h.2), if_neg hh]
      repeat (first | rw [if_neg (by omega)] | rw [if_pos (by omega)])
  · intro k h1 h2
    rw [key _ (by omega)]
    repeat (first | rw [if_neg (by omega)] | rw [if_pos (by omega)])
  · omega
  · rw [key _ (by omega)]
    repeat (first | rw [if_neg (by omega)] | rw [if_pos (by omega)])

/-- C10, concrete run: the record of the entry `AB"CD` (123 blocks, program,
splat, read-only, hidden) written at the start of a free slot. -/
theorem addentry_record_layout_witness :
    blank_slot.length + 32 ≤ blank_slot.data.length ∧
    blank_slot.length + 32 < 256 ∧
    demo_dent.typeflags &&& stdConsts.TYPE_MASK ≤ 6 ∧
    demo_dent.blocksize < 65536 ∧
    peek (addentry stdConsts demo_dent blank_slot).data
      (blank_slot.length + (4 + filler demo_dent.blocksize)) = 34 ∧
    (addentry stdConsts demo_dent blank_slot).data.take 32 =
      [1, 1, 123, 0, 32, 34, 65, 66, 34, 67, 68, 32, 32, 32, 32, 32, 32, 32, 32, 32, 32, 32,
       32, 42, 80, 82, 71, 60, 72, 32, 32, 0] ∧
    (addentry stdConsts demo_dent blank_slot).length = 32 :=
  ⟨by decide, by decide, by decide, by decide,
    (addentry_record_layout stdConsts demo_dent blank_slot (by decide) (by decide)
      (by decide) (by decide)).2.2.2.2.2.2.2.2.2.2.2.2.1,
    by decide, by decide⟩

/-! ## The record does not depend on what the buffer held before -/

theorem agree_poke (m1 m2 : List Nat) (hi i v : Nat) (h : Agree m1 m2 hi) :
    Agree (poke m1 i v) (poke m2 i v) hi := by
  obtain ⟨h1, h2, h3⟩ := h
  refine ⟨by rw [length_poke]; exact h1, by rw [length_poke]; exact h2, ?_⟩
  intro j hj
  rw [peek_poke, peek_poke, h3 j hj]
  by_cases hji : j = i
  · subst hji
    rw [if_pos ⟨rfl, by omega⟩, if_pos ⟨rfl, by omega⟩]
  · rw [if_neg (fun hc => hji hc.1), if_neg (fun hc => hji hc.1)]

theorem agree_ite_poke (P : Prop) [Decidable P] (m1 m2 : List Nat) (hi i v : Nat)
    (h : Agree m1 m2 hi) :
    Agree (if P then poke m1 i v else m1) (if P then poke m2 i v else m2) hi := by
  by_cases hP : P
  · rw [if_pos hP, if_pos hP]; exact agree_poke _ _ _ _ _ h
  · rw [if_neg hP, if_neg hP]; exact h

theorem agree_memcpy (m1 m2 : List Nat) (hi off : Nat) (src : List Nat)
    (h : Agree m1 m2 hi) : ∀ n, Agree (memcpy m1 off src n) (memcpy m2 off src n) hi := by
  intro n
  induction n with
  | zero => exact h
  | succ n ih => exact agree_poke _ _ _ _ _ ih

theorem agree_mask_loop (base hi : Nat) (hb : base + CBM_NAME_LENGTH < hi) :
    ∀ n m1 m2 i, Agree m1 m2 hi →
      Agree (mask_loop base n m1 i).1 (mask_loop base n m2 i).1 hi ∧
        (mask_loop base n m1 i).2 = (mask_loop base n m2 i).2 := by
  intro n
  induction n with
  | zero => intro m1 m2 i h; exact ⟨h, rfl⟩
  | succ n ih =>
    intro m1 m2 i h
    unfold mask_loop
    by_cases hi16 : i ≤ CBM_NAME_LENGTH
    · rw [if_pos hi16, if_pos hi16, h.2.2 (base + i) (by omega)]
      exact ih _ _ _ (agree_poke _ _ _ _ _ h)
    · rw [if_neg hi16, if_neg hi16]
      exact ⟨h, rfl⟩

theorem agree_quote_loop (name : List Nat) (base hi : Nat)
    (hb : base + CBM_NAME_LENGTH < hi) :
    ∀ n m1 m2 i, Agree m1 m2 hi →
      Agree (quote_loop name base n m1 i) (quote_loop name base n m2 i) hi := by
  intro n
  induction n with
  | zero => intro m1 m2 i h; exact h
  | succ n ih =>
    intro m1 m2 i h
    unfold quote_loop
    by_cases hi16 : i ≤ CBM_NAME_LENGTH
    · rw [if_pos hi16, if_pos hi16]
      by_cases hq : peek name i = 0x22 ∨ peek name i = 0xa0 ∨ i = 16
      · rw [if_pos hq, if_pos hq]
        have hm := agree_mask_loop base hi hb (CBM_NAME_LENGTH + 1) _ _ i
          (agree_poke _ _ _ (base + i) 0x22 h)
        simp only []
        rw [hm.2]
        exact ih _ _ _ hm.1
      · rw [if_neg hq, if_neg hq]
        exact ih _ _ _ h
    · rw [if_neg hi16, if_neg hi16]
      exact h

theorem agree_addentry_from (c : Consts) (dent : cbmdirent) (m1 m2 : List Nat) (q hi : Nat)
    (hq : q + 17 < hi) (h : Agree m1 m2 hi) :
    Agree (addentry_from c dent m1 q) (addentry_from c dent m2 q) hi := by
  unfold addentry_from
  simp only []
  apply agree_ite_poke
  apply agree_ite_poke
  apply agree_memcpy
  apply agree_ite_poke
  apply agree_quote_loop _ _ _ (by unfold CBM_NAME_LENGTH; omega)
  apply agree_memcpy
  apply agree_poke
  exact h

theorem agree_addentry_head (dent : cbmdirent) (d1 d2 : List Nat)
    (h1 : 32 ≤ d1.length) (h2 : 32 ≤ d2.length) :
    Agree (addentry_head dent d1 0) (addentry_head dent d2 0) 32 := by
  refine ⟨by rw [length_addentry_head]; exact h1, by rw [length_addentry_head]; exact h2, ?_⟩
  intro j hj
  rw [peek_addentry_head dent d1 0 j (by omega), peek_addentry_head dent d2 0 j (by omega)]
  by_cases h31 : j = 31
  · subst h31; rfl
  · have hin : 0 ≤ j ∧ j < 0 + 31 := by omega
    simp only [hin, and_self, if_true]

theorem take_eq_of_agree (m1 m2 : List Nat) (n : Nat) (h : Agree m1 m2 n) :
    m1.take n = m2.take n := by
  obtain ⟨h1, h2, h3⟩ := h
  apply List.ext_getElem?
  intro j
  by_cases hj : j < n
  · have l1 : j < m1.length := by omega
    have l2 : j < m2.length := by omega
    rw [List.getElem?_take_of_lt hj, List.getElem?_take_of_lt hj]
    have e := h3 j hj
    rw [peek_eq_getElem m1 j l1, peek_eq_getElem m2 j l2] at e
    rw [List.getElem?_eq_getElem l1, List.getElem?_eq_getElem l2, e]
  · have l1 : (m1.take n).length ≤ j := by rw [List.length_take]; omega
    have l2 : (m2.take n).length ≤ j := by rw [List.length_take]; omega
    rw [List.getElem?_eq_none l1, List.getElem?_eq_none l2]

/-- The 32 bytes `addentry` writes at the start of a buffer are the record of
the entry, whatever the buffer held before. -/
theorem addentry_take_record (c : Consts) (dent : cbmdirent) (buf : buffer_t)
    (h0 : buf.length = 0) (h32 : 32 ≤ buf.data.length) :
    (addentry c dent buf).data.take 32 = record c dent := by
  have hf := filler_le dent.blocksize
  have hag : Agree (addentry c dent buf).data (addentry c dent scratch_slot).data 32 := by
    rw [addentry_data, addentry_data, h0]
    have hs : scratch_slot.length = 0 := rfl
    rw [hs]
    apply agree_addentry_from _ _ _ _ _ _ (by omega)
    exact agree_addentry_head dent _ _ h32 (by decide)
  have hlen : (addentry c dent scratch_slot).data.length = 32 := by
    rw [addentry_data, length_addentry_from, length_addentry_head]
    rfl
  rw [take_eq_of_agree _ _ _ hag]
  unfold record
  rw [← hlen, List.take_length]

/-! ## dir_refill and the listing sequence -/

theorem length_footer (blocks : Nat) : (footer_record blocks).length = 32 := by
  simp [footer_record, length_poke, dirfooter]

theorem addentry_length (c : Consts) (dent : cbmdirent) (buf : buffer_t) :
    (addentry c dent buf).length = (buf.length + 32) % 256 := rfl

theorem footer_take (data : List Nat) (blocks : Nat) (h32 : 32 ≤ data.length) :
    (poke (poke (memcpy data 0 dirfooter dirfooter.length) 2 (blocks % 256)) 3
      (blocks / 256 % 256)).take 32 = footer_record blocks := by
  have hl : dirfooter.length = 32 := rfl
  have hag : Agree (memcpy data 0 dirfooter dirfooter.length) dirfooter 32 := by
    refine ⟨by rw [length_memcpy]; exact h32, by omega, ?_⟩
    intro j hj
    rw [peek_memcpy, if_pos ⟨by omega, by omega, by omega⟩]
    rfl
  have hag2 := agree_poke _ _ 32 3 (blocks / 256 % 256)
    (agree_poke _ _ 32 2 (blocks % 256) hag)
  rw [take_eq_of_agree _ _ _ hag2]
  show (footer_record blocks).take 32 = footer_record blocks
  rw [← length_footer blocks, List.take_length]

/-- What `dir_refill` leaves when the scan finds an entry. -/
theorem dir_refill_entry (c : Consts) (blocks : Nat) (buf : buffer_t) (p : Pool)
    (d : cbmdirent) (rest : DIR)
    (hwf : ∀ code, ReadResult.fail code ∈ buf.dh → 0 < code)
    (hscan : scan_rest c buf.matchstr buf.filetype buf.dh = ReadResult.entry d :: rest)
    (h32 : 32 ≤ buf.data.length) :
    (dir_refill c blocks buf p).1 = 0 ∧ (dir_refill c blocks buf p).2.2 = p ∧
    (dir_refill c blocks buf p).2.1.sendeoi = buf.sendeoi ∧
    (dir_refill c blocks buf p).2.1.position = 0 ∧
    (dir_refill c blocks buf p).2.1.length = 31 ∧
    (dir_refill c blocks buf p).2.1.data.take 32 = record c d ∧
    (dir_refill c blocks buf p).2.1.dh = rest ∧
    (dir_refill c blocks buf p).2.1.matchstr = buf.matchstr ∧
    (dir_refill c blocks buf p).2.1.filetype = buf.filetype ∧
    (dir_refill c blocks buf p).2.1.data.length = buf.data.length := by
  have hn := (next_match_scan c buf.matchstr buf.filetype buf.dh dent_uninit hwf).2.1
    d rest hscan
  refine ⟨?_, ?_, ?_, ?_, ?_, ?_, ?_, ?_, ?_, ?_⟩ <;> unfold dir_refill <;>
    simp only [hn, if_true] <;>
    first
    | rfl
    | exact addentry_take_record c d _ rfl h32
    | (rw [addentry_data, length_addentry_from, length_addentry_head])
    | (rw [addentry_length]; simp only [Nat.zero_add, Nat.reduceMod, Nat.reduceAdd])

/-- What `dir_refill` leaves when the cursor is exhausted before a match. -/
theorem dir_refill_end (c : Consts) (blocks : Nat) (buf : buffer_t) (p : Pool)
    (hwf : ∀ code, ReadResult.fail code ∈ buf.dh → 0 < code)
    (hscan : scan_rest c buf.matchstr buf.filetype buf.dh = [])
    (h32 : 32 ≤ buf.data.length) :
    (dir_refill c blocks buf p).1 = 0 ∧ (dir_refill c blocks buf p).2.2 = p ∧
    (dir_refill c blocks buf p).2.1.sendeoi = true ∧
    (dir_refill c blocks buf p).2.1.position = 0 ∧
    (dir_refill c blocks buf p).2.1.length = 31 ∧
    (dir_refill c blocks buf p).2.1.data.take 32 = footer_record blocks := by
  have hn := ((next_match_scan c buf.matchstr buf.filetype buf.dh dent_uninit hwf).1 hscan).1
  have hne : ¬ (next_match c buf.dh buf.matchstr buf.filetype dent_uninit).1 = 0 := by
    rw [hn]; decide
  have h5 : (dir_refill c blocks buf p).1 = 0 ∧ (dir_refill c blocks buf p).2.2 = p ∧
      (dir_refill c blocks buf p).2.1.sendeoi = true ∧
      (dir_refill c blocks buf p).2.1.position = 0 ∧
      (dir_refill c blocks buf p).2.1.length = 31 := by
    refine ⟨?_, ?_, ?_, ?_, ?_⟩ <;> unfold dir_refill <;> simp only [] <;>
      rw [if_neg hne, if_pos hn] <;> rfl
  have h6 : (dir_refill c blocks buf p).2.1.data.take 32 = footer_record blocks := by
    unfold dir_refill
    simp only []
    rw [if_neg hne, if_pos hn]
    unfold dir_footer
    simp only []
    exact footer_take buf.data blocks h32
  exact ⟨h5.1, h5.2.1, h5.2.2.1, h5.2.2.2.1, h5.2.2.2.2, h6⟩

theorem matching_scan_nil (c : Consts) (m : Option (List Nat)) (t : Nat) :
    ∀ dh : DIR, (∀ x ∈ dh, ∃ d, x = ReadResult.entry d) → scan_rest c m t dh = [] →
      matching c m t dh = [] := by
  intro dh
  induction dh with
  | nil => intro _ _; rfl
  | cons x xs ih =>
    intro hff hscan
    obtain ⟨d, rfl⟩ := hff x (List.mem_cons_self _ _)
    have hff2 : ∀ y ∈ xs, ∃ d, y = ReadResult.entry d :=
      fun y hy => hff y (List.mem_cons_of_mem _ hy)
    by_cases hp : passes c m t d
    · have : is_skipped c m t (ReadResult.entry d) = false := by simp [is_skipped, hp]
      simp [scan_rest, List.dropWhile_cons, this] at hscan
    · have hs : is_skipped c m t (ReadResult.entry d) = true := by simp [is_skipped, hp]
      have hr : scan_rest c m t (ReadResult.entry d :: xs) = scan_rest c m t xs := by
        simp [scan_rest, List.dropWhile_cons, hs]
      rw [hr] at hscan
      simp only [matching, hp, if_false]
      exact ih hff2 hscan

theorem matching_scan_entry (c : Consts) (m : Option (List Nat)) (t : Nat) :
    ∀ (dh : DIR) (d : cbmdirent) (rest : DIR),
      (∀ x ∈ dh, ∃ d, x = ReadResult.entry d) →
      scan_rest c m t dh = ReadResult.entry d :: rest →
      matching c m t dh = d :: matching c m t rest ∧ rest.length < dh.length ∧
        (∀ x ∈ rest, ∃ d, x = ReadResult.entry d) := by
  intro dh
  induction dh with
  | nil => intro d rest _ hscan; simp [scan_rest] at hscan
  | cons x xs ih =>
    intro d0 rest hff hscan
    obtain ⟨d, rfl⟩ := hff x (List.mem_cons_self _ _)
    have hff2 : ∀ y ∈ xs, ∃ d, y = ReadResult.entry d :=
      fun y hy => hff y (List.mem_cons_of_mem _ hy)
    by_cases hp : passes c m t d
    · have hs : is_skipped c m t (ReadResult.entry d) = false := by simp [is_skipped, hp]
      have hr : scan_rest c m t (ReadResult.entry d :: xs) = ReadResult.entry d :: xs := by
        simp [scan_rest, List.dropWhile_cons, hs]
      rw [hr] at hscan
      simp only [List.cons.injEq, ReadResult.entry.injEq] at hscan
      obtain ⟨hd, hrest⟩ := hscan
      subst hd
      subst hrest
      refine ⟨by simp only [matching, hp, if_true], by simp, hff2⟩
    · have hs : is_skipped c m t (ReadResult.entry d) = true := by simp [is_skipped, hp]
      have hr : scan_rest c m t (ReadResult.entry d :: xs) = scan_rest c m t xs := by
        simp [scan_rest, List.dropWhile_cons, hs]
      rw [hr] at hscan
      obtain ⟨h1, h2, h3⟩ := ih d0 rest hff2 hscan
      refine ⟨by simp only [matching, hp, if_false]; exact h1, ?_, h3⟩
      simp only [List.length_cons]
      omega

theorem scan_rest_cases_fault_free (c : Consts) (m : Option (List Nat)) (t : Nat) (dh : DIR)
    (hff : ∀ x ∈ dh, ∃ d, x = ReadResult.entry d) :
    scan_rest c m t dh = [] ∨ ∃ d rest, scan_rest c m t dh = ReadResult.entry d :: rest := by
  cases hr : scan_rest c m t dh with
  | nil => exact Or.inl rfl
  | cons x rest =>
    have hx : x ∈ dh := scan_rest_mem c m t dh x (by rw [hr]; exact List.mem_cons_self _ _)
    obtain ⟨d, rfl⟩ := hff x hx
    exact Or.inr ⟨d, rest, rfl⟩

theorem drain_listing (c : Consts) (blocks : Nat) :
    ∀ (n : Nat) (buf : buffer_t) (p : Pool) (fuel : Nat), buf.dh.length = n →
      (∀ x ∈ buf.dh, ∃ d, x = ReadResult.entry d) → buf.sendeoi = false →
      32 ≤ buf.data.length →
      (matching c buf.matchstr buf.filetype buf.dh).length + 1 ≤ fuel →
      (drain c blocks fuel buf p).map observe =
        (matching c buf.matchstr buf.filetype buf.dh).map
            (fun d => (0, false, 0, 31, record c d)) ++
          [(0, true, 0, 31, footer_record blocks)] := by
  intro n
  induction n using Nat.strong_induction_on with
  | _ n ih =>
    intro buf p fuel hn hff heoi h32 hfuel
    have hwf : ∀ code, ReadResult.fail code ∈ buf.dh → 0 < code := by
      intro code hm
      obtain ⟨d, hd⟩ := hff _ hm
      cases hd
    obtain ⟨f, rfl⟩ : ∃ f, fuel = f + 1 := ⟨fuel - 1, by omega⟩
    rcases scan_rest_cases_fault_free c buf.matchstr buf.filetype buf.dh hff with
      hscan | ⟨d, rest, hscan⟩
    · obtain ⟨h1, _, h3, h4, h5, h6⟩ := dir_refill_end c blocks buf p hwf hscan h32
      rw [matching_scan_nil c _ _ _ hff hscan]
      unfold drain
      simp only [h1, h3, ne_eq, not_true_eq_false, or_true, if_true, List.map_cons,
        List.map_nil, List.nil_append, observe, h4, h5, h6]
    · obtain ⟨h1, h2, h3, h4, h5, h6, h7, h8, h9, h10⟩ :=
        dir_refill_entry c blocks buf p d rest hwf hscan h32
      obtain ⟨hm, hlt, hff2⟩ := matching_scan_entry c _ _ _ d rest hff hscan
      rw [hm] at hfuel ⊢
      simp only [List.length_cons] at hfuel
      have hrec := ih rest.length (by omega) (dir_refill c blocks buf p).2.1 p f
        (by rw [h7]) (by rw [h7]; exact hff2) (by rw [h3]; exact heoi)
        (by rw [h10]; exact h32) (by rw [h8, h9, h7]; omega)
      rw [h8, h9, h7] at hrec
      unfold drain
      simp only [h1, h3, heoi, ne_eq, not_true_eq_false, Bool.false_eq_true, or_self,
        if_false, List.map_cons, List.cons_append, h2, hrec, observe, h4, h5, h6]

/-- C6.  Directory listing sequence.  For a listing slot (`sendeoi` clear,
a buffer of at least 32 bytes) over a finite fault-free directory, draining the
slot with `dir_refill` until `sendeoi` is set yields, call by call: success
with `sendeoi` clear, position 0, length 31 and the 32-byte record of the next
entry (in cursor order) that passes the type check, the hidden rule and the
name pattern; and, on the call after the last such entry, success with
`sendeoi` set and the footer record.  So the stream holds one record per
matching entry, none for the others, in cursor order, followed by exactly one
footer. -/
theorem listing_sequence (c : Consts) (blocks : Nat) (buf : buffer_t) (p : Pool)
    (fuel : Nat)
    (hff : ∀ x ∈ buf.dh, ∃ d, x = ReadResult.entry d) (heoi : buf.sendeoi = false)
    (h32 : 32 ≤ buf.data.length)
    (hfuel : (matching c buf.matchstr buf.filetype buf.dh).length + 1 ≤ fuel) :
    (drain c blocks fuel buf p).map observe =
      (matching c buf.matchstr buf.filetype buf.dh).map
          (fun d => (0, false, 0, 31, record c d)) ++
        [(0, true, 0, 31, footer_record blocks)] :=
  drain_listing c blocks buf.dh.length buf p fuel rfl hff heoi h32 hfuel

/-- C6, concrete run: a directory with the entries FOO, BAR (hidden) and BAZ,
listed without pattern and type filter: the records of FOO and BAZ, then the
footer. -/
theorem listing_sequence_witness :
    (∀ x ∈ demo_listing.dh, ∃ d, x = ReadResult.entry d) ∧
    demo_listing.sendeoi = false ∧ 32 ≤ demo_listing.data.length ∧
    (matching stdConsts demo_listing.matchstr demo_listing.filetype demo_listing.dh).length + 1
      ≤ 3 ∧
    (drain stdConsts 664 3 demo_listing ⟨1, 0⟩).map observe =
      [(0, false, 0, 31, record stdConsts demo_foo),
       (0, false, 0, 31, record stdConsts demo_baz),
       (0, true, 0, 31, footer_record 664)] ∧
    record stdConsts demo_baz =
      [1, 1, 176, 4, 34, 66, 65, 90, 34, 32, 32, 32, 32, 32, 32, 32, 32, 32, 32, 32, 32, 32,
       32, 83, 69, 81, 32, 32, 32, 32, 32, 0] :=
  ⟨by intro x hx; simp [demo_listing] at hx; rcases hx with h | h | h <;> exact ⟨_, h⟩,
    rfl, by decide, by decide,
    (listing_sequence stdConsts 664 demo_listing ⟨1, 0⟩ 3
      (by intro x hx; simp [demo_listing] at hx; rcases hx with h | h | h <;> exact ⟨_, h⟩)
      rfl (by decide) (by decide)).trans
      (by rw [show matching stdConsts demo_listing.matchstr demo_listing.filetype
            demo_listing.dh = [demo_foo, demo_baz] from by decide]; rfl),
    by decide⟩

/-! ## The quoted name field -/

/-- The masking loop clears bit 7 of the bytes from index `i` to index 16 of
the field and ends with `i = 17`. -/
theorem peek_mask_loop (base : Nat) :
    ∀ n m i j, CBM_NAME_LENGTH + 1 ≤ n + i →
      peek (mask_loop base n m i).1 j =
        if base + i ≤ j ∧ j ≤ base + CBM_NAME_LENGTH ∧ j < m.length then peek m j &&& 0x7f
        else peek m j := by
  intro n
  induction n with
  | zero =>
    intro m i j hn
    rw [if_neg (by omega)]
    rfl
  | succ n ih =>
    intro m i j hn
    unfold mask_loop
    by_cases hi : i ≤ CBM_NAME_LENGTH
    · rw [if_pos hi, ih _ _ _ (by omega), length_poke, peek_poke]
      by_cases hj : j = base + i
      · subst hj
        have c1 : ¬ (base + (i + 1) ≤ base + i ∧ base + i ≤ base + CBM_NAME_LENGTH ∧
            base + i < m.length) := by omega
        rw [if_neg c1]
        by_cases hl : base + i < m.length
        · have c2 : base + i = base + i ∧ base + i < m.length := ⟨rfl, hl⟩
          have c3 : base + i ≤ base + i ∧ base + i ≤ base + CBM_NAME_LENGTH ∧
              base + i < m.length := ⟨by omega, by omega, hl⟩
          rw [if_pos c2, if_pos c3]
        · have c2 : ¬ (base + i = base + i ∧ base + i < m.length) := fun h => hl h.2
          have c3 : ¬ (base + i ≤ base + i ∧ base + i ≤ base + CBM_NAME_LENGTH ∧
              base + i < m.length) := fun h => hl h.2.2
          rw [if_neg c2, if_neg c3]
      · have c2 : ¬ (j = base + i ∧ base + i < m.length) := fun h => hj h.1
        rw [if_neg c2]
        by_cases hr : base + (i + 1) ≤ j ∧ j ≤ base + CBM_NAME_LENGTH ∧ j < m.length
        · have c3 : base + i ≤ j ∧ j ≤ base + CBM_NAME_LENGTH ∧ j < m.length :=
            ⟨by omega, hr.2.1, hr.2.2⟩
          rw [if_pos hr, if_pos c3]
        · have c3 : ¬ (base + i ≤ j ∧ j ≤ base + CBM_NAME_LENGTH ∧ j < m.length) := by
            omega
          rw [if_neg hr, if_neg c3]
    · have c3 : ¬ (base + i ≤ j ∧ j ≤ base + CBM_NAME_LENGTH ∧ j < m.length) := by omega
      rw [if_neg hi, if_neg c3]

theorem mask_loop_index (base : Nat) :
    ∀ n m i, i ≤ CBM_NAME_LENGTH + 1 → CBM_NAME_LENGTH + 1 ≤ n + i →
      (mask_loop base n m i).2 = CBM_NAME_LENGTH + 1 := by
  intro n
  induction n with
  | zero => intro m i h1 h2; simp only [mask_loop]; omega
  | succ n ih =>
    intro m i h1 h2
    unfold mask_loop
    by_cases hi : i ≤ CBM_NAME_LENGTH
    · rw [if_pos hi]
      exact ih _ _ (by omega) (by omega)
    · rw [if_neg hi]
      simp only []
      omega

/-- The quoting loop changes nothing before the index `k` of the first quote
or pad (16 if there is none); there it writes the quote and masks the rest. -/
theorem quote_loop_eq (name : List Nat) (base k : Nat) (hk : k ≤ 16)
    (hbefore : ∀ i, i < k → peek name i ≠ 0x22 ∧ peek name i ≠ 0xa0)
    (hat : k < 16 → peek name k = 0x22 ∨ peek name k = 0xa0) :
    ∀ n m i, i ≤ k → k + 1 ≤ n + i →
      quote_loop name base n m i =
        (mask_loop base (CBM_NAME_LENGTH + 1) (poke m (base + k) 0x22) k).1 := by
  intro n
  induction n with
  | zero => intro m i h1 h2; omega
  | succ n ih =>
    intro m i h1 h2
    unfold quote_loop
    have hi16 : i ≤ CBM_NAME_LENGTH := by unfold CBM_NAME_LENGTH; omega
    rw [if_pos hi16]
    by_cases hik : i = k
    · subst hik
      have htrig : peek name i = 0x22 ∨ peek name i = 0xa0 ∨ i = 16 := by
        by_cases h16 : i = 16
        · exact Or.inr (Or.inr h16)
        · rcases hat (by omega) with h | h
          · exact Or.inl h
          · exact Or.inr (Or.inl h)
      rw [if_pos htrig]
      simp only []
      rw [mask_loop_index base _ _ i (by unfold CBM_NAME_LENGTH; omega)
        (by unfold CBM_NAME_LENGTH; omega)]
      cases n with
      | zero => rfl
      | succ n =>
        unfold quote_loop
        rw [if_neg (by unfold CBM_NAME_LENGTH; omega)]
    · have hlt : i < k := by omega
      have hno : ¬ (peek name i = 0x22 ∨ peek name i = 0xa0 ∨ i = 16) := by
        have := hbefore i hlt
        intro h
        rcases h with h | h | h
        · exact this.1 h
        · exact this.2 h
        · omega
      rw [if_neg hno]
      exact ih m (i + 1) (by omega) (by omega)

/-- The bytes of the name field (index 0..16 after the opening quote) that
`addentry` leaves. -/
theorem peek_addentry_from_field (c : Consts) (dent : cbmdirent) (m : List Nat)
    (q i k : Nat) (hfit : q + 24 ≤ m.length) (hi : i ≤ 16) (hk : k ≤ 16)
    (hbefore : ∀ t, t < k → peek dent.name t ≠ 0x22 ∧ peek dent.name t ≠ 0xa0)
    (hat : k < 16 → peek dent.name k = 0x22 ∨ peek dent.name k = 0xa0) :
    peek (addentry_from c dent m q) (q + 1 + i) =
      if i < k then peek dent.name i
      else if i = k then 0x22
      else if i < 16 then peek dent.name i &&& 0x7f
      else peek m (q + 17) &&& 0x7f := by
  have hq : q < m.length := by omega
  have hlen2 : (memcpy (poke m q 0x22) (q + 1) dent.name CBM_NAME_LENGTH).length =
      m.length := by rw [length_memcpy, length_poke]
  have hql := quote_loop_eq dent.name (q + 1) k hk hbefore hat (CBM_NAME_LENGTH + 2)
    (memcpy (poke m q 0x22) (q + 1) dent.name CBM_NAME_LENGTH) 0 (Nat.zero_le _)
    (by unfold CBM_NAME_LENGTH; omega)
  have hm3 : ∀ j, peek (memcpy (poke m q 0x22) (q + 1) dent.name CBM_NAME_LENGTH) j =
      if q + 1 ≤ j ∧ j < q + 1 + CBM_NAME_LENGTH ∧ j < m.length then
        peek dent.name (j - (q + 1))
      else if j = q ∧ q < m.length then 0x22 else peek m j := by
    intro j
    rw [peek_memcpy, length_poke, peek_poke]
  have hlen3 : (quote_loop dent.name (q + 1) (CBM_NAME_LENGTH + 2)
      (memcpy (poke m q 0x22) (q + 1) dent.name CBM_NAME_LENGTH) 0).length = m.length := by
    simp [length_quote_loop, length_memcpy, length_poke]
  have hfield : peek (quote_loop dent.name (q + 1) (CBM_NAME_LENGTH + 2)
      (memcpy (poke m q 0x22) (q + 1) dent.name CBM_NAME_LENGTH) 0) (q + 1 + i) =
      if i < k then peek dent.name i
      else if i = k then 0x22
      else if i < 16 then peek dent.name i &&& 0x7f
      else peek m (q + 17) &&& 0x7f := by
    rw [hql, peek_mask_loop _ _ _ _ _ (by omega), length_poke, hlen2, peek_poke, hlen2, hm3]
    unfold CBM_NAME_LENGTH
    by_cases h1 : i < k
    · have c1 : ¬ (q + 1 + k ≤ q + 1 + i ∧ q + 1 + i ≤ q + 1 + 16 ∧ q + 1 + i < m.length) := by
        omega
      have c2 : ¬ (q + 1 + i = q + 1 + k ∧ q + 1 + k < m.length) := by omega
      have c3 : q + 1 ≤ q + 1 + i ∧ q + 1 + i < q + 1 + 16 ∧ q + 1 + i < m.length := by
        omega
      have e : q + 1 + i - (q + 1) = i := by omega
      rw [if_neg c1, if_neg c2, if_pos c3, if_pos h1, e]
    · have c1 : q + 1 + k ≤ q + 1 + i ∧ q + 1 + i ≤ q + 1 + 16 ∧ q + 1 + i < m.length := by
        omega
      rw [if_pos c1, if_neg h1]
      by_cases h2 : i = k
      · have c2 : q + 1 + i = q + 1 + k ∧ q + 1 + k < m.length := by omega
        rw [if_pos c2, if_pos h2]
        rfl
      · have c2 : ¬ (q + 1 + i = q + 1 + k ∧ q + 1 + k < m.length) := by omega
        rw [if_neg c2, if_neg h2]
        by_cases h3 : i < 16
        · have c3 : q + 1 ≤ q + 1 + i ∧ q + 1 + i < q + 1 + 16 ∧ q + 1 + i < m.length := by
            omega
          have e : q + 1 + i - (q + 1) = i := by omega
          rw [if_pos c3, if_pos h3, e]
        · have c3 : ¬ (q + 1 ≤ q + 1 + i ∧ q + 1 + i < q + 1 + 16 ∧
              q + 1 + i < m.length) := by omega
          have c4 : ¬ (q + 1 + i = q ∧ q < m.length) := by omega
          have e : q + 1 + i = q + 17 := by omega
          rw [if_neg c3, if_neg c4, if_neg h3, e]
  have hj18 : ¬ (q + 1 + i = q + 18 ∧ q + 18 < m.length) := by omega
  have hj22 : ¬ (q + 1 + i = q + 22 ∧ q + 22 < m.length) := by omega
  have hj23 : ¬ (q + 1 + i = q + 23 ∧ q + 23 < m.length) := by omega
  have hj19 : ¬ (q + 19 ≤ q + 1 + i ∧ q + 1 + i < q + 19 + 3 ∧ q + 1 + i < m.length) := by
    omega
  unfold addentry_from
  simp only [peek_ite_poke, length_ite_poke, peek_memcpy, length_memcpy, hlen3, TYPE_LENGTH,
    hj18, hj22, hj23, hj19, false_and, if_false, hfield]

/-- C11.  Name quoting in a listing record.  Let `k` be the smallest index in
0..15 at which the name byte is 0x22 or 0xA0, or 16 if there is none, and let
the name field start right after the opening quote.  In the record `addentry`
writes (into a slot in which the record fits): field bytes `0 .. k-1` are the
name bytes unchanged (none of them a quote), field byte `k` is the quote 0x22,
and every field byte after `k` up to index 16 has bit 7 clear: it is the name
byte AND 0x7F below index 16 and a space at index 16.  So the quote written at
`k` is the one closing quote the loop inserts. -/
theorem addentry_name_quoting (c : Consts) (dent : cbmdirent) (buf : buffer_t) (k : Nat)
    (hfit : buf.length + 32 ≤ buf.data.length) (hk : k ≤ 16)
    (hbefore : ∀ t, t < k → peek dent.name t ≠ 0x22 ∧ peek dent.name t ≠ 0xa0)
    (hat : k < 16 → peek dent.name k = 0x22 ∨ peek dent.name k = 0xa0) :
    (∀ i, i < k →
      peek (addentry c dent buf).data (buf.length + (4 + filler dent.blocksize) + 1 + i) =
        peek dent.name i) ∧
    (∀ i, i < k →
      peek (addentry c dent buf).data (buf.length + (4 + filler dent.blocksize) + 1 + i) ≠
        0x22) ∧
    peek (addentry c dent buf).data (buf.length + (4 + filler dent.blocksize) + 1 + k) =
      0x22 ∧
    (∀ i, k < i → i < 16 →
      peek (addentry c dent buf).data (buf.length + (4 + filler dent.blocksize) + 1 + i) =
        peek dent.name i &&& 0x7f) ∧
    (k < 16 →
      peek (addentry c dent buf).data (buf.length + (4 + filler dent.blocksize) + 1 + 16) =
        32) ∧
    (∀ i, k < i → i ≤ 16 →
      peek (addentry c dent buf).data (buf.length + (4 + filler dent.blocksize) + 1 + i) <
        128) := by
  have hf := filler_le dent.blocksize
  have hlen : buf.length + 4 + filler dent.blocksize + 24 ≤
      (addentry_head dent buf.data buf.length).length := by
    rw [length_addentry_head]; omega
  have h17 : peek (addentry_head dent buf.data buf.length)
      (buf.length + 4 + filler dent.blocksize + 17) = 32 := by
    rw [peek_addentry_head dent _ _ _ hfit]
    repeat (first | rw [if_neg (by omega)] | rw [if_pos (by omega)])
  have key : ∀ i, i ≤ 16 →
      peek (addentry c dent buf).data (buf.length + (4 + filler dent.blocksize) + 1 + i) =
        if i < k then peek dent.name i
        else if i = k then 0x22
        else if i < 16 then peek dent.name i &&& 0x7f
        else 32 := by
    intro i hi
    have e : buf.length + (4 + filler dent.blocksize) + 1 + i =
        buf.length + 4 + filler dent.blocksize + 1 + i := by omega
    rw [e, addentry_data, peek_addentry_from_field c dent _ _ i k hlen hi hk hbefore hat, h17]
    rfl
  have hmask : ∀ x : Nat, x &&& 0x7f < 128 := fun x =>
    Nat.lt_of_le_of_lt Nat.and_le_right (by decide)
  refine ⟨?_, ?_, ?_, ?_, ?_, ?_⟩
  · intro i hi
    rw [key i (by omega), if_pos hi]
  · intro i hi
    rw [key i (by omega), if_pos hi]
    exact (hbefore i hi).1
  · rw [key k hk, if_neg (by omega), if_pos rfl]
  · intro i h1 h2
    rw [key i (by omega), if_neg (by omega), if_neg (by omega), if_pos h2]
  · intro h
    rw [key 16 (le_refl _), if_neg (by omega), if_neg (by omega), if_neg (by omega)]
  · intro i h1 h2
    rw [key i h2, if_neg (by omega), if_neg (by omega)]
    by_cases h3 : i < 16
    · rw [if_pos h3]; exact hmask _
    · rw [if_neg h3]; decide

/-- C11, concrete run: the name `AB"CD`, whose first quote or pad is at index
2; the field is `AB"CD` followed by spaces. -/
theorem addentry_name_quoting_witness :
    blank_slot.length + 32 ≤ blank_slot.data.length ∧ (2 : Nat) ≤ 16 ∧
    (∀ t, t < 2 → peek demo_dent.name t ≠ 0x22 ∧ peek demo_dent.name t ≠ 0xa0) ∧
    ((2 : Nat) < 16 → peek demo_dent.name 2 = 0x22 ∨ peek demo_dent.name 2 = 0xa0) ∧
    peek (addentry stdConsts demo_dent blank_slot).data
      (blank_slot.length + (4 + filler demo_dent.blocksize) + 1 + 2) = 0x22 ∧
    ((addentry stdConsts demo_dent blank_slot).data.drop 6).take 17 =
      [65, 66, 34, 67, 68, 32, 32, 32, 32, 32, 32, 32, 32, 32, 32, 32, 32] :=
  ⟨by decide, by decide, by intro t ht; interval_cases t <;> decide, by decide,
    (addentry_name_quoting stdConsts demo_dent blank_slot 2 (by decide) (by decide)
      (by intro t ht; interval_cases t <;> decide) (by decide)).2.2.1,
    by decide⟩

/-! ## Reading an entry back from its record -/

/-- The logical name read from index `i` on, in terms of the bytes of the
field: its bytes are the name bytes, none is a pad, and it ends at a pad or at
index 16. -/
theorem logicalFrom_peek (name : List Nat) (hl : CBM_NAME_LENGTH ≤ name.length) :
    ∀ n i, i + n = 16 →
      (logicalFrom name i).length ≤ n ∧
      (∀ t, t < (logicalFrom name i).length →
        (logicalFrom name i).getD t 0 = peek name (i + t) ∧ peek name (i + t) ≠ 0xa0) ∧
      (i + (logicalFrom name i).length < 16 →
        peek name (i + (logicalFrom name i).length) = 0xa0) := by
  intro n
  induction n with
  | zero =>
    intro i hi
    have hs : logicalFrom name i = [] :=
      logicalFrom_stop name i (by unfold CBM_NAME_LENGTH; omega)
    rw [hs]
    refine ⟨by simp, by intro t ht; simp at ht, by intro h; simp at h; omega⟩
  | succ n ih =>
    intro i hi
    by_cases hc : peek name i ≠ 0xa0 ∧ i < CBM_NAME_LENGTH
    · rw [logicalFrom_step name i hl hc]
      obtain ⟨h1, h2, h3⟩ := ih (i + 1) (by omega)
      refine ⟨by simp only [List.length_cons]; omega, ?_, ?_⟩
      · intro t ht
        cases t with
        | zero => exact ⟨by simp, hc.1⟩
        | succ t =>
          simp only [List.length_cons] at ht
          have := h2 t (by omega)
          have e : i + (t + 1) = i + 1 + t := by omega
          rw [e]
          simpa using this
      · intro h
        simp only [List.length_cons] at h ⊢
        have e : i + ((logicalFrom name (i + 1)).length + 1) =
            i + 1 + (logicalFrom name (i + 1)).length := by omega
        rw [e]
        exact h3 (by omega)
    · rw [logicalFrom_stop name i hc]
      refine ⟨by simp, by intro t ht; simp at ht, ?_⟩
      intro _
      simp only [List.length_nil, Nat.add_zero]
      by_contra hne
      exact hc ⟨hne, by unfold CBM_NAME_LENGTH; omega⟩

/-- For a name whose logical name holds no quote, the index of the first quote
or pad is the length of the logical name. -/
theorem logicalName_quote_index (name : List Nat) (hl : CBM_NAME_LENGTH ≤ name.length)
    (hq : ∀ b ∈ logicalName name, b ≠ 0x22) :
    (logicalName name).length ≤ 16 ∧
    (∀ t, t < (logicalName name).length →
      (logicalName name).getD t 0 = peek name t ∧
        peek name t ≠ 0x22 ∧ peek name t ≠ 0xa0) ∧
    ((logicalName name).length < 16 →
      peek name (logicalName name).length = 0x22 ∨
        peek name (logicalName name).length = 0xa0) := by
  obtain ⟨h1, h2, h3⟩ := logicalFrom_peek name hl 16 0 (by omega)
  refine ⟨h1, ?_, ?_⟩
  · intro t ht
    have := h2 t ht
    rw [Nat.zero_add] at this
    refine ⟨this.1, ?_, this.2⟩
    rw [← this.1]
    apply hq
    have ht2 : t < (logicalFrom name 0).length := ht
    show (logicalFrom name 0).getD t 0 ∈ logicalFrom name 0
    rw [List.getD_eq_getElem _ _ ht2]
    exact List.getElem_mem ht2
  · intro h
    have h0 : 0 + (logicalFrom name 0).length < 16 := by
      rw [Nat.zero_add]; exact h
    have := h3 h0
    rw [Nat.zero_add] at this
    exact Or.inr this

/-- The bytes of the name field of the record in a slot in which it fits. -/
theorem peek_addentry_field (c : Consts) (dent : cbmdirent) (buf : buffer_t) (k i : Nat)
    (hfit : buf.length + 32 ≤ buf.data.length) (hk : k ≤ 16) (hi : i ≤ 16)
    (hbefore : ∀ t, t < k → peek dent.name t ≠ 0x22 ∧ peek dent.name t ≠ 0xa0)
    (hat : k < 16 → peek dent.name k = 0x22 ∨ peek dent.name k = 0xa0) :
    peek (addentry c dent buf).data (buf.length + 4 + filler dent.blocksize + 1 + i) =
      if i < k then peek dent.name i
      else if i = k then 0x22
      else if i < 16 then peek dent.name i &&& 0x7f
      else 32 := by
  have hf := filler_le dent.blocksize
  have hlen : buf.length + 4 + filler dent.blocksize + 24 ≤
      (addentry_head dent buf.data buf.length).length := by
    rw [length_addentry_head]; omega
  have h17 : peek (addentry_head dent buf.data buf.length)
      (buf.length + 4 + filler dent.blocksize + 17) = 32 := by
    rw [peek_addentry_head dent _ _ _ hfit]
    repeat (first | rw [if_neg (by omega)] | rw [if_pos (by omega)])
  rw [addentry_data, peek_addentry_from_field c dent _ _ i k hlen hi hk hbefore hat, h17]
  rfl

/-- The bytes of the record that carry the block count, the type code and the
flag markers. -/
theorem peek_addentry_fields (c : Consts) (dent : cbmdirent) (buf : buffer_t)
    (hfit : buf.length + 32 ≤ buf.data.length) :
    peek (addentry c dent buf).data (buf.length + 2) = dent.blocksize % 256 ∧
    peek (addentry c dent buf).data (buf.length + 3) = dent.blocksize / 256 % 256 ∧
    peek (addentry c dent buf).data (buf.length + 4 + filler dent.blocksize + 18) =
      (if (dent.typeflags &&& c.FLAG_SPLAT) ≠ 0 then 42 else 32) ∧
    [peek (addentry c dent buf).data (buf.length + 4 + filler dent.blocksize + 19),
     peek (addentry c dent buf).data (buf.length + 4 + filler dent.blocksize + 20),
     peek (addentry c dent buf).data (buf.length + 4 + filler dent.blocksize + 21)] =
      [peek (filetypes.drop (TYPE_LENGTH * (dent.typeflags &&& c.TYPE_MASK))) 0,
       peek (filetypes.drop (TYPE_LENGTH * (dent.typeflags &&& c.TYPE_MASK))) 1,
       peek (filetypes.drop (TYPE_LENGTH * (dent.typeflags &&& c.TYPE_MASK))) 2] ∧
    peek (addentry c dent buf).data (buf.length + 4 + filler dent.blocksize + 22) =
      (if (dent.typeflags &&& c.FLAG_RO) ≠ 0 then 60 else 32) ∧
    peek (addentry c dent buf).data (buf.length + 4 + filler dent.blocksize + 23) =
      (if (dent.typeflags &&& c.FLAG_HIDDEN) ≠ 0 then 72 else 32) := by
  have hf := filler_le dent.blocksize
  have key := fun j hj => peek_addentry_outside c dent buf j hfit hj
  generalize hq : filler dent.blocksize = f at *
  refine ⟨?_, ?_, ?_, ?_, ?_, ?_⟩
  · rw [key _ (by omega)]
    repeat (first | rw [if_neg (by omega)] | rw [if_pos (by omega)])
  · rw [key _ (by omega)]
    repeat (first | rw [if_neg (by omega)] | rw [if_pos (by omega)])
  · rw [key _ (by omega)]
    by_cases hs : (dent.typeflags &&& c.FLAG_SPLAT) ≠ 0
    · rw [if_neg (by omega), if_neg (by omega), if_neg (by omega), if_pos ⟨by omega, hs⟩,
        if_pos hs]
    · rw [if_neg (by omega), if_neg (by omega), if_neg (by omega),
        if_neg (fun h => hs h.2), if_neg hs]
      repeat (first | rw [if_neg (by omega)] | rw [if_pos (by omega)])
  · rw [key _ (by omega), key _ (by omega), key _ (by omega)]
    have e0 : buf.length + 4 + f + 19 - (buf.length + 4 + f + 19) = 0 := by omega
    have e1 : buf.length + 4 + f + 20 - (buf.length + 4 + f + 19) = 1 := by omega
    have e2 : buf.length + 4 + f + 21 - (buf.length + 4 + f + 19) = 2 := by omega
    rw [e0, e1, e2]
    rw [if_neg (by omega), if_neg (by omega), if_pos (by omega),
      if_neg (by omega), if_neg (by omega), if_pos (by omega),
      if_neg (by omega), if_neg (by omega), if_pos (by omega)]
  · rw [key _ (by omega)]
    by_cases hr : (dent.typeflags &&& c.FLAG_RO) ≠ 0
    · rw [if_neg (by omega), if_pos ⟨by omega, hr⟩, if_pos hr]
    · rw [if_neg (by omega), if_neg (fun h => hr h.2), if_neg hr]
      repeat (first | rw [if_neg (by omega)] | rw [if_pos (by omega)])
  · rw [key _ (by omega)]
    by_cases hh : (dent.typeflags &&& c.FLAG_HIDDEN) ≠ 0
    · rw [if_pos ⟨by omega, hh⟩, if_pos hh]
    · rw [if_neg (fun h => hh h.2), if_neg hh]
      repeat (first | rw [if_neg (by omega)] | rw [if_pos (by omega)])

theorem type_code_injective (t1 t2 : Nat) (h1 : t1 ≤ 6) (h2 : t2 ≤ 6)
    (h : type_code t1 = type_code t2) : t1 = t2 := by
  interval_cases t1 <;> interval_cases t2 <;> first | rfl | (exact absurd h (by decide))

theorem ite_marker_eq (P Q : Prop) [Decidable P] [Decidable Q] (a : Nat) (ha : a ≠ 32)
    (h : (if P then a else 32) = (if Q then a else 32)) : (P ↔ Q) := by
  by_cases hP : P <;> by_cases hQ : Q
  · exact ⟨fun _ => hQ, fun _ => hP⟩
  · rw [if_pos hP, if_neg hQ] at h; exact absurd h ha
  · rw [if_neg hP, if_pos hQ] at h; exact absurd h.symm ha
  · exact ⟨fun x => absurd x hP, fun x => absurd x hQ⟩

/-- Equal records come from entries with the same block count, type tag and
flags, and, when the logical names hold no quote, the same logical name. -/
theorem record_eq_imp (c : Consts) (d1 d2 : cbmdirent)
    (hl1 : CBM_NAME_LENGTH ≤ d1.name.length) (hl2 : CBM_NAME_LENGTH ≤ d2.name.length)
    (hq1 : ∀ b ∈ logicalName d1.name, b ≠ 0x22) (hq2 : ∀ b ∈ logicalName d2.name, b ≠ 0x22)
    (ht1 : d1.typeflags &&& c.TYPE_MASK ≤ 6) (ht2 : d2.typeflags &&& c.TYPE_MASK ≤ 6)
    (hb1 : d1.blocksize < 65536) (hb2 : d2.blocksize < 65536)
    (h : record c d1 = record c d2) :
    logicalName d1.name = logicalName d2.name ∧ d1.blocksize = d2.blocksize ∧
    d1.typeflags &&& c.TYPE_MASK = d2.typeflags &&& c.TYPE_MASK ∧
    ((d1.typeflags &&& c.FLAG_SPLAT) ≠ 0 ↔ (d2.typeflags &&& c.FLAG_SPLAT) ≠ 0) ∧
    ((d1.typeflags &&& c.FLAG_RO) ≠ 0 ↔ (d2.typeflags &&& c.FLAG_RO) ≠ 0) ∧
    ((d1.typeflags &&& c.FLAG_HIDDEN) ≠ 0 ↔ (d2.typeflags &&& c.FLAG_HIDDEN) ≠ 0) := by
  have hfit : scratch_slot.length + 32 ≤ scratch_slot.data.length := by decide
  have hd : (addentry c d1 scratch_slot).data = (addentry c d2 scratch_slot).data := h
  obtain ⟨a1, a2, a3, a4, a5, a6⟩ := peek_addentry_fields c d1 scratch_slot hfit
  obtain ⟨b1, b2, b3, b4, b5, b6⟩ := peek_addentry_fields c d2 scratch_slot hfit
  rw [hd] at a1 a2
  have hlo : d1.blocksize % 256 = d2.blocksize % 256 := a1.symm.trans b1
  have hhi : d1.blocksize / 256 % 256 = d2.blocksize / 256 % 256 := a2.symm.trans b2
  have hbs : d1.blocksize = d2.blocksize := by omega
  rw [hd, hbs] at a3 a4 a5 a6
  have hsplat := ite_marker_eq _ _ 42 (by decide) (a3.symm.trans b3)
  have hro := ite_marker_eq _ _ 60 (by decide) (a5.symm.trans b5)
  have hhid := ite_marker_eq _ _ 72 (by decide) (a6.symm.trans b6)
  have htag : d1.typeflags &&& c.TYPE_MASK = d2.typeflags &&& c.TYPE_MASK := by
    apply type_code_injective _ _ ht1 ht2
    rw [← peek_filetypes _ ht1, ← peek_filetypes _ ht2]
    exact a4.symm.trans b4
  refine ⟨?_, hbs, htag, hsplat, hro, hhid⟩
  obtain ⟨k1le, k1b, k1at⟩ := logicalName_quote_index d1.name hl1 hq1
  obtain ⟨k2le, k2b, k2at⟩ := logicalName_quote_index d2.name hl2 hq2
  have f1 := fun i hi => peek_addentry_field c d1 scratch_slot
    (logicalName d1.name).length i hfit k1le hi (fun t ht => (k1b t ht).2) k1at
  have f2 := fun i hi => peek_addentry_field c d2 scratch_slot
    (logicalName d2.name).length i hfit k2le hi (fun t ht => (k2b t ht).2) k2at
  have hF : ∀ i, i ≤ 16 →
      (if i < (logicalName d1.name).length then peek d1.name i
        else if i = (logicalName d1.name).length then 0x22
        else if i < 16 then peek d1.name i &&& 0x7f else 32) =
      (if i < (logicalName d2.name).length then peek d2.name i
        else if i = (logicalName d2.name).length then 0x22
        else if i < 16 then peek d2.name i &&& 0x7f else 32) := by
    intro i hi
    rw [← f1 i hi, ← f2 i hi, hd, hbs]
  have hklen : (logicalName d1.name).length = (logicalName d2.name).length := by
    rcases Nat.lt_trichotomy (logicalName d1.name).length (logicalName d2.name).length with
      hlt | heq | hgt
    · have := hF (logicalName d1.name).length k1le
      rw [if_neg (by omega), if_pos rfl, if_pos hlt] at this
      exact absurd this.symm (k2b _ hlt).2.1
    · exact heq
    · have := hF (logicalName d2.name).length k2le
      rw [if_pos hgt, if_neg (by omega), if_pos rfl] at this
      exact absurd this (k1b _ hgt).2.1
  apply List.ext_getElem hklen
  intro t ht1 ht2
  have := hF t (by omega)
  rw [if_pos ht1, if_pos ht2] at this
  rw [← List.getD_eq_getElem _ 0 ht1, ← List.getD_eq_getElem _ 0 ht2, (k1b t ht1).1,
    (k2b t ht2).1]
  exact this

/-- C12, as the spec states it, fails: the entries named `AB` and `AB"` differ
in their logical name and have the same record. -/
theorem record_decode_counterexample :
    logicalName demo_ab.name ≠ logicalName demo_abq.name ∧
    demo_ab.blocksize = demo_abq.blocksize ∧ demo_ab.typeflags = demo_abq.typeflags ∧
    record stdConsts demo_ab = record stdConsts demo_abq := by
  decide

/-- C12, amended.  For two directory entries (16-byte name fields, 16-bit block
counts, type tags 0..6) whose logical names hold no quote character 0x22: if
they differ in logical name, block count, type tag or in the read-only, hidden
or splat flag, their 32-byte records differ. -/
theorem record_determines_entry (c : Consts) (d1 d2 : cbmdirent)
    (hl1 : CBM_NAME_LENGTH ≤ d1.name.length) (hl2 : CBM_NAME_LENGTH ≤ d2.name.length)
    (hq1 : ∀ b ∈ logicalName d1.name, b ≠ 0x22) (hq2 : ∀ b ∈ logicalName d2.name, b ≠ 0x22)
    (ht1 : d1.typeflags &&& c.TYPE_MASK ≤ 6) (ht2 : d2.typeflags &&& c.TYPE_MASK ≤ 6)
    (hb1 : d1.blocksize < 65536) (hb2 : d2.blocksize < 65536)
    (hdiff : logicalName d1.name ≠ logicalName d2.name ∨ d1.blocksize ≠ d2.blocksize ∨
      d1.typeflags &&& c.TYPE_MASK ≠ d2.typeflags &&& c.TYPE_MASK ∨
      ¬ ((d1.typeflags &&& c.FLAG_SPLAT) ≠ 0 ↔ (d2.typeflags &&& c.FLAG_SPLAT) ≠ 0) ∨
      ¬ ((d1.typeflags &&& c.FLAG_RO) ≠ 0 ↔ (d2.typeflags &&& c.FLAG_RO) ≠ 0) ∨
      ¬ ((d1.typeflags &&& c.FLAG_HIDDEN) ≠ 0 ↔ (d2.typeflags &&& c.FLAG_HIDDEN) ≠ 0)) :
    record c d1 ≠ record c d2 := by
  intro h
  obtain ⟨e1, e2, e3, e4, e5, e6⟩ := record_eq_imp c d1 d2 hl1 hl2 hq1 hq2 ht1 ht2 hb1 hb2 h
  rcases hdiff with g | g | g | g | g | g
  · exact g e1
  · exact g e2
  · exact g e3
  · exact g e4
  · exact g e5
  · exact g e6

/-- C12, concrete run: the entries FOO and BAZ differ in name, block count and
type, and so do their records. -/
theorem record_determines_entry_witness :
    CBM_NAME_LENGTH ≤ demo_foo.name.length ∧ CBM_NAME_LENGTH ≤ demo_baz.name.length ∧
    (∀ b ∈ logicalName demo_foo.name, b ≠ 0x22) ∧
    (∀ b ∈ logicalName demo_baz.name, b ≠ 0x22) ∧
    demo_foo.typeflags &&& stdConsts.TYPE_MASK ≤ 6 ∧
    demo_baz.typeflags &&& stdConsts.TYPE_MASK ≤ 6 ∧
    demo_foo.blocksize < 65536 ∧ demo_baz.blocksize < 65536 ∧
    logicalName demo_foo.name ≠ logicalName demo_baz.name ∧
    record stdConsts demo_foo ≠ record stdConsts demo_baz :=
  ⟨by decide, by decide, by decide, by decide, by decide, by decide, by decide, by decide,
    by decide,
    record_determines_entry stdConsts demo_foo demo_baz (by decide) (by decide) (by decide)
      (by decide) (by decide) (by decide) (by decide) (by decide) (Or.inl (by decide))⟩

/-! ## The footer -/

theorem footer_record_eq (blocks : Nat) (hb : blocks < 65536) :
    footer_record blocks =
      [1, 1, blocks % 256, blocks / 256,
       66, 76, 79, 67, 75, 83, 32, 70, 82, 69, 69, 46,
       32, 32, 32, 32, 32, 32, 32, 32, 32, 32, 32, 32, 32, 0, 0, 0] := by
  have e : blocks / 256 % 256 = blocks / 256 := by omega
  simp [footer_record, dirfooter, poke, e]

/-- C13.  Footer record.  When no answer left in the cursor is an entry that
passes the filter and none is a fault, `dir_refill` returns 0 and leaves the
slot with position 0, length 31, `sendeoi` set and `data[0..31]` equal to the
footer template: next-line pointer 1,1, then the low and the high byte of the
free-block count, the text `BLOCKS FREE.`, thirteen spaces and three zero
bytes (the line terminator and the 0,0 end marker).  The pool record is
unchanged. -/
theorem dir_refill_footer (c : Consts) (blocks : Nat) (buf : buffer_t) (p : Pool)
    (hwf : ∀ code, ReadResult.fail code ∈ buf.dh → 0 < code)
    (hscan : scan_rest c buf.matchstr buf.filetype buf.dh = [])
    (h32 : 32 ≤ buf.data.length) (hb : blocks < 65536) :
    (dir_refill c blocks buf p).1 = 0 ∧ (dir_refill c blocks buf p).2.2 = p ∧
    (dir_refill c blocks buf p).2.1.position = 0 ∧
    (dir_refill c blocks buf p).2.1.length = 31 ∧
    (dir_refill c blocks buf p).2.1.sendeoi = true ∧
    (dir_refill c blocks buf p).2.1.data.take 32 =
      [1, 1, blocks % 256, blocks / 256,
       66, 76, 79, 67, 75, 83, 32, 70, 82, 69, 69, 46,
       32, 32, 32, 32, 32, 32, 32, 32, 32, 32, 32, 32, 32, 0, 0, 0] := by
  obtain ⟨h1, h2, h3, h4, h5, h6⟩ := dir_refill_end c blocks buf p hwf hscan h32
  refine ⟨h1, h2, h4, h5, h3, ?_⟩
  rw [h6, footer_record_eq blocks hb]

/-- C13, concrete run: the cursor holds one hidden entry and the listing does
not ask for hidden files; 664 blocks are free. -/
theorem dir_refill_footer_witness :
    (∀ code, ReadResult.fail code ∈ demo_listing_end.dh → 0 < code) ∧
    scan_rest stdConsts demo_listing_end.matchstr demo_listing_end.filetype
      demo_listing_end.dh = [] ∧
    32 ≤ demo_listing_end.data.length ∧ (664 : Nat) < 65536 ∧
    (dir_refill stdConsts 664 demo_listing_end ⟨1, 0⟩).2.1.data.take 32 =
      [1, 1, 152, 2,
       66, 76, 79, 67, 75, 83, 32, 70, 82, 69, 69, 46,
       32, 32, 32, 32, 32, 32, 32, 32, 32, 32, 32, 32, 32, 0, 0, 0] :=
  ⟨by intro code h; simp [demo_listing_end] at h, by decide, by decide, by decide,
    (dir_refill_footer stdConsts 664 demo_listing_end ⟨1, 0⟩
      (by intro code h; simp [demo_listing_end] at h) (by decide) (by decide)
      (by decide)).2.2.2.2.2⟩

/-! ## The byte loop and the end of the transfer -/

/-- With a length field of 255 (or more) the byte loop is never left: the
8-bit counter always satisfies `i <= length`, and every round sends a byte. -/
theorem send_last_never (buf : buffer_t) (h : 255 ≤ buf.length) :
    ∀ (fuel i : Nat), i ≤ 255 →
      (send_last buf fuel i).2 = false ∧ (send_last buf fuel i).1.length = fuel := by
  intro fuel
  induction fuel with
  | zero => intro i _; exact ⟨rfl, rfl⟩
  | succ fuel ih =>
    intro i hi
    unfold send_last
    have hle : i ≤ buf.length := by omega
    rw [if_pos hle]
    have hm : (i + 1) % 256 ≤ 255 := by omega
    obtain ⟨h1, h2⟩ := ih ((i + 1) % 256) hm
    exact ⟨h1, by simp only [List.length_cons, h2]⟩

/-- When the byte loop is left, the length field was at most 254 and the bytes
sent are those from index `i` on. -/
theorem send_last_done (buf : buffer_t) :
    ∀ (fuel i : Nat), i ≤ 255 → i ≤ buf.length + 1 → (send_last buf fuel i).2 = true →
      buf.length ≤ 254 ∧
      (send_last buf fuel i).1 =
        (List.range' i (buf.length + 1 - i)).map
          (fun j => Event.turbodisk_byte (peek buf.data (buf.position + j))) := by
  intro fuel
  induction fuel with
  | zero => intro i _ _ h; simp [send_last] at h
  | succ fuel ih =>
    intro i h255 h1 hdone
    unfold send_last at hdone ⊢
    by_cases hi : i ≤ buf.length
    · rw [if_pos hi] at hdone ⊢
      simp only [] at hdone ⊢
      by_cases hw : i = 255
      · have hlen : 255 ≤ buf.length := by omega
        have := (send_last_never buf hlen fuel ((i + 1) % 256) (by omega)).1
        rw [this] at hdone
        cases hdone
      · have hmod : (i + 1) % 256 = i + 1 := Nat.mod_eq_of_lt (by omega)
        rw [hmod] at hdone ⊢
        obtain ⟨hl, ht⟩ := ih (i + 1) (by omega) (by omega) hdone
        refine ⟨hl, ?_⟩
        rw [ht]
        have hr : buf.length + 1 - i = (buf.length + 1 - (i + 1)) + 1 := by omega
        rw [hr, List.range'_succ]
        simp
    · rw [if_neg hi]
      have hz : buf.length + 1 - i = 0 := by omega
      rw [hz]
      exact ⟨by omega, by simp⟩

/-- The round of the loop on a slot with `sendeoi` set. -/
theorem turbodisk_loop_final {σ : Type}
    (call : Callback → buffer_t → σ → Nat × buffer_t × σ)
    (fuel : Nat) (first : Bool) (b : buffer_t) (s : σ)
    (he : (first_adjust first b).sendeoi = true) :
    turbodisk_loop call (fuel + 1) first b s =
      (Event.turbodisk_byte (if b.sendeoi then 0 else 1) ::
        load_address_events first b ++
        Event.turbodisk_byte (((first_adjust first b).length + 2) % 256) ::
        (send_last (first_adjust first b) fuel 0).1,
       if (send_last (first_adjust first b) fuel 0).2 then some (first_adjust first b, s)
       else none) := by
  rw [turbodisk_loop]
  simp only [he, if_true]
  rfl

/-- The round of the loop on a slot with `sendeoi` clear. -/
theorem turbodisk_loop_bulk {σ : Type}
    (call : Callback → buffer_t → σ → Nat × buffer_t × σ)
    (fuel : Nat) (first : Bool) (b : buffer_t) (s : σ)
    (he : (first_adjust first b).sendeoi = false) :
    turbodisk_loop call (fuel + 1) first b s =
      if (call (first_adjust first b).refill (first_adjust first b) s).1 ≠ 0 then
        (Event.turbodisk_byte (if b.sendeoi then 0 else 1) ::
          load_address_events first b ++
          [Event.turbodisk_buffer (span (first_adjust first b)),
           Event.refill (call (first_adjust first b).refill (first_adjust first b) s).1,
           Event.turbodisk_byte 0xff],
         some ((call (first_adjust first b).refill (first_adjust first b) s).2.1,
           (call (first_adjust first b).refill (first_adjust first b) s).2.2))
      else
        (Event.turbodisk_byte (if b.sendeoi then 0 else 1) ::
          load_address_events first b ++
          Event.turbodisk_buffer (span (first_adjust first b)) ::
          Event.refill (call (first_adjust first b).refill (first_adjust first b) s).1 ::
          (turbodisk_loop call fuel false
            (call (first_adjust first b).refill (first_adjust first b) s).2.1
            (call (first_adjust first b).refill (first_adjust first b) s).2.2).1,
         (turbodisk_loop call fuel false
            (call (first_adjust first b).refill (first_adjust first b) s).2.1
            (call (first_adjust first b).refill (first_adjust first b) s).2.2).2) := by
  rw [turbodisk_loop]
  simp only [he, Bool.false_eq_true, if_false]
  rfl

/-- The final round on a slot whose length the 8-bit counter can count: the
status byte, the load-address pair on the first sector, the length byte, the
bytes one at a time, and the loop is left with slot and state as they were. -/
theorem turbodisk_loop_final_framing {σ : Type}
    (call : Callback → buffer_t → σ → Nat × buffer_t × σ)
    (fuel : Nat) (first : Bool) (b : buffer_t) (s : σ)
    (he : (first_adjust first b).sendeoi = true)
    (hl : (first_adjust first b).length ≤ 254)
    (hf : (first_adjust first b).length + 2 ≤ fuel) :
    turbodisk_loop call (fuel + 1) first b s =
      (Event.turbodisk_byte (if b.sendeoi then 0 else 1) ::
        load_address_events first b ++
        Event.turbodisk_byte (((first_adjust first b).length + 2) % 256) ::
        (span (first_adjust first b)).map Event.turbodisk_byte,
       some (first_adjust first b, s)) := by
  rw [turbodisk_loop_final call fuel first b s he, send_last_span _ hl fuel hf]
  rfl

/-- A round on a slot with `sendeoi` set and a length field of 255 is never
left. -/
theorem turbodisk_loop_final_never {σ : Type}
    (call : Callback → buffer_t → σ → Nat × buffer_t × σ)
    (fuel : Nat) (first : Bool) (b : buffer_t) (s : σ)
    (he : (first_adjust first b).sendeoi = true)
    (hl : 255 ≤ (first_adjust first b).length) :
    (turbodisk_loop call fuel first b s).2 = none := by
  cases fuel with
  | zero => rfl
  | succ f =>
    rw [turbodisk_loop_final call f first b s he, (send_last_never _ hl f 0 (by omega)).1]
    rfl

/-- C14.  Final-sector framing, the inputs on which the code leaves it.  A
file of 512 bytes arrives as two full sectors; the second has `sendeoi` set and
the length field 255, inside the bounds of the slot.  The byte loop with its
8-bit counter is never left on it: whatever the bound on the rounds, the run
has not returned.  The same happens on a file of exactly two bytes, whose only
sector has length field 1: the first-sector adjustment leaves the length field
at 255, the length byte sent is 1, and every further round sends one more
byte. -/
theorem final_sector_byte_loop_runs_on :
    full_last.sendeoi = true ∧ full_last.length = 255 ∧
    full_last.position + full_last.length ≤ 255 ∧
    (∀ fuel : Nat,
      (load_turbodisk script_call (open_slot full_first) fuel [full_last]).2 = none) ∧
    two_byte_file.length = 1 ∧ two_byte_file.sendeoi = true ∧
    (first_adjust true two_byte_file).length = 255 ∧
    (∀ fuel : Nat,
      (load_turbodisk script_call (open_slot two_byte_file) (fuel + 1) []).1.take 6 =
        [Event.set_clock 0, Event.cli, Event.turbodisk_byte 0, Event.turbodisk_byte 1,
         Event.turbodisk_byte 2, Event.turbodisk_byte 1]) ∧
    (∀ fuel : Nat,
      (load_turbodisk script_call (open_slot two_byte_file) (fuel + 1) []).1.length =
        fuel + 6) ∧
    (∀ fuel : Nat,
      (load_turbodisk script_call (open_slot two_byte_file) fuel []).2 = none) := by
  have ha : (first_adjust true two_byte_file).sendeoi = true := rfl
  have hl : 255 ≤ (first_adjust true two_byte_file).length := by decide
  have hloop : ∀ f : Nat,
      turbodisk_loop script_call (f + 1) true two_byte_file ([] : List buffer_t) =
        (Event.turbodisk_byte 0 :: Event.turbodisk_byte 1 :: Event.turbodisk_byte 2 ::
          Event.turbodisk_byte 1 :: (send_last (first_adjust true two_byte_file) f 0).1,
         none) := by
    intro f
    rw [turbodisk_loop_final script_call f true two_byte_file [] ha,
      (send_last_never _ hl f 0 (by omega)).1]
    rfl
  have hfull : ∀ fuel : Nat,
      (turbodisk_loop script_call fuel true full_first [full_last]).2 = none := by
    intro fuel
    cases fuel with
    | zero => rfl
    | succ f =>
      have he : (first_adjust true full_first).sendeoi = false := rfl
      rw [turbodisk_loop_bulk script_call f true full_first [full_last] he]
      have hr : script_call (first_adjust true full_first).refill (first_adjust true full_first)
          [full_last] = (0, full_last, []) := rfl
      rw [hr]
      have hn : ¬ ((0 : Nat), full_last, ([] : List buffer_t)).1 ≠ 0 := fun h => h rfl
      rw [if_neg hn]
      exact turbodisk_loop_final_never script_call f false full_last [] rfl (by decide)
  refine ⟨rfl, by decide, by decide, ?_, rfl, rfl, rfl, ?_, ?_, ?_⟩
  · intro fuel
    unfold load_turbodisk
    simp only [open_slot, hfull]
  · intro fuel
    unfold load_turbodisk
    simp only [open_slot, hloop]
    rfl
  · intro fuel
    unfold load_turbodisk
    simp only [open_slot, hloop, List.length_cons,
      (send_last_never _ hl fuel 0 (by omega)).2]
  · intro fuel
    cases fuel with
    | zero => rfl
    | succ f =>
      unfold load_turbodisk
      simp only [open_slot, hloop]

/-! ## Refill count -/

theorem filter_refill_bytes (l : List Nat) :
    (l.map Event.turbodisk_byte).filter is_refill = [] := by
  induction l with
  | nil => rfl
  | cons x t ih => simp only [List.map_cons, List.filter_cons, is_refill, ih]; rfl

theorem filter_refill_load_address (first : Bool) (b : buffer_t) :
    (load_address_events first b).filter is_refill = [] := by
  cases first <;> rfl

/-- The refills in the framing of one sector: none on the last sector, one
after the block transfer otherwise. -/
theorem filter_refill_sector_frame (first : Bool) (b : buffer_t) :
    ((sector_frame first b).map Prod.snd).filter is_refill =
      if (first_adjust first b).sendeoi then [] else [Event.refill 0] := by
  have hf : (sector_frame first b).map Prod.snd =
      Event.turbodisk_byte (if b.sendeoi then 0 else 1) :: load_address_events first b ++
        (if (first_adjust first b).sendeoi then
          Event.turbodisk_byte (((first_adjust first b).length + 2) % 256) ::
            (span (first_adjust first b)).map Event.turbodisk_byte
        else [Event.turbodisk_buffer (span (first_adjust first b)), Event.refill 0]) := by
    unfold sector_frame load_address_events
    cases first <;> cases h : (first_adjust _ b).sendeoi <;>
      simp [List.map_map, Function.comp_def]
  rw [hf]
  cases h : (first_adjust first b).sendeoi
  · simp only [Bool.false_eq_true, if_false, List.filter_cons, List.filter_append,
      filter_refill_load_address, is_refill]
    rfl
  · simp only [if_true, List.filter_cons, List.filter_append,
      filter_refill_load_address, is_refill, filter_refill_bytes]
    rfl

/-- The refills in the framing of a file of which only the last sector has
`sendeoi` set: one for each sector but the last. -/
theorem filter_refill_frames :
    ∀ (rest : List buffer_t) (first : Bool) (b : buffer_t), eoi_only_last (b :: rest) →
      ((sector_frame first b ++ rest.flatMap (sector_frame false)).map Prod.snd).filter
          is_refill = List.replicate rest.length (Event.refill 0) := by
  intro rest
  induction rest with
  | nil =>
    intro first b h
    have he : (first_adjust first b).sendeoi = true := by
      rw [first_adjust_sendeoi]; exact h
    simp only [List.flatMap_nil, List.append_nil, filter_refill_sector_frame, he, if_true]
    rfl
  | cons x xs ih =>
    intro first b h
    have he : (first_adjust first b).sendeoi = false := by
      rw [first_adjust_sendeoi]; exact h.1
    have hx := ih false x h.2
    rw [List.flatMap_cons, List.map_append, List.filter_append, hx,
      filter_refill_sector_frame, he]
    rfl

/-- A run of the loop that is left, on a backend that delivers the sectors
`rest` without a fault, has sent the framing of the sectors one after the
other. -/
theorem turbodisk_loop_delivers_done {σ : Type}
    (call : Callback → buffer_t → σ → Nat × buffer_t × σ) :
    ∀ (rest : List buffer_t) (first : Bool) (b : buffer_t) (s : σ) (fuel : Nat),
      eoi_only_last (b :: rest) → Delivers call (first_adjust first b) s rest →
      (turbodisk_loop call fuel first b s).2.isSome = true →
      (turbodisk_loop call fuel first b s).1 =
          (sector_frame first b ++ rest.flatMap (sector_frame false)).map Prod.snd := by
  intro rest
  induction rest with
  | nil =>
    intro first b s fuel heoi _ hdone
    cases fuel with
    | zero => simp [turbodisk_loop] at hdone
    | succ f =>
      have he : (first_adjust first b).sendeoi = true := by
        rw [first_adjust_sendeoi]; exact heoi
      rw [turbodisk_loop_final call f first b s he] at hdone ⊢
      have hs : (send_last (first_adjust first b) f 0).2 = true := by
        cases h : (send_last (first_adjust first b) f 0).2
        · rw [h] at hdone; simp at hdone
        · rfl
      obtain ⟨hl, ht⟩ := send_last_done _ f 0 (by omega) (by omega) hs
      show _ :: _ = _
      rw [ht]
      unfold sector_frame load_address_events
      cases first <;>
        simp [he, span, List.range_eq_range', List.map_map, Function.comp_def]
  | cons x xs ih =>
    intro first b s fuel heoi hdel hdone
    cases fuel with
    | zero => simp [turbodisk_loop] at hdone
    | succ f =>
      have he : (first_adjust first b).sendeoi = false := by
        rw [first_adjust_sendeoi]; exact heoi.1
      obtain ⟨hr, hx, hd⟩ := hdel
      rw [turbodisk_loop_bulk call f first b s he] at hdone ⊢
      have hn : ¬ (call (first_adjust first b).refill (first_adjust first b) s).1 ≠ 0 :=
        fun h => h hr
      rw [if_neg hn] at hdone ⊢
      rw [hx] at hdone ⊢
      have hrec := ih false x _ f heoi.2 (by rw [first_adjust_false]; exact hd) hdone
      show _ :: _ = _
      rw [hrec, hr]
      unfold sector_frame load_address_events
      cases first <;>
        simp [he, List.map_map, Function.comp_def]

/-- A round on a slot with `sendeoi` set invokes no refill. -/
theorem turbodisk_loop_eoi_no_refill {σ : Type}
    (call : Callback → buffer_t → σ → Nat × buffer_t × σ)
    (fuel : Nat) (first : Bool) (b : buffer_t) (s : σ) (he : b.sendeoi = true) :
    (turbodisk_loop call fuel first b s).1.filter is_refill = [] := by
  cases fuel with
  | zero => rfl
  | succ f =>
    have he2 : (first_adjust first b).sendeoi = true := by
      rw [first_adjust_sendeoi]; exact he
    rw [turbodisk_loop_final call f first b s he2]
    simp only [List.filter_cons, List.filter_append, filter_refill_load_address, is_refill]
    rw [List.filter_eq_nil_iff.mpr]
    · rfl
    · intro e hmem
      obtain ⟨x, rfl⟩ := send_last_bytes _ f 0 e hmem
      simp [is_refill]

/-- C15.  Refill count.  For a file delivered as the sectors `b :: rest`, only
the last with `sendeoi` set, on a backend whose refills deliver them without a
fault, every run of `load_turbodisk` that returns has invoked refill exactly
`rest.length` times, that is once for each sector but the last; the trace is
the framing of the sectors, in which each refill directly follows the block
transfer of its sector; and a round of the loop on a slot with `sendeoi` set
invokes no refill. -/
theorem refill_count {σ : Type}
    (call : Callback → buffer_t → σ → Nat × buffer_t × σ)
    (opener : σ → Option buffer_t × σ) (s : σ) (b : buffer_t) (rest : List buffer_t)
    (fuel : Nat)
    (hopen : (opener s).1 = some b)
    (heoi : eoi_only_last (b :: rest))
    (hdel : Delivers call (first_adjust true b) (opener s).2 rest)
    (hdone : (load_turbodisk call opener fuel s).2.isSome = true) :
    (load_turbodisk call opener fuel s).1.filter is_refill =
        List.replicate rest.length (Event.refill 0) ∧
      ((load_turbodisk call opener fuel s).1.filter is_refill).length + 1 =
        (b :: rest).length ∧
      (load_turbodisk call opener fuel s).1 =
        Event.set_clock 0 :: Event.cli ::
          (sector_frame true b ++ rest.flatMap (sector_frame false)).map Prod.snd ++
          [Event.sei, Event.cleanup, Event.set_clock 1] ∧
      (∀ (f : Nat) (first : Bool) (x : buffer_t) (t : σ), x.sendeoi = true →
        (turbodisk_loop call f first x t).1.filter is_refill = []) := by
  have hloop : (turbodisk_loop call fuel true b (opener s).2).2.isSome = true := by
    unfold load_turbodisk at hdone
    simp only [hopen] at hdone
    cases h : (turbodisk_loop call fuel true b (opener s).2).2 with
    | none => rw [h] at hdone; simp at hdone
    | some v => rfl
  have htrace := turbodisk_loop_delivers_done call rest true b (opener s).2 fuel heoi hdel hloop
  obtain ⟨⟨bl, s2⟩, hbl⟩ := Option.isSome_iff_exists.mp hloop
  have hfull : (load_turbodisk call opener fuel s).1 =
      Event.set_clock 0 :: Event.cli ::
        (sector_frame true b ++ rest.flatMap (sector_frame false)).map Prod.snd ++
        [Event.sei, Event.cleanup, Event.set_clock 1] := by
    unfold load_turbodisk
    simp only [hopen, hbl, htrace]
  have hcount : (load_turbodisk call opener fuel s).1.filter is_refill =
      List.replicate rest.length (Event.refill 0) := by
    rw [hfull]
    simp only [List.filter_cons, List.filter_append, is_refill,
      filter_refill_frames rest true b heoi]
    simp
  refine ⟨hcount, ?_, hfull, ?_⟩
  · rw [hcount]; simp
  · intro f first x t hx
    exact turbodisk_loop_eoi_no_refill call f first x t hx

/-- C15, concrete run: a file of ten bytes in three sectors; the run returns
and has invoked refill twice. -/
theorem refill_count_witness :
    (load_turbodisk script_call (open_slot demo_first) 259 demo_rest).2.isSome = true ∧
    (load_turbodisk script_call (open_slot demo_first) 259 demo_rest).1.filter is_refill =
      [Event.refill 0, Event.refill 0] :=
  have hd : (load_turbodisk script_call (open_slot demo_first) 259 demo_rest).2.isSome =
      true := by decide
  ⟨hd, (refill_count script_call (open_slot demo_first) demo_rest demo_first demo_rest 259
    rfl (by simp [eoi_only_last, demo_first, demo_rest, sector])
    (by simp [Delivers, script_call, demo_first, demo_rest, sector, first_adjust, open_slot])
    hd).1⟩

/-! ## Termination of the transfer loop -/

/-- How a run that ends after `n` successful refills ends: with the fault
sentinel after the failed refill, or with the length byte and the bytes of a
slot with `sendeoi` set whose length the 8-bit counter can count. -/
theorem turbodisk_loop_stops_shape {σ : Type}
    (call : Callback → buffer_t → σ → Nat × buffer_t × σ) :
    ∀ (n fuel : Nat) (first : Bool) (b : buffer_t) (s : σ),
      Stops call n (first_adjust first b) s → n + 257 ≤ fuel →
      (∃ (pre : List Event) (rc : Nat), rc ≠ 0 ∧
        (turbodisk_loop call fuel first b s).1 =
          pre ++ [Event.refill rc, Event.turbodisk_byte 0xff]) ∨
      (∃ (pre : List Event) (bl : buffer_t), bl.sendeoi = true ∧ bl.length ≤ 254 ∧
        (turbodisk_loop call fuel first b s).1 =
          pre ++ Event.turbodisk_byte ((bl.length + 2) % 256) ::
            (span bl).map Event.turbodisk_byte) := by
  intro n
  induction n with
  | zero =>
    intro fuel first b s hstop hfuel
    obtain ⟨f, rfl⟩ : ∃ f, fuel = f + 1 := ⟨fuel - 1, by omega⟩
    rcases hstop with ⟨he, hl⟩ | ⟨he, hr⟩
    · right
      refine ⟨Event.turbodisk_byte (if b.sendeoi then 0 else 1) ::
        load_address_events first b, first_adjust first b, he, hl, ?_⟩
      rw [turbodisk_loop_final_framing call f first b s he hl (by omega)]
    · left
      refine ⟨Event.turbodisk_byte (if b.sendeoi then 0 else 1) ::
        load_address_events first b ++ [Event.turbodisk_buffer (span (first_adjust first b))],
        _, hr, ?_⟩
      rw [turbodisk_loop_bulk call f first b s he, if_pos hr]
      simp
  | succ n ih =>
    intro fuel first b s hstop hfuel
    obtain ⟨f, rfl⟩ : ∃ f, fuel = f + 1 := ⟨fuel - 1, by omega⟩
    obtain ⟨he, hr, hrest⟩ := hstop
    have hn : ¬ (call (first_adjust first b).refill (first_adjust first b) s).1 ≠ 0 :=
      fun h => h hr
    rw [turbodisk_loop_bulk call f first b s he, if_neg hn]
    rcases ih f false _ _ (by rw [first_adjust_false]; exact hrest) (by omega) with
      ⟨pre, rc, hrc, ht⟩ | ⟨pre, bl, hbe, hbl, ht⟩
    · left
      refine ⟨Event.turbodisk_byte (if b.sendeoi then 0 else 1) ::
        load_address_events first b ++
        Event.turbodisk_buffer (span (first_adjust first b)) ::
        Event.refill (call (first_adjust first b).refill (first_adjust first b) s).1 :: pre,
        rc, hrc, ?_⟩
      simp only [ht]
      simp
    · right
      refine ⟨Event.turbodisk_byte (if b.sendeoi then 0 else 1) ::
        load_address_events first b ++
        Event.turbodisk_buffer (span (first_adjust first b)) ::
        Event.refill (call (first_adjust first b).refill (first_adjust first b) s).1 :: pre,
        bl, hbe, hbl, ?_⟩
      simp only [ht]
      simp

/-- A run that ends after `n` successful refills ends on the slot those
refills lead to.  When that slot has `sendeoi` set, the loop is left with it,
after the length byte and the run of the byte loop on it; otherwise its refill
reports the fault and the loop is left after the sentinel.  Before that the
loop has made `n` refills, each returning 0. -/
theorem turbodisk_loop_stops_reach {σ : Type}
    (call : Callback → buffer_t → σ → Nat × buffer_t × σ) :
    ∀ (n fuel : Nat) (first : Bool) (b : buffer_t) (s : σ),
      Stops call n (first_adjust first b) s → n + 257 ≤ fuel →
      ((reach call n (first_adjust first b) s).1.sendeoi = true →
        (reach call n (first_adjust first b) s).1.length ≤ 254 ∧
        (turbodisk_loop call fuel first b s).2 = some (reach call n (first_adjust first b) s) ∧
        ∃ pre, (turbodisk_loop call fuel first b s).1 =
            pre ++ Event.turbodisk_byte
                (((reach call n (first_adjust first b) s).1.length + 2) % 256) ::
              (send_last (reach call n (first_adjust first b) s).1 (fuel - (n + 1)) 0).1 ∧
          pre.filter is_refill = List.replicate n (Event.refill 0)) ∧
      ((reach call n (first_adjust first b) s).1.sendeoi = false →
        (call (reach call n (first_adjust first b) s).1.refill
            (reach call n (first_adjust first b) s).1
            (reach call n (first_adjust first b) s).2).1 ≠ 0 ∧
        (turbodisk_loop call fuel first b s).2 =
          some (call (reach call n (first_adjust first b) s).1.refill
            (reach call n (first_adjust first b) s).1
            (reach call n (first_adjust first b) s).2).2 ∧
        ∃ pre, (turbodisk_loop call fuel first b s).1 =
            pre ++ [Event.turbodisk_buffer (span (reach call n (first_adjust first b) s).1),
              Event.refill (call (reach call n (first_adjust first b) s).1.refill
                (reach call n (first_adjust first b) s).1
                (reach call n (first_adjust first b) s).2).1,
              Event.turbodisk_byte 0xff] ∧
          pre.filter is_refill = List.replicate n (Event.refill 0)) := by
  intro n
  induction n with
  | zero =>
    intro fuel first b s hstop hfuel
    obtain ⟨f, rfl⟩ : ∃ f, fuel = f + 1 := ⟨fuel - 1, by omega⟩
    have hpre : (Event.turbodisk_byte (if b.sendeoi then 0 else 1) ::
        load_address_events first b).filter is_refill = [] := by
      simp only [List.filter_cons, is_refill, filter_refill_load_address]
      rfl
    show ((first_adjust first b).sendeoi = true → _) ∧
      ((first_adjust first b).sendeoi = false → _)
    constructor
    · intro he
      rcases hstop with ⟨_, hl⟩ | ⟨he2, _⟩
      · refine ⟨hl, ?_, Event.turbodisk_byte (if b.sendeoi then 0 else 1) ::
          load_address_events first b, ?_, hpre⟩
        · rw [turbodisk_loop_final_framing call f first b s he hl (by omega)]
          rfl
        · rw [turbodisk_loop_final call f first b s he]
          rfl
      · rw [he] at he2; cases he2
    · intro he
      rcases hstop with ⟨he2, _⟩ | ⟨_, hr⟩
      · rw [he] at he2; cases he2
      · refine ⟨hr, ?_, Event.turbodisk_byte (if b.sendeoi then 0 else 1) ::
          load_address_events first b, ?_, hpre⟩
        · rw [turbodisk_loop_bulk call f first b s he, if_pos hr]
          rfl
        · rw [turbodisk_loop_bulk call f first b s he, if_pos hr]
          rfl
  | succ n ih =>
    intro fuel first b s hstop hfuel
    obtain ⟨f, rfl⟩ : ∃ f, fuel = f + 1 := ⟨fuel - 1, by omega⟩
    obtain ⟨he, hr, hrest⟩ := hstop
    have hn : ¬ (call (first_adjust first b).refill (first_adjust first b) s).1 ≠ 0 :=
      fun h => h hr
    have hrec := ih f false (call (first_adjust first b).refill (first_adjust first b) s).2.1
      (call (first_adjust first b).refill (first_adjust first b) s).2.2
      (by rw [first_adjust_false]; exact hrest) (by omega)
    rw [first_adjust_false] at hrec
    have hsub : f + 1 - (n + 1 + 1) = f - (n + 1) := by omega
    have hpre : ∀ pre : List Event, pre.filter is_refill = List.replicate n (Event.refill 0) →
        (Event.turbodisk_byte (if b.sendeoi then 0 else 1) ::
          (load_address_events first b ++
          Event.turbodisk_buffer (span (first_adjust first b)) ::
          Event.refill (call (first_adjust first b).refill (first_adjust first b) s).1 ::
          pre)).filter is_refill = List.replicate (n + 1) (Event.refill 0) := by
      intro pre hp
      rw [hr]
      simp only [List.filter_cons, List.filter_append, is_refill,
        filter_refill_load_address, hp]
      rfl
    have hrs : reach call (n + 1) (first_adjust first b) s =
        reach call n (call (first_adjust first b).refill (first_adjust first b) s).2.1
          (call (first_adjust first b).refill (first_adjust first b) s).2.2 := rfl
    rw [turbodisk_loop_bulk call f first b s he, if_neg hn, hsub, hrs]
    constructor
    · intro hfin
      obtain ⟨hl, hst, pre, htr, hp⟩ := hrec.1 hfin
      refine ⟨hl, hst, _, ?_, hpre pre hp⟩
      show _ :: (_ ++ _ :: _ :: _) = _
      rw [htr]
      simp
    · intro hfin
      obtain ⟨hrc, hst, pre, htr, hp⟩ := hrec.2 hfin
      refine ⟨hrc, hst, _, ?_, hpre pre hp⟩
      show _ :: (_ ++ _ :: _ :: _) = _
      rw [htr]
      simp

/-- C20.  Termination of the transfer loop.  Let the open leave a first sector
whose 8-bit length field is at least 2, and let the backend, after `n`
successful refills, either report a fault or hold a slot with `sendeoi` set
whose length field, as the byte loop iterates it, is at most 254.  Then
`load_turbodisk` returns once the bound covers the rounds, and the
first-sector adjustment does not wrap.  Let `bl` be the slot and `sl` the state
those `n` refills lead to.  When `bl` has `sendeoi` set, the loop is left with
`bl` and `sl` after `n` refills, the length byte of `bl` and the byte loop on
`bl`; that byte loop is left, its body has run exactly `length + 1` times,
sending the valid bytes of `bl` in order, and in each of its rounds the 8-bit
counter steps from `i` to `i + 1` without wrapping.  When `bl` has `sendeoi`
clear, its refill reports the fault and the loop is left after the sentinel. -/
theorem transfer_loop_terminates {σ : Type}
    (call : Callback → buffer_t → σ → Nat × buffer_t × σ)
    (opener : σ → Option buffer_t × σ) (s : σ) (b : buffer_t) (n fuel : Nat)
    (hopen : (opener s).1 = some b)
    (hfirst : 2 ≤ b.length) (h8 : b.length ≤ 255)
    (hstop : Stops call n (first_adjust true b) (opener s).2)
    (hfuel : n + 257 ≤ fuel) :
    (load_turbodisk call opener fuel s).2.isSome = true ∧
    (first_adjust true b).length + 2 = b.length ∧
    (load_turbodisk call opener fuel s).1 =
      Event.set_clock 0 :: Event.cli :: (turbodisk_loop call fuel true b (opener s).2).1 ++
        [Event.sei, Event.cleanup, Event.set_clock 1] ∧
    ∃ bl sl, reach call n (first_adjust true b) (opener s).2 = (bl, sl) ∧
      (bl.sendeoi = true →
        bl.length ≤ 254 ∧
        (turbodisk_loop call fuel true b (opener s).2).2 = some (bl, sl) ∧
        (∃ pre, (turbodisk_loop call fuel true b (opener s).2).1 =
            pre ++ Event.turbodisk_byte ((bl.length + 2) % 256) ::
              (send_last bl (fuel - (n + 1)) 0).1 ∧
          pre.filter is_refill = List.replicate n (Event.refill 0)) ∧
        send_last bl (fuel - (n + 1)) 0 = ((span bl).map Event.turbodisk_byte, true) ∧
        (send_last bl (fuel - (n + 1)) 0).1.length = bl.length + 1 ∧
        (∀ i f : Nat, i ≤ bl.length →
          send_last bl (f + 1) i =
            (Event.turbodisk_byte (peek bl.data (bl.position + i)) ::
              (send_last bl f (i + 1)).1, (send_last bl f (i + 1)).2))) ∧
      (bl.sendeoi = false →
        (call bl.refill bl sl).1 ≠ 0 ∧
        (turbodisk_loop call fuel true b (opener s).2).2 = some (call bl.refill bl sl).2 ∧
        ∃ pre, (turbodisk_loop call fuel true b (opener s).2).1 =
            pre ++ [Event.turbodisk_buffer (span bl), Event.refill (call bl.refill bl sl).1,
              Event.turbodisk_byte 0xff] ∧
          pre.filter is_refill = List.replicate n (Event.refill 0)) := by
  have hsome := turbodisk_loop_stops call n fuel true b (opener s).2 hstop hfuel
  obtain ⟨⟨bl0, s2⟩, hbl⟩ := Option.isSome_iff_exists.mp hsome
  have hreach := turbodisk_loop_stops_reach call n fuel true b (opener s).2 hstop hfuel
  refine ⟨?_, ?_, ?_, (reach call n (first_adjust true b) (opener s).2).1,
    (reach call n (first_adjust true b) (opener s).2).2, rfl, ?_, ?_⟩
  · unfold load_turbodisk
    simp only [hopen, hbl, Option.isSome_some]
  · simp only [first_adjust, if_true]
    omega
  · unfold load_turbodisk
    simp only [hopen, hbl]
  · intro he
    obtain ⟨hl, hst, hpre⟩ := hreach.1 he
    have hspan := send_last_span (reach call n (first_adjust true b) (opener s).2).1 hl
      (fuel - (n + 1)) (by omega)
    refine ⟨hl, hst, hpre, hspan, ?_, ?_⟩
    · rw [hspan]
      simp [span]
    · intro i f hi
      rw [send_last, if_pos hi, Nat.mod_eq_of_lt (by omega)]
  · intro he
    exact hreach.2 he

/-- C20, concrete run: a file of ten bytes in three sectors, the last with
`sendeoi` set after two successful refills; the run returns. -/
theorem transfer_loop_terminates_witness :
    Stops script_call 2 (first_adjust true demo_first) demo_rest ∧
    (load_turbodisk script_call (open_slot demo_first) 259 demo_rest).2.isSome = true :=
  have hs : Stops script_call 2 (first_adjust true demo_first) demo_rest := by
    simp [Stops, script_call, demo_first, demo_rest, sector, first_adjust]
  ⟨hs, (transfer_loop_terminates script_call (open_slot demo_first) demo_rest demo_first
    2 259 rfl (by decide) (by decide) hs (by decide)).1⟩

/-! ## Match-all patterns -/

/-- The pattern `*` accepts every padded filename. -/
theorem match_name_star_all (name : List Nat) : match_name [42] name = 1 := by
  show match_name_loop name (16 + 1) [42] 0 = 1
  rw [match_name_loop]
  by_cases h : peek name 0 ≠ 0xa0 ∧ 0 < CBM_NAME_LENGTH
  · rw [if_pos h]
    simp
  · rw [if_neg h]
    simp

/-- The zero-length pattern accepts a filename that starts with the pad. -/
theorem match_name_empty_pad (name : List Nat) (h : peek name 0 = 0xa0) :
    match_name [] name = 1 := by
  show match_name_loop name (16 + 1) [] 0 = 1
  rw [match_name_loop]
  have hc : ¬ (peek name 0 ≠ 0xa0 ∧ 0 < CBM_NAME_LENGTH) := fun hh => hh.1 h
  rw [if_neg hc]
  simp

/-- The zero-length pattern rejects a filename whose first byte is neither the
pad nor 0. -/
theorem match_name_empty_reject (name : List Nat) (h : peek name 0 ≠ 0xa0)
    (h0 : peek name 0 ≠ 0) : match_name [] name = 0 := by
  show match_name_loop name (16 + 1) [] 0 = 0
  rw [match_name_loop]
  have hc : peek name 0 ≠ 0xa0 ∧ 0 < CBM_NAME_LENGTH := ⟨h, by decide⟩
  rw [if_pos hc]
  simp [h0]

/-- C16, as the spec states it, fails for the zero-length pattern: the entry
FOO has its hidden flag clear, `match_name` rejects its name under the
zero-length pattern, and `next_match` with no type filter steps over it. -/
theorem empty_pattern_counterexample :
    demo_foo.typeflags &&& stdConsts.FLAG_HIDDEN = 0 ∧
    match_name [] demo_foo.name = 0 ∧
    next_match stdConsts [ReadResult.entry demo_foo] (some []) 0 dent_uninit =
      (-1, [], demo_foo) := by
  decide

/-- C16, amended.  Match-all patterns.  For every directory entry whose hidden
flag is clear, `next_match` with no type filter (type 0) returns the entry
when the name pattern is `*` and when there is no name pattern (NULL), and
`match_name` accepts every padded filename under `*`.  Under the zero-length
pattern `match_name` accepts a filename that starts with the pad (an empty
logical name), and the entry is returned; it rejects a filename whose first
byte is neither the pad nor 0, and the entry is stepped over. -/
theorem match_all_patterns (c : Consts) (d dent : cbmdirent) (rest : DIR)
    (hhid : d.typeflags &&& c.FLAG_HIDDEN = 0) :
    match_name [42] d.name = 1 ∧
    next_match c (ReadResult.entry d :: rest) (some [42]) 0 dent = (0, rest, d) ∧
    next_match c (ReadResult.entry d :: rest) none 0 dent = (0, rest, d) ∧
    (peek d.name 0 = 0xa0 →
      match_name [] d.name = 1 ∧
      next_match c (ReadResult.entry d :: rest) (some []) 0 dent = (0, rest, d)) ∧
    (peek d.name 0 ≠ 0xa0 → peek d.name 0 ≠ 0 →
      match_name [] d.name = 0 ∧
      next_match c (ReadResult.entry d :: rest) (some []) 0 dent =
        next_match c rest (some []) 0 d) := by
  have ht : ¬ ((0 &&& c.TYPE_MASK) ≠ 0 ∧
      (d.typeflags &&& c.TYPE_MASK) ≠ (0 &&& c.TYPE_MASK)) := by
    rw [Nat.zero_and]; exact fun h => h.1 rfl
  have hh : ¬ ((d.typeflags &&& c.FLAG_HIDDEN) ≠ 0 ∧ (0 &&& c.FLAG_HIDDEN) = 0) :=
    fun h => h.1 hhid
  refine ⟨match_name_star_all d.name, ?_, ?_, ?_, ?_⟩
  · rw [next_match, if_neg ht, if_neg hh]
    have hn : ¬ ((some [42] : Option (List Nat)).isSome ∧
        match_name ((some [42] : Option (List Nat)).getD []) d.name = 0) := by
      rw [Option.getD_some, match_name_star_all]
      exact fun h => absurd h.2 (by decide)
    rw [if_neg hn]
  · rw [next_match, if_neg ht, if_neg hh]
    have hn : ¬ ((none : Option (List Nat)).isSome ∧
        match_name ((none : Option (List Nat)).getD []) d.name = 0) := by
      exact fun h => absurd h.1 (by decide)
    rw [if_neg hn]
  · intro hp
    refine ⟨match_name_empty_pad d.name hp, ?_⟩
    rw [next_match, if_neg ht, if_neg hh]
    have hn : ¬ ((some [] : Option (List Nat)).isSome ∧
        match_name ((some [] : Option (List Nat)).getD []) d.name = 0) := by
      rw [Option.getD_some, match_name_empty_pad d.name hp]
      exact fun h => absurd h.2 (by decide)
    rw [if_neg hn]
  · intro hp h0
    refine ⟨match_name_empty_reject d.name hp h0, ?_⟩
    rw [next_match, if_neg ht, if_neg hh]
    have hn : (some [] : Option (List Nat)).isSome ∧
        match_name ((some [] : Option (List Nat)).getD []) d.name = 0 := by
      rw [Option.getD_some, match_name_empty_reject d.name hp h0]
      exact ⟨rfl, rfl⟩
    rw [if_pos hn]

/-- C16, concrete run: the entry FOO, hidden flag clear, is returned under the
pattern `*` and under no pattern. -/
theorem match_all_patterns_witness :
    demo_foo.typeflags &&& stdConsts.FLAG_HIDDEN = 0 ∧
    next_match stdConsts [ReadResult.entry demo_foo] (some [42]) 0 dent_uninit =
      (0, [], demo_foo) ∧
    next_match stdConsts [ReadResult.entry demo_foo] none 0 dent_uninit =
      (0, [], demo_foo) :=
  have h := match_all_patterns stdConsts demo_foo dent_uninit [] (by decide)
  ⟨by decide, h.2.1, h.2.2.1⟩

/-! ## Slot bounds -/

/-- The slot and pool record `load_directory` leaves when the pool offers a
slot and neither `opendir` nor `disk_label` nor `disk_id` reports a fault. -/
theorem load_directory_ok (c : Consts) (env : Env) (secondary : Nat)
    (command_buffer : List Nat) (command_length : Nat) (f b : buffer_t) (p : Pool)
    (label id : List Nat)
    (ho : load_directory_open c env command_buffer command_length
      { f with allocated := true } = some b)
    (hl : env.disk_label = some label) (hi : env.disk_id = some id) :
    load_directory c env secondary command_buffer command_length (some f) p =
      (some { b with
          secondary := secondary, read := true, write := false,
          cleanup := Callback.generic_cleanup, position := 0, length := 31,
          sendeoi := false, refill := Callback.dir_refill,
          data := memcpy (memcpy (memcpy b.data 0 dirheader dirheader.length) 8 label
            label.length) HEADER_OFFSET_ID id id.length },
       { p with allocs := p.allocs + 1 }) := by
  unfold load_directory alloc_buffer
  simp -zeta only [ho, hl, hi]

/-- When `opendir`, `disk_label` or `disk_id` reports a fault, `load_directory`
leaves the slot released. -/
theorem load_directory_fault (c : Consts) (env : Env) (secondary : Nat)
    (command_buffer : List Nat) (command_length : Nat) (f : buffer_t) (p : Pool)
    (h : load_directory_open c env command_buffer command_length
        { f with allocated := true } = none ∨ env.disk_label = none ∨ env.disk_id = none) :
    (load_directory c env secondary command_buffer command_length (some f) p).1.map
      buffer_t.allocated = some false := by
  unfold load_directory alloc_buffer
  cases ho : load_directory_open c env command_buffer command_length
      { f with allocated := true } with
  | none =>
    simp -zeta only [ho]
    rfl
  | some b =>
    cases hl : env.disk_label with
    | none =>
      simp -zeta only [ho, hl]
      rfl
    | some label =>
      cases hi : env.disk_id with
      | none =>
        simp -zeta only [ho, hl, hi]
        rfl
      | some id =>
        rcases h with h | h | h
        · rw [ho] at h; cases h
        · rw [hl] at h; cases h
        · rw [hi] at h; cases h

/-- On every path `dir_refill` leaves position 0 and a length of at most 31. -/
theorem dir_refill_bounds (c : Consts) (blocks : Nat) (buf : buffer_t) (p : Pool) :
    (dir_refill c blocks buf p).2.1.position = 0 ∧
    (dir_refill c blocks buf p).2.1.length ≤ 31 := by
  unfold dir_refill
  simp only []
  by_cases h0 : (next_match c buf.dh buf.matchstr buf.filetype dent_uninit).1 = 0
  · rw [if_pos h0]
    refine ⟨rfl, ?_⟩
    show (_ + 255) % 256 ≤ 31
    rw [addentry_length]
    simp only [Nat.zero_add, Nat.reduceMod, Nat.reduceAdd, le_refl]
  · rw [if_neg h0]
    by_cases h1 : (next_match c buf.dh buf.matchstr buf.filetype dent_uninit).1 = -1
    · rw [if_pos h1]
      exact ⟨rfl, Nat.le_refl _⟩
    · rw [if_neg h1]
      exact ⟨rfl, Nat.zero_le _⟩

/-- The slot `load_directory` leaves allocated has position 0 and length 31. -/
theorem load_directory_header_bounds (c : Consts) (env : Env) (secondary : Nat)
    (command_buffer : List Nat) (command_length : Nat) (free : Option buffer_t) (p : Pool)
    (x : buffer_t)
    (h : (load_directory c env secondary command_buffer command_length free p).1 = some x)
    (ha : x.allocated = true) : x.position = 0 ∧ x.length = 31 := by
  cases free with
  | none => simp [load_directory, alloc_buffer] at h
  | some f =>
    by_cases hf : load_directory_open c env command_buffer command_length
        { f with allocated := true } = none ∨ env.disk_label = none ∨ env.disk_id = none
    · have hm := load_directory_fault c env secondary command_buffer command_length f p hf
      rw [h] at hm
      simp only [Option.map_some', Option.some.injEq] at hm
      rw [hm] at ha
      cases ha
    · simp only [not_or] at hf
      obtain ⟨b, hb⟩ := Option.ne_none_iff_exists'.mp hf.1
      obtain ⟨label, hl⟩ := Option.ne_none_iff_exists'.mp hf.2.1
      obtain ⟨id, hi⟩ := Option.ne_none_iff_exists'.mp hf.2.2
      rw [load_directory_ok c env secondary command_buffer command_length f b p label id
        hb hl hi] at h
      simp only [Option.some.injEq] at h
      have h1 := congrArg buffer_t.position h
      have h2 := congrArg buffer_t.length h
      exact ⟨h1.symm, h2.symm⟩

/-- C17.  Slot bounds.  The header set-up of `load_directory`, `dir_refill`
(with `addentry`) and `dir_footer` leave position 0 and a length of at most
31.  The first-sector adjustment of `load_turbodisk`, on a slot with position
0 and an 8-bit length field, keeps `position + length` at the old length when
that length is at least 2; when the length is 0 or 1 (a file of one or two
bytes) the 8-bit subtraction wraps and `position + length` becomes 256 or 257,
outside the 256 bytes of the buffer. -/
theorem slot_bounds_first_sector (c : Consts) (env : Env) (blocks : Nat)
    (buf b : buffer_t) (p : Pool)
    (hpos : b.position = 0) (h8 : b.length ≤ 255) :
    b.position + b.length ≤ 255 ∧
    (∀ (secondary : Nat) (command_buffer : List Nat) (command_length : Nat)
        (free : Option buffer_t) (x : buffer_t),
      (load_directory c env secondary command_buffer command_length free p).1 = some x →
      x.allocated = true → x.position + x.length ≤ 255) ∧
    (dir_refill c blocks buf p).2.1.position + (dir_refill c blocks buf p).2.1.length ≤ 255 ∧
    (dir_footer blocks buf).2.position + (dir_footer blocks buf).2.length ≤ 255 ∧
    (2 ≤ b.length →
      (first_adjust true b).position + (first_adjust true b).length = b.length) ∧
    (b.length ≤ 1 →
      (first_adjust true b).position + (first_adjust true b).length = b.length + 256) := by
  refine ⟨by omega, ?_, ?_, ?_, ?_, ?_⟩
  · intro secondary command_buffer command_length free x hx ha
    obtain ⟨h1, h2⟩ := load_directory_header_bounds c env secondary command_buffer
      command_length free p x hx ha
    omega
  · obtain ⟨h1, h2⟩ := dir_refill_bounds c blocks buf p
    omega
  · show 0 + 31 ≤ 255
    omega
  · intro h2
    show 2 + (b.length + 254) % 256 = b.length
    omega
  · intro h1
    show 2 + (b.length + 254) % 256 = b.length + 256
    omega

/-- C17, concrete run: the slot of a file of two bytes has position 0 and
length 1; after the first-sector adjustment `position + length` is 257. -/
theorem slot_bounds_first_sector_witness :
    two_byte_file.position = 0 ∧ two_byte_file.position + two_byte_file.length ≤ 255 ∧
    (first_adjust true two_byte_file).position + (first_adjust true two_byte_file).length =
      257 :=
  have h := slot_bounds_first_sector stdConsts (demo_env []) 0 blank_slot two_byte_file
    ⟨0, 0⟩ rfl (by decide)
  ⟨rfl, h.1, h.2.2.2.2.2 (by decide)⟩

/-! ## Permissive type suffix -/

/-- What the first part of `load_directory` leaves for a command with a name
pattern that holds a `=`. -/
theorem load_directory_open_suffix (c : Consts) (env : Env) (command_buffer : List Nat)
    (command_length : Nat) (buf : buffer_t) (dh : DIR) (k : Nat)
    (hlen : 2 < command_length)
    (hopen : env.opendir (env.parse_path (command_buffer.drop 1)).1 = some dh)
    (heq : strchr (env.parse_path (command_buffer.drop 1)).2 61 = some k) :
    load_directory_open c env command_buffer command_length buf =
      some { buf with
        dh := dh,
        matchstr := some (poke (env.parse_path (command_buffer.drop 1)).2 k 0),
        filetype := dir_filetype c (peek (env.parse_path (command_buffer.drop 1)).2 (k + 1)) } := by
  unfold load_directory_open
  have hg : command_length > 2 := hlen
  simp only [hg, hopen, heq, if_true]

/-- The `switch` on the suffix letter falls to its default for every letter
other than S, P, U, R, C, B, D and H. -/
theorem dir_filetype_default (c : Consts) (ch : Nat)
    (h : ch ≠ 83 ∧ ch ≠ 80 ∧ ch ≠ 85 ∧ ch ≠ 82 ∧ ch ≠ 67 ∧ ch ≠ 66 ∧ ch ≠ 68 ∧ ch ≠ 72) :
    dir_filetype c ch = 0 := by
  obtain ⟨h1, h2, h3, h4, h5, h6, h7, h8⟩ := h
  unfold dir_filetype
  rw [if_neg h1, if_neg h2, if_neg h3, if_neg h4, if_neg h5,
    if_neg (by rintro (h | h); exact h6 h; exact h7 h), if_neg h8]

/-- With type filter 0 the type check of `next_match` fails for no entry. -/
theorem type_filter_zero (c : Consts) (d : cbmdirent) : ¬ type_mismatch c 0 d := by
  unfold type_mismatch
  rw [Nat.zero_and]
  exact fun h => h.1 rfl

/-- C18.  Permissive type suffix.  Let the command of `load_directory` carry a
name pattern with a `=` followed by a letter that is none of S, P, U, R, C, B,
D, H, and let `opendir`, `disk_label` and `disk_id` report no fault.  Then the
open is not rejected: `load_directory` leaves an allocated listing slot, bound
to `dir_refill`, whose pattern is the text before the `=` and whose type filter
is 0.  With type filter 0 (the value of `TYPE_DEL`) the type check of
`next_match` fails for no entry, so an entry passes exactly when the hidden
rule and the name pattern allow it, and `next_match` returns such an entry. -/
theorem permissive_type_suffix (c : Consts) (env : Env) (secondary : Nat)
    (command_buffer : List Nat) (command_length : Nat) (f : buffer_t) (p : Pool)
    (dh : DIR) (k : Nat) (label id : List Nat)
    (hlen : 2 < command_length)
    (hopen : env.opendir (env.parse_path (command_buffer.drop 1)).1 = some dh)
    (heq : strchr (env.parse_path (command_buffer.drop 1)).2 61 = some k)
    (hletter : peek (env.parse_path (command_buffer.drop 1)).2 (k + 1) ≠ 83 ∧
      peek (env.parse_path (command_buffer.drop 1)).2 (k + 1) ≠ 80 ∧
      peek (env.parse_path (command_buffer.drop 1)).2 (k + 1) ≠ 85 ∧
      peek (env.parse_path (command_buffer.drop 1)).2 (k + 1) ≠ 82 ∧
      peek (env.parse_path (command_buffer.drop 1)).2 (k + 1) ≠ 67 ∧
      peek (env.parse_path (command_buffer.drop 1)).2 (k + 1) ≠ 66 ∧
      peek (env.parse_path (command_buffer.drop 1)).2 (k + 1) ≠ 68 ∧
      peek (env.parse_path (command_buffer.drop 1)).2 (k + 1) ≠ 72)
    (hl : env.disk_label = some label) (hi : env.disk_id = some id) :
    (∃ x, (load_directory c env secondary command_buffer command_length (some f) p).1 =
        some x ∧
      x.allocated = true ∧ x.secondary = secondary ∧ x.refill = Callback.dir_refill ∧
      x.dh = dh ∧
      x.matchstr = some (poke (env.parse_path (command_buffer.drop 1)).2 k 0) ∧
      x.filetype = 0) ∧
    TYPE_DEL = 0 ∧
    (∀ d : cbmdirent, ¬ type_mismatch c 0 d) ∧
    (∀ (m : Option (List Nat)) (d : cbmdirent),
      passes c m 0 d ↔ (¬ hidden_skip c 0 d ∧ ¬ name_mismatch m d)) ∧
    (∀ (m : Option (List Nat)) (d dent : cbmdirent) (rest : DIR),
      ¬ hidden_skip c 0 d → ¬ name_mismatch m d →
      next_match c (ReadResult.entry d :: rest) m 0 dent = (0, rest, d)) := by
  have ho := load_directory_open_suffix c env command_buffer command_length
    { f with allocated := true } dh k hlen hopen heq
  rw [dir_filetype_default c _ hletter] at ho
  have hld := load_directory_ok c env secondary command_buffer command_length f _ p
    label id ho hl hi
  refine ⟨⟨_, congrArg Prod.fst hld, rfl, rfl, rfl, rfl, rfl, rfl⟩, rfl,
    type_filter_zero c, ?_, ?_⟩
  · intro m d
    unfold passes
    exact ⟨fun h => h.2, fun h => ⟨type_filter_zero c d, h⟩⟩
  · intro m d dent rest hh hn
    apply next_match_cons_entry
    simp only [is_skipped, decide_eq_false_iff_not, not_not, passes]
    exact ⟨type_filter_zero c d, hh, hn⟩

/-- C18, concrete run: the command `$:*=X` on a directory that holds the
sequential file BAZ.  The listing slot has type filter 0 and pattern `:*`. -/
theorem permissive_type_suffix_witness :
    ∃ x, (load_directory stdConsts (demo_env [ReadResult.entry demo_baz]) 0
        [36, 58, 42, 61, 88] 5 (some blank_slot) ⟨0, 0⟩).1 = some x ∧
      x.allocated = true ∧ x.matchstr = some [58, 42, 0, 88] ∧ x.filetype = 0 :=
  have h := permissive_type_suffix stdConsts (demo_env [ReadResult.entry demo_baz]) 0
    [36, 58, 42, 61, 88] 5 blank_slot ⟨0, 0⟩ [ReadResult.entry demo_baz] 2
    [68, 73, 83, 75] [73, 75, 32, 50, 65] (by decide) rfl rfl (by decide) rfl rfl
  match h.1 with
  | ⟨x, hx, ha, _, _, _, hm, hf⟩ => ⟨x, hx, ha, hm, hf⟩

/-! ## file_open: strings and the suffix loop -/

/-- The final `switch` sends modify where it sends read. -/
theorem file_open_dispatch_modify (secondary : Nat) (path : List Nat) (dent : cbmdirent)
    (deleted : Option (List Nat × List Nat)) (free : Option buffer_t) (p : Pool) :
    file_open_dispatch secondary path open_modes.OPEN_MODIFY dent deleted free p =
      file_open_dispatch secondary path open_modes.OPEN_READ dent deleted free p := by
  unfold file_open_dispatch alloc_buffer
  cases free <;> rfl

/-- On the file of 512 bytes the loop of `load_turbodisk` is never left. -/
theorem full_file_loop_never_left :
    ∀ fuel : Nat, (turbodisk_loop script_call fuel true full_first [full_last]).2 = none := by
  intro fuel
  cases fuel with
  | zero => rfl
  | succ f =>
    have he : (first_adjust true full_first).sendeoi = false := rfl
    rw [turbodisk_loop_bulk script_call f true full_first [full_last] he]
    have hr : script_call (first_adjust true full_first).refill (first_adjust true full_first)
        [full_last] = (0, full_last, []) := rfl
    rw [hr]
    have hn : ¬ ((0 : Nat), full_last, ([] : List buffer_t)).1 ≠ 0 := fun h => h rfl
    rw [if_neg hn]
    exact turbodisk_loop_final_never script_call f false full_last [] rfl (by decide)

/-- C7.  Cleanup exactly once, the input on which the code leaves it.  A file
of 512 bytes arrives as two full sectors: the open leaves a slot for channel 0,
the one refill of the transfer returns 0, and the sector it delivers has
`sendeoi` set and the length field 255, inside the bounds of the slot.  The
byte loop on that sector is never left, so whatever the bound on the rounds,
`load_turbodisk` has not returned and the cleanup of the slot has not been
invoked: not once, where the spec says exactly once. -/
theorem cleanup_never_reached :
    (open_slot full_first ([full_last] : List buffer_t)).1 = some full_first ∧
    script_call (first_adjust true full_first).refill (first_adjust true full_first)
      [full_last] = (0, full_last, []) ∧
    full_last.sendeoi = true ∧ full_last.position + full_last.length ≤ 255 ∧
    (∀ fuel : Nat,
      (load_turbodisk script_call (open_slot full_first) fuel [full_last]).2 = none) ∧
    (∀ fuel : Nat,
      List.count Event.cleanup
        (load_turbodisk script_call (open_slot full_first) fuel [full_last]).1 = 0) ∧
    (∀ fuel : Nat,
      (load_turbodisk script_call (open_slot full_first) fuel [full_last]).1 =
        Event.set_clock 0 :: Event.cli ::
          (turbodisk_loop script_call fuel true full_first [full_last]).1) := by
  have hres : ∀ fuel : Nat,
      load_turbodisk script_call (open_slot full_first) fuel [full_last] =
        (Event.set_clock 0 :: Event.cli ::
          (turbodisk_loop script_call fuel true full_first [full_last]).1, none) := by
    intro fuel
    unfold load_turbodisk
    simp only [open_slot, full_file_loop_never_left]
  refine ⟨rfl, rfl, rfl, by decide, ?_, ?_, ?_⟩
  · intro fuel
    rw [hres]
  · intro fuel
    rw [hres, List.count_eq_zero]
    intro hm
    simp only [List.mem_cons, reduceCtorEq, false_or] at hm
    have := turbodisk_loop_events script_call fuel true full_first [full_last] _ hm
    simp [is_loop_event] at this
  · intro fuel
    rw [hres]

end Sd2iec
